import Mathlib

/-
  Shallow embedding of the h64 flat hash table (source/h64.c, include/h64/h64.h).

  Modelling conventions:
  * Machine integers (uint8_t, uint64_t, size_t) are Nat; a reduction mod 2^w is
    written explicitly at the points where the C code truncates (the hash value is
    reduced mod 2^64 where the uint64_t return value of the hasher callback is
    consumed; status bytes stay below 256 because every operation masks with 0xFF
    or sets single bits below bit 8).
  * The user callbacks stored in struct h64 (hasher, equals) never change after
    construction, so they are lifted out of the table record into a separate
    Callbacks parameter; this keeps equality of table states decidable.
  * NULL entry pointers become none; occupied slots hold some x.
  * The seed, which the C code derives from the allocation address of the group
    array via mixer64, is an unobservable input; every function that allocates a
    new group array therefore takes the fresh seed from an ambient supply
    (a list of seed values), and reachability quantifies over the supply.
  * The probe loops of h64_find_entry and h64_find_empty_entry have no structural
    bound; they are modelled with fuel equal to size_in_groups.  Because the probe
    sequence visits every group within the first size_in_groups iterations (the
    permutation property proved below) and a group that rejects a probe once
    rejects it forever, the C loop returns within size_in_groups iterations
    whenever it returns at all; fuel exhaustion (the none result) models
    divergence of the C loop.
  * Nested rehashes (a grow triggered inside the reinsertion loop of a resize)
    are bounded by a gas parameter for termination; results are conditioned on a
    some result, and gas only appears when completion itself is proved.
-/

namespace H64

/-- The user callbacks of struct h64: hasher (entry x seed to uint64 hash) and
equals (entry x entry to bool, true when equal as used by the engine and the
test driver). -/
structure Callbacks (E : Type) where
  hasher : E → Nat → Nat
  equals : E → E → Bool

/-- struct h64_group: one status byte (presence bits 0..6, was-full bit 7),
seven hint bytes, seven entry slots. -/
structure Group (E : Type) where
  status : Nat
  hints : List Nat
  entries : List (Option E)
deriving DecidableEq

/-- The all-zero group produced by memset in h64_init. -/
def emptyGroup (E : Type) : Group E :=
  ⟨0, List.replicate 7 0, List.replicate 7 none⟩

instance (E : Type) : Inhabited (Group E) := ⟨emptyGroup E⟩

/-- GROUP_ENTRIES = H64_INTERNAL_GROUP_ENTRIES = 7. -/
def GROUP_ENTRIES : Nat := 7

/-- ENTRIES_MASK = 0x7F. -/
def ENTRIES_MASK : Nat := 0x7F

/-- MIN_SIZE = DEFAULT_SIZE = 4. -/
def MIN_SIZE : Nat := 4

/-- group_was_full: status >> (CHAR_BIT - 1). -/
def group_was_full {E : Type} (g : Group E) : Nat :=
  g.status >>> 7

/-- group_is_full: (status & ENTRIES_MASK) == ENTRIES_MASK. -/
def group_is_full {E : Type} (g : Group E) : Bool :=
  (g.status &&& ENTRIES_MASK) == ENTRIES_MASK

/-- group_insert: store entry and hint at idx, set presence bit idx, and if the
group is now full set the whole status byte to 0xFF (the only place the
was-full bit is set). -/
def group_insert {E : Type} (g : Group E) (entry : E) (hint : Nat) (idx : Nat) :
    Group E :=
  let g1 : Group E :=
    { status := g.status ||| (1 <<< idx)
      hints := g.hints.set idx hint
      entries := g.entries.set idx (some entry) }
  if group_is_full g1 then { g1 with status := 0xFF } else g1

/-- group_update: overwrite the entry at idx, touching nothing else. -/
def group_update {E : Type} (g : Group E) (entry : E) (idx : Nat) : Group E :=
  { g with entries := g.entries.set idx (some entry) }

/-- group_erase_entry: return the prior entry at idx, null the entry, zero the
hint, and clear presence bit idx (status &= ~(1 << idx), which for idx < 7
leaves bit 7 alone). -/
def group_erase_entry {E : Type} (g : Group E) (idx : Nat) :
    Option E × Group E :=
  (g.entries.getD idx none,
   { status := g.status &&& (0xFF ^^^ (1 <<< idx))
     hints := g.hints.set idx 0
     entries := g.entries.set idx none })

/-- struct h64 (without the statistics counters, which are compiled out by
default and have no semantic effect, and with the constant callbacks lifted
out). -/
structure h64 (E : Type) where
  seed : Nat
  groups : List (Group E)
  size_in_groups : Nat
  count : Nat
deriving DecidableEq

/-- h64_init: clamp the requested size to MIN_SIZE, allocate zeroed groups,
install the fresh seed, zero the count. -/
def h64_init (E : Type) (seed : Nat) (size : Nat) : h64 E :=
  let size := if size < MIN_SIZE then MIN_SIZE else size
  { seed := seed
    groups := List.replicate size (emptyGroup E)
    size_in_groups := size
    count := 0 }

/-- h64_hash: call the hasher callback with the table seed; the result is a
uint64_t, hence the reduction mod 2^64. -/
def h64_hash {E : Type} (cb : Callbacks E) (h : h64 E) (entry : E) : Nat :=
  cb.hasher entry h.seed % 2 ^ 64

/-- hash_hint: the leftmost byte of the 64-bit hash (hash >> 56). -/
def hash_hint (hash : Nat) : Nat :=
  hash >>> 56

/-- struct probe_sequence. -/
structure ProbeSeq where
  start : Nat
  iteration : Nat
  size_mask : Nat
deriving DecidableEq

/-- ps_init: mask = size - 1, iteration 0, start = hash & mask. -/
def ps_init (hash : Nat) (size : Nat) : ProbeSeq :=
  { size_mask := size - 1
    iteration := 0
    start := hash &&& (size - 1) }

/-- ps_next: advance the iteration counter. -/
def ps_next (ps : ProbeSeq) : ProbeSeq :=
  { ps with iteration := ps.iteration + 1 }

/-- ps_position: (start + i * (i + 1) / 2) & mask. -/
def ps_position (ps : ProbeSeq) : Nat :=
  (ps.start + ps.iteration * (ps.iteration + 1) / 2) &&& ps.size_mask

/-- group_match_inserted: the SIMD byte-equality scan.  Bit i (i < 7) of the
movemask is set exactly when hint byte i equals the target; the mask is then
ANDed with the status byte and 0x7F, which both removes the unoccupied lanes
and discards the 9 high lanes of the 16-byte vector. -/
def group_match_inserted {E : Type} (g : Group E) (hint : Nat) : Nat :=
  ((List.range 7).foldl
      (fun acc i => if g.hints.getD i 0 == hint then acc ||| (1 <<< i) else acc)
      0)
    &&& g.status &&& 0x7F

/-- The comparison the inner find loop performs against a candidate slot; the C
code calls equals(probe, entries[idx]) on an occupied slot, so a none entry
(unreachable under the table invariant) is modelled as a failed comparison. -/
def entry_equals {E : Type} (cb : Callbacks E) (p : E) (o : Option E) : Bool :=
  match o with
  | some x => cb.equals p x
  | none => false

/-- The inner loop of h64_find_entry: take the set bits of the 7-bit match mask
in increasing order (ctz of the mask, clearing each bit after testing it) and
return the first index whose entry compares equal to the probe. -/
def group_scan {E : Type} (cb : Callbacks E) (g : Group E) (p : E) (m : Nat) :
    Option Nat :=
  ((List.range 7).filter (fun i => m.testBit i)).find?
    (fun i => entry_equals cb p (g.entries.getD i none))

/-- The probe loop of h64_find_entry, with explicit fuel.  The some (some _)
result is the found case (group position and slot index), some none is the
not-found return taken at the first group whose was-full bit is clear, and
none is fuel exhaustion. -/
def h64_find_entry_loop {E : Type} (cb : Callbacks E) (h : h64 E) (p : E)
    (hint : Nat) (seq : ProbeSeq) : Nat → Option (Option (Nat × Nat))
  | 0 => none
  | fuel + 1 =>
    let position := ps_position seq
    let g := h.groups.getD position default
    match group_scan cb g p (group_match_inserted g hint) with
    | some idx => some (some (position, idx))
    | none =>
      if group_was_full g = 0 then some none
      else h64_find_entry_loop cb h p hint (ps_next seq) fuel

/-- h64_find_entry: run the probe loop from ps_init with fuel size_in_groups
(see the header comment on fuel). -/
def h64_find_entry {E : Type} (cb : Callbacks E) (h : h64 E) (p : E)
    (hash : Nat) : Option (Option (Nat × Nat)) :=
  h64_find_entry_loop cb h p (hash_hint hash) (ps_init hash h.size_in_groups)
    h.size_in_groups

/-- __builtin_ctz(~status) for a status byte: the lowest i with bit i clear
(8 when status = 0xFF, which the full-group guard excludes). -/
def first_empty_index (status : Nat) : Nat :=
  (List.range 8).findIdx (fun i => !(status.testBit i))

/-- The probe loop of h64_find_empty_entry, with explicit fuel: stop at the
first group that is not full and return its position together with the index
of the first clear presence bit. -/
def h64_find_empty_loop {E : Type} (h : h64 E) (seq : ProbeSeq) :
    Nat → Option (Nat × Nat)
  | 0 => none
  | fuel + 1 =>
    let position := ps_position seq
    let g := h.groups.getD position default
    if group_is_full g then h64_find_empty_loop h (ps_next seq) fuel
    else some (position, first_empty_index g.status)

/-- h64_find_empty_entry with fuel size_in_groups. -/
def h64_find_empty_entry {E : Type} (h : h64 E) (hash : Nat) :
    Option (Nat × Nat) :=
  h64_find_empty_loop h (ps_init hash h.size_in_groups) h.size_in_groups

/-- MAX_LOAD_FACTOR = 0.67: the size_t truncation of 0.67 * n, modelled with
exact rational arithmetic as 67 * n / 100 (floor).  The double computation of
the C code agrees with this for every table size the engine can reach (7 * 2^k
entries is never a multiple of 100, so the product is bounded away from the
integer boundary by 1/100, far above the rounding error of the double
arithmetic for any size below 2^45 groups). -/
def max_load_count (n : Nat) : Nat :=
  67 * n / 100

/-- MIN_LOAD_FACTOR = MAX_LOAD_FACTOR / 4 = 0.1675, with the same exact
rational modelling: 67 * n / 400. -/
def min_load_count (n : Nat) : Nat :=
  67 * n / 400

/-- h64_should_grow_up: count > (size_t)(MAX_LOAD_FACTOR * (size * 7)). -/
def h64_should_grow_up {E : Type} (h : h64 E) : Bool :=
  decide (h.count > max_load_count (h.size_in_groups * GROUP_ENTRIES))

/-- h64_should_grow_down: count < (size_t)(MIN_LOAD_FACTOR * (size * 7)) and
size > MIN_SIZE. -/
def h64_should_grow_down {E : Type} (h : h64 E) : Bool :=
  decide (h.count < min_load_count (h.size_in_groups * GROUP_ENTRIES)) &&
    decide (h.size_in_groups > MIN_SIZE)

/-- The h64_for_each iteration order: groups in array order, slot indices 0..6
inside each group, skipping null entries. -/
def h64_elems {E : Type} (h : h64 E) : List E :=
  (h.groups.map (fun g => g.entries.filterMap id)).flatten

/-- The body of h64_insert_new after the grow check: hash, find an empty slot,
group_insert, bump the count.  A none result is divergence of the empty-slot
probe loop. -/
def h64_insert_new_core {E : Type} (cb : Callbacks E) (h : h64 E) (e : E) :
    Option (h64 E) :=
  let hash := h64_hash cb h e
  let hint := hash_hint hash
  match h64_find_empty_entry h hash with
  | none => none
  | some (pos, idx) =>
    some { h with
            groups := h.groups.set pos
              (group_insert (h.groups.getD pos default) e hint idx)
            count := h.count + 1 }

/-- is_power_of_2 from utils.h: (n AND (n - 1)) == 0 (true also for 0). -/
def is_power_of_2 (n : Nat) : Bool :=
  (n &&& (n - 1)) == 0

/-- The reinsertion loop of h64_resize, parameterized by the resize function
of the next lower rehash depth: h64_insert_new (grow check included) for each
element of the old table in h64_for_each order. -/
def h64_reinsert_go {E : Type} (cb : Callbacks E)
    (rz : h64 E → Nat → List Nat → Option (h64 E × List Nat)) :
    List E → h64 E → List Nat → Option (h64 E × List Nat)
  | [], tmp, seeds => some (tmp, seeds)
  | e :: rest, tmp, seeds =>
    if h64_should_grow_up tmp then
      match rz tmp (tmp.size_in_groups * 2) seeds with
      | none => none
      | some (tmp2, seeds2) =>
        match h64_insert_new_core cb tmp2 e with
        | none => none
        | some tmp3 => h64_reinsert_go cb rz rest tmp3 seeds2
    else
      match h64_insert_new_core cb tmp e with
      | none => none
      | some tmp2 => h64_reinsert_go cb rz rest tmp2 seeds

/-- h64_resize: build a fresh table of the requested size under a fresh seed
(head of the seed supply) and reinsert every live element of the old table
with insert_new; the swap/free of the C code is the returned table.  The
failing power-of-two assertion of the C code (a fatal abort) is the none
result of the guard.  The gas parameter bounds nested rehashes (see the
header comment); it is consumed by explicit recursion on Nat so that the
definition evaluates inside the kernel. -/
def h64_resize {E : Type} (cb : Callbacks E) (gas : Nat) (h : h64 E)
    (size : Nat) (seeds : List Nat) : Option (h64 E × List Nat) :=
  Nat.rec (motive := fun _ => h64 E → Nat → List Nat →
      Option (h64 E × List Nat))
    (fun _ _ _ => none)
    (fun _ prev h2 size2 seeds2 =>
      if is_power_of_2 size2 then
        h64_reinsert_go cb prev (h64_elems h2)
          (h64_init E (seeds2.headD 0) size2) seeds2.tail
      else none)
    gas h size seeds

/-- The reinsertion loop at rehash depth gas. -/
def h64_reinsert {E : Type} (cb : Callbacks E) (gas : Nat) (es : List E)
    (tmp : h64 E) (seeds : List Nat) : Option (h64 E × List Nat) :=
  h64_reinsert_go cb (h64_resize cb gas) es tmp seeds

theorem h64_resize_zero {E : Type} (cb : Callbacks E) (h : h64 E)
    (size : Nat) (seeds : List Nat) :
    h64_resize cb 0 h size seeds = none := rfl

theorem h64_resize_succ {E : Type} (cb : Callbacks E) (gas : Nat) (h : h64 E)
    (size : Nat) (seeds : List Nat) :
    h64_resize cb (gas + 1) h size seeds =
      (if is_power_of_2 size then
        h64_reinsert cb gas (h64_elems h) (h64_init E (seeds.headD 0) size)
          seeds.tail
      else none) := rfl

theorem h64_reinsert_nil {E : Type} (cb : Callbacks E) (gas : Nat)
    (tmp : h64 E) (seeds : List Nat) :
    h64_reinsert cb gas [] tmp seeds = some (tmp, seeds) := rfl

theorem h64_reinsert_cons {E : Type} (cb : Callbacks E) (gas : Nat) (e : E)
    (rest : List E) (tmp : h64 E) (seeds : List Nat) :
    h64_reinsert cb gas (e :: rest) tmp seeds =
      (if h64_should_grow_up tmp then
        match h64_resize cb gas tmp (tmp.size_in_groups * 2) seeds with
        | none => none
        | some (tmp2, seeds2) =>
          match h64_insert_new_core cb tmp2 e with
          | none => none
          | some tmp3 => h64_reinsert cb gas rest tmp3 seeds2
      else
        match h64_insert_new_core cb tmp e with
        | none => none
        | some tmp2 => h64_reinsert cb gas rest tmp2 seeds) := rfl

/-- roundup_to_pow2: the bit-smearing round-up to the next power of two.  The
C version works on size_t and wraps mod 2^64; the shifts below reproduce it
exactly for every argument up to 2^64. -/
def roundup_to_pow2 (n : Nat) : Nat :=
  let n := n - 1
  let n := n ||| (n >>> 1)
  let n := n ||| (n >>> 2)
  let n := n ||| (n >>> 4)
  let n := n ||| (n >>> 8)
  let n := n ||| (n >>> 16)
  let n := n ||| (n >>> 32)
  n + 1

/-- h64_reserve: total = entries_count / MAX_LOAD_FACTOR (size_t truncation of
a double quotient, modelled as the exact floor 100 * n / 67; when 67 divides
100 * n the double quotient can land one below the exact value, which never
changes the rounded-up group count), then resize to
roundup_to_pow2(total / 7 + 1). -/
def h64_reserve {E : Type} (cb : Callbacks E) (gas : Nat) (h : h64 E)
    (entries_count : Nat) (seeds : List Nat) : Option (h64 E) :=
  let total_entries := 100 * entries_count / 67
  let size := roundup_to_pow2 (total_entries / GROUP_ENTRIES + 1)
  (h64_resize cb gas h size seeds).map Prod.fst

/-- h64_grow_up: resize to twice the current size. -/
def h64_grow_up {E : Type} (cb : Callbacks E) (gas : Nat) (h : h64 E)
    (seeds : List Nat) : Option (h64 E × List Nat) :=
  h64_resize cb gas h (h.size_in_groups * 2) seeds

/-- h64_grow_down: resize to half the current size. -/
def h64_grow_down {E : Type} (cb : Callbacks E) (gas : Nat) (h : h64 E)
    (seeds : List Nat) : Option (h64 E × List Nat) :=
  h64_resize cb gas h (h.size_in_groups / 2) seeds

/-- h64_insert_new: grow if the load factor demands it, then insert without any
equality search. -/
def h64_insert_new {E : Type} (cb : Callbacks E) (gas : Nat) (seeds : List Nat)
    (h : h64 E) (e : E) : Option (h64 E) :=
  match
    (if h64_should_grow_up h then h64_grow_up cb gas h seeds
     else some (h, seeds)) with
  | none => none
  | some (h1, _) => h64_insert_new_core cb h1 e

/-- h64_insert (upsert): grow if needed, then find; on a hit overwrite the
entry in place (group_update), otherwise install into the first empty slot and
bump the count. -/
def h64_insert {E : Type} (cb : Callbacks E) (gas : Nat) (seeds : List Nat)
    (h : h64 E) (e : E) : Option (h64 E) :=
  match
    (if h64_should_grow_up h then h64_grow_up cb gas h seeds
     else some (h, seeds)) with
  | none => none
  | some (h1, _) =>
    let hash := h64_hash cb h1 e
    let hint := hash_hint hash
    match h64_find_entry cb h1 e hash with
    | none => none
    | some (some (pos, idx)) =>
      some { h1 with
              groups := h1.groups.set pos
                (group_update (h1.groups.getD pos default) e idx) }
    | some none =>
      match h64_find_empty_entry h1 hash with
      | none => none
      | some (pos, idx) =>
        some { h1 with
                groups := h1.groups.set pos
                  (group_insert (h1.groups.getD pos default) e hint idx)
                count := h1.count + 1 }

/-- h64_erase: find; on a miss return null with the table untouched; on a hit
clear the slot (group_erase_entry), decrement the count, and shrink when the
grow-down check fires.  The first component of the some result is the returned
entry. -/
def h64_erase {E : Type} (cb : Callbacks E) (gas : Nat) (seeds : List Nat)
    (h : h64 E) (p : E) : Option (Option E × h64 E) :=
  let hash := h64_hash cb h p
  match h64_find_entry cb h p hash with
  | none => none
  | some none => some (none, h)
  | some (some (pos, idx)) =>
    let g := h.groups.getD pos default
    let r := group_erase_entry g idx
    let d : h64 E :=
      { h with groups := h.groups.set pos r.2, count := h.count - 1 }
    if h64_should_grow_down d then
      match h64_grow_down cb gas d seeds with
      | none => none
      | some (d2, _) => some (r.1, d2)
    else some (r.1, d)

/-- h64_find: run the probe; null on a miss, the stored entry on a hit. -/
def h64_find {E : Type} (cb : Callbacks E) (h : h64 E) (p : E) :
    Option (Option E) :=
  match h64_find_entry cb h p (h64_hash cb h p) with
  | none => none
  | some none => some none
  | some (some (pos, idx)) =>
    some ((h.groups.getD pos default).entries.getD idx none)

/-- h64_count. -/
def h64_count {E : Type} (h : h64 E) : Nat :=
  h.count

/-- h64_create: a fresh table with DEFAULT_SIZE = 4 groups. -/
def h64_create (E : Type) (seed : Nat) : h64 E :=
  h64_init E seed 4

/-- The tables reachable from h64_create through the public mutating
operations, with the seed supply and rehash gas chosen arbitrarily at each
step. -/
inductive Reachable {E : Type} (cb : Callbacks E) : h64 E → Prop where
  | create (seed : Nat) : Reachable cb (h64_create E seed)
  | insert {h h' : h64 E} (gas : Nat) (seeds : List Nat) (e : E) :
      Reachable cb h → h64_insert cb gas seeds h e = some h' → Reachable cb h'
  | insert_new {h h' : h64 E} (gas : Nat) (seeds : List Nat) (e : E) :
      Reachable cb h → h64_insert_new cb gas seeds h e = some h' →
      Reachable cb h'
  | erase {h h' : h64 E} (gas : Nat) (seeds : List Nat) (p : E) (r : Option E) :
      Reachable cb h → h64_erase cb gas seeds h p = some (r, h') →
      Reachable cb h'
  | reserve {h h' : h64 E} (gas : Nat) (n : Nat) (seeds : List Nat) :
      Reachable cb h → h64_reserve cb gas h n seeds = some h' →
      Reachable cb h'

/-! ### Basic list and arithmetic helpers -/

theorem getD_set_self {α : Type _} (l : List α) (i : Nat) (v d : α)
    (h : i < l.length) : (l.set i v).getD i d = v := by
  simp [List.getD_eq_getElem?_getD, List.getElem?_set_self', h]

theorem getD_set_ne {α : Type _} (l : List α) (i j : Nat) (v d : α)
    (h : i ≠ j) : (l.set i v).getD j d = l.getD j d := by
  simp [List.getD_eq_getElem?_getD, List.getElem?_set_ne h]

theorem getD_replicate {α : Type _} (n i : Nat) (a d : α) (h : i < n) :
    (List.replicate n a).getD i d = a := by
  simp [List.getD_eq_getElem?_getD, List.getElem?_replicate, h]

theorem getD_mem {α : Type _} (l : List α) (i : Nat) (d : α)
    (h : i < l.length) : l.getD i d ∈ l := by
  rw [List.getD_eq_getElem?_getD, List.getElem?_eq_getElem h]
  exact List.getElem_mem h

theorem mem_set {α : Type _} {l : List α} {i : Nat} {v x : α}
    (h : x ∈ l.set i v) : x = v ∨ x ∈ l := by
  rcases List.mem_or_eq_of_mem_set h with h1 | h1
  · exact Or.inr h1
  · exact Or.inl h1

/-! ### The quadratic probe sequence is a permutation (claim C2)

The probe at iteration j, starting from a given hash, as the source computes
it: iterate ps_next j times from ps_init and read ps_position. -/

def probe_at (hash size j : Nat) : Nat :=
  ps_position (ps_next^[j] (ps_init hash size))

theorem ps_iterate (hash size j : Nat) :
    ps_next^[j] (ps_init hash size) =
      { start := hash &&& (size - 1), iteration := j, size_mask := size - 1 } := by
  induction j with
  | zero => rfl
  | succ j ih => rw [Function.iterate_succ_apply', ih]; rfl

theorem probe_at_eq (hash k j : Nat) :
    probe_at hash (2 ^ k) j =
      ((hash &&& (2 ^ k - 1)) + j * (j + 1) / 2) % 2 ^ k := by
  rw [probe_at, ps_iterate, ps_position, Nat.and_pow_two_sub_one_eq_mod]

theorem probe_at_lt (hash k j : Nat) : probe_at hash (2 ^ k) j < 2 ^ k := by
  rw [probe_at_eq]
  exact Nat.mod_lt _ (Nat.pos_pow_of_pos k (by norm_num))

theorem two_mul_tri (i : Nat) : 2 * (i * (i + 1) / 2) = i * (i + 1) := by
  rcases Nat.even_mul_succ_self i with ⟨c, hc⟩
  omega

theorem tri_sub_tri {b d : Nat} :
    (b + d) * (b + d + 1) - b * (b + 1) = d * (b + (b + d) + 1) := by
  have key : (b + d) * (b + d + 1) = b * (b + 1) + d * (b + (b + d) + 1) := by
    ring
  rw [key, Nat.add_sub_cancel_left]

theorem tri_mod_pow2_inj {k a b : Nat} (hba : b ≤ a) (ha : a < 2 ^ k)
    (h : a * (a + 1) / 2 ≡ b * (b + 1) / 2 [MOD 2 ^ k]) : a = b := by
  have h2 : a * (a + 1) ≡ b * (b + 1) [MOD 2 ^ (k + 1)] := by
    have := Nat.ModEq.mul_left' (c := 2) h
    rwa [two_mul_tri, two_mul_tri, ← pow_succ'] at this
  obtain ⟨d, rfl⟩ := Nat.exists_eq_add_of_le hba
  have hdvd : 2 ^ (k + 1) ∣ (b + d) * (b + d + 1) - b * (b + 1) :=
    (Nat.modEq_iff_dvd' (Nat.mul_le_mul (Nat.le_add_right b d)
      (by omega))).mp h2.symm
  rw [tri_sub_tri] at hdvd
  rcases Nat.eq_zero_or_pos d with hd0 | hdpos
  · omega
  exfalso
  have hpow : 2 * 2 ^ k = 2 ^ (k + 1) := (pow_succ' 2 k).symm
  rcases Nat.even_or_odd d with hde | hdo
  · have hodd : Odd (b + (b + d) + 1) := by
      rcases hde with ⟨c, hc⟩
      exact ⟨b + c, by omega⟩
    have hcop : Nat.Coprime (2 ^ (k + 1)) (b + (b + d) + 1) :=
      Nat.Coprime.pow_left _ (Nat.coprime_two_left.mpr hodd)
    have hd : 2 ^ (k + 1) ∣ d := hcop.dvd_of_dvd_mul_right hdvd
    have := Nat.le_of_dvd hdpos hd
    omega
  · have hcop : Nat.Coprime (2 ^ (k + 1)) d :=
      Nat.Coprime.pow_left _ (Nat.coprime_two_left.mpr hdo)
    have hs : 2 ^ (k + 1) ∣ (b + (b + d) + 1) := hcop.dvd_of_dvd_mul_left hdvd
    have := Nat.le_of_dvd (by omega) hs
    omega

theorem probe_at_inj {k s : Nat} {a b : Nat} (ha : a < 2 ^ k) (hb : b < 2 ^ k)
    (h : probe_at s (2 ^ k) a = probe_at s (2 ^ k) b) : a = b := by
  rw [probe_at_eq, probe_at_eq] at h
  have h2 : a * (a + 1) / 2 ≡ b * (b + 1) / 2 [MOD 2 ^ k] :=
    Nat.ModEq.add_left_cancel' _ h
  rcases Nat.le_total b a with hba | hab
  · exact tri_mod_pow2_inj hba ha h2
  · exact (tri_mod_pow2_inj hab hb h2.symm).symm

theorem probe_at_surj {k s : Nat} (t : Nat) (ht : t < 2 ^ k) :
    ∃ j, j < 2 ^ k ∧ probe_at s (2 ^ k) j = t := by
  have hinj : Function.Injective
      (fun j : Fin (2 ^ k) => (⟨probe_at s (2 ^ k) j.1, probe_at_lt s k j.1⟩ :
        Fin (2 ^ k))) := by
    intro a b hab
    exact Fin.ext (probe_at_inj a.2 b.2 (congrArg Fin.val hab))
  have hsurj := Finite.surjective_of_injective hinj
  obtain ⟨j, hj⟩ := hsurj ⟨t, ht⟩
  exact ⟨j.1, j.2, congrArg Fin.val hj⟩

/-! ### Status byte helpers -/

theorem full_iff_bits {s : Nat} :
    (s &&& ENTRIES_MASK) = ENTRIES_MASK ↔ (∀ i, i < 7 → s.testBit i) := by
  have h127 : (ENTRIES_MASK : Nat) = 2 ^ 7 - 1 := by norm_num [ENTRIES_MASK]
  constructor
  · intro h i hi
    have := congrArg (fun n => Nat.testBit n i) h
    simp only [Nat.testBit_and, h127, Nat.testBit_two_pow_sub_one] at this
    simpa [hi] using this
  · intro h
    apply Nat.eq_of_testBit_eq
    intro j
    simp only [Nat.testBit_and, h127, Nat.testBit_two_pow_sub_one]
    by_cases hj : j < 7
    · simp [h j hj]
    · simp [hj]

/-- The was-full test as a plain bit test, stated on the status field. -/
theorem group_was_full_ne_zero {E : Type} {g : Group E} (hs : g.status < 256) :
    group_was_full g ≠ 0 ↔ g.status.testBit 7 := by
  have h1 : group_was_full g = g.status / 128 := by
    rw [group_was_full, Nat.shiftRight_eq_div_pow]
  have h2 : g.status.testBit 7 = decide (g.status / 2 ^ 7 % 2 = 1) :=
    Nat.testBit_to_div_mod
  have h128 : (2 : Nat) ^ 7 = 128 := by norm_num
  rw [h1, h2, h128]
  constructor
  · intro hne
    simp only [decide_eq_true_eq]
    omega
  · intro hd
    have := of_decide_eq_true hd
    omega

set_option maxRecDepth 8000 in
theorem first_empty_spec :
    ∀ s, s < 256 → (s &&& ENTRIES_MASK) ≠ ENTRIES_MASK →
      first_empty_index s < 7 ∧ s.testBit (first_empty_index s) = false ∧
        ∀ i, i < first_empty_index s → s.testBit i = true := by
  decide

/-! ### Occupied-slot counting -/

/-- The number of set presence bits of a group (popcount of status masked to
the low 7 bits); the table invariant makes the count field the sum of this
over all groups. -/
def occupied_count {E : Type} (g : Group E) : Nat :=
  ((List.range 7).filter (fun i => g.status.testBit i)).length

theorem filter_length_flip {p q : Nat → Bool} {i : Nat} :
    ∀ {n : Nat}, i < n → (∀ j, j < n → j ≠ i → q j = p j) → q i = true →
    p i = false →
    ((List.range n).filter q).length = ((List.range n).filter p).length + 1 := by
  intro n
  induction n with
  | zero => omega
  | succ n ih =>
    intro hi hq hqi hpi
    rw [List.range_succ, List.filter_append, List.filter_append,
        List.length_append, List.length_append]
    by_cases hin : i = n
    · subst hin
      have hcong : (List.range i).filter q = (List.range i).filter p :=
        List.filter_congr (fun x hx =>
          hq x (by have := List.mem_range.mp hx; omega)
            (by have := List.mem_range.mp hx; omega))
      rw [hcong]
      simp [List.filter, hqi, hpi]
    · have hrec := ih (by omega) (fun j hj hne => hq j (by omega) hne) hqi hpi
      have hqn : q n = p n := hq n (by omega) (fun hni => hin hni.symm)
      rw [hrec]
      cases hpn : p n <;> simp [List.filter, hqn, hpn]

theorem filter_length_congr {p q : Nat → Bool} {n : Nat}
    (h : ∀ j, j < n → q j = p j) :
    ((List.range n).filter q).length = ((List.range n).filter p).length := by
  rw [List.filter_congr (fun x hx => h x (List.mem_range.mp hx))]

theorem sum_set_add {l : List Nat} {i a : Nat} (h : i < l.length) :
    (l.set i a).sum + l.getD i 0 = l.sum + a := by
  induction l generalizing i with
  | nil => simp at h
  | cons x xs ih =>
    cases i with
    | zero => simp [List.set]; omega
    | succ i =>
      have hlt : i < xs.length := by simpa using h
      have := ih hlt
      simp only [List.set, List.sum_cons, List.getD_cons_succ]
      omega

/-! ### Table invariants -/

/-- The group stored at a position (groups[pos]). -/
def group_at {E : Type} (h : h64 E) (pos : Nat) : Group E :=
  h.groups.getD pos default

/-- Well-formedness of a single group under the current seed: the status is a
byte; the hint and entry arrays have 7 slots; presence bit i is set exactly
when slot i holds an entry; a full presence mask implies the was-full bit; and
every occupied slot caches the high byte of the hash of its entry. -/
def GroupWF {E : Type} (cb : Callbacks E) (seed : Nat) (g : Group E) : Prop :=
  g.status < 256 ∧
  g.hints.length = 7 ∧
  g.entries.length = 7 ∧
  (∀ i, i < 7 → (g.status.testBit i ↔ (g.entries.getD i none).isSome = true)) ∧
  ((g.status &&& ENTRIES_MASK) = ENTRIES_MASK → g.status.testBit 7) ∧
  (∀ i x, i < 7 → g.entries.getD i none = some x →
    g.hints.getD i 0 = hash_hint (cb.hasher x seed % 2 ^ 64))

/-- The table invariant (claim C4): every group is well formed, the group
array has size_in_groups cells, the size is a power of two of at least
MIN_SIZE, and count is the total number of occupied slots. -/
def Inv {E : Type} (cb : Callbacks E) (h : h64 E) : Prop :=
  h.groups.length = h.size_in_groups ∧
  (∃ k, h.size_in_groups = 2 ^ k) ∧
  MIN_SIZE ≤ h.size_in_groups ∧
  (∀ g ∈ h.groups, GroupWF cb h.seed g) ∧
  h.count = (h.groups.map occupied_count).sum

/-- The load-factor bound maintained by the grow-before-insert discipline:
count never exceeds the grow threshold by more than one. -/
def CountBound {E : Type} (h : h64 E) : Prop :=
  h.count ≤ max_load_count (h.size_in_groups * GROUP_ENTRIES) + 1

/-- An element x is stored in the table at some position and slot. -/
def stored {E : Type} (h : h64 E) (x : E) : Prop :=
  ∃ pos i, pos < h.size_in_groups ∧ i < 7 ∧
    (group_at h pos).entries.getD i none = some x

/-- The find invariant: every stored element sits at a position of its own
probe sequence such that all strictly earlier probed groups have the was-full
bit set; this is exactly what makes the stop-at-non-was-full rule of
h64_find_entry complete. -/
def FindInv {E : Type} (cb : Callbacks E) (h : h64 E) : Prop :=
  ∀ pos i x, pos < h.size_in_groups → i < 7 →
    (group_at h pos).entries.getD i none = some x →
    ∃ j, j < h.size_in_groups ∧
      probe_at (h64_hash cb h x) h.size_in_groups j = pos ∧
      ∀ j2, j2 < j →
        group_was_full
          (group_at h (probe_at (h64_hash cb h x) h.size_in_groups j2)) ≠ 0

/-! ### The hint-match mask and the candidate scan -/

theorem foldl_mask_testBit (f : Nat → Bool) (j : Nat) :
    ∀ (l : List Nat) (acc : Nat),
      ((l.foldl (fun a i => if f i then a ||| (1 <<< i) else a) acc).testBit j
        = true) ↔ (acc.testBit j = true ∨ (j ∈ l ∧ f j = true)) := by
  intro l
  induction l with
  | nil => simp
  | cons i l ih =>
    intro acc
    rw [List.foldl_cons]
    by_cases hfi : f i = true
    · rw [if_pos hfi, ih]
      rw [Nat.testBit_or, Nat.one_shiftLeft, Nat.testBit_two_pow]
      constructor
      · rintro (h1 | h1)
        · rcases Bool.or_eq_true_iff.mp h1 with h2 | h2
          · exact Or.inl h2
          · have : i = j := of_decide_eq_true h2
            exact Or.inr ⟨by simp [this.symm], by rwa [← this]⟩
        · exact Or.inr ⟨List.mem_cons_of_mem _ h1.1, h1.2⟩
      · rintro (h1 | ⟨h2, h3⟩)
        · exact Or.inl (Bool.or_eq_true_iff.mpr (Or.inl h1))
        · rcases List.mem_cons.mp h2 with h4 | h4
          · exact Or.inl (Bool.or_eq_true_iff.mpr (Or.inr (by simp [h4])))
          · exact Or.inr ⟨h4, h3⟩
    · rw [if_neg hfi, ih]
      constructor
      · rintro (h1 | h1)
        · exact Or.inl h1
        · exact Or.inr ⟨List.mem_cons_of_mem _ h1.1, h1.2⟩
      · rintro (h1 | ⟨h2, h3⟩)
        · exact Or.inl h1
        · rcases List.mem_cons.mp h2 with h4 | h4
          · exact absurd (h4 ▸ h3) hfi
          · exact Or.inr ⟨h4, h3⟩

theorem group_match_testBit {E : Type} (g : Group E) (hint j : Nat) :
    ((group_match_inserted g hint).testBit j = true) ↔
      (j < 7 ∧ g.hints.getD j 0 = hint ∧ g.status.testBit j = true) := by
  rw [group_match_inserted, Nat.testBit_and, Nat.testBit_and]
  rw [Bool.and_eq_true, Bool.and_eq_true]
  rw [foldl_mask_testBit]
  have h127 : (0x7F : Nat) = 2 ^ 7 - 1 := by norm_num
  rw [h127, Nat.testBit_two_pow_sub_one]
  constructor
  · rintro ⟨⟨h1 | h1, h2⟩, h3⟩
    · simp at h1
    · exact ⟨of_decide_eq_true h3, by simpa using h1.2, h2⟩
  · rintro ⟨h1, h2, h3⟩
    exact ⟨⟨Or.inr ⟨List.mem_range.mpr h1, by simpa using h2⟩, h3⟩,
      decide_eq_true h1⟩

theorem group_scan_eq_some {E : Type} {cb : Callbacks E} {g : Group E} {p : E}
    {m i : Nat} (h : group_scan cb g p m = some i) :
    i < 7 ∧ m.testBit i = true ∧
      entry_equals cb p (g.entries.getD i none) = true := by
  have hmem := List.mem_of_find?_eq_some h
  have hpred := List.find?_some h
  have := List.mem_filter.mp hmem
  exact ⟨List.mem_range.mp this.1, this.2, hpred⟩

theorem group_scan_eq_none {E : Type} {cb : Callbacks E} {g : Group E} {p : E}
    {m : Nat} (h : group_scan cb g p m = none) :
    ∀ i, i < 7 → m.testBit i = true →
      entry_equals cb p (g.entries.getD i none) = false := by
  intro i hi hbit
  have := List.find?_eq_none.mp h i
    (List.mem_filter.mpr ⟨List.mem_range.mpr hi, hbit⟩)
  simpa using this

theorem group_scan_isSome {E : Type} {cb : Callbacks E} {g : Group E} {p : E}
    {m : Nat} (hex : ∃ i, i < 7 ∧ m.testBit i = true ∧
      entry_equals cb p (g.entries.getD i none) = true) :
    ∃ i, group_scan cb g p m = some i := by
  obtain ⟨i, hi, hbit, heq⟩ := hex
  have : (group_scan cb g p m).isSome := by
    rw [group_scan, List.find?_isSome]
    exact ⟨i, List.mem_filter.mpr ⟨List.mem_range.mpr hi, hbit⟩, heq⟩
  exact Option.isSome_iff_exists.mp this

/-! ### Unfolding and characterization of the probe loops -/

theorem ps_next_eq (st d m : Nat) :
    ps_next ⟨st, d, m⟩ = ⟨st, d + 1, m⟩ := rfl

theorem probe_at_def (hash size j : Nat) :
    probe_at hash size j = ps_position ⟨hash &&& (size - 1), j, size - 1⟩ := by
  rw [probe_at, ps_iterate]

theorem find_empty_loop_some {E : Type} {h : h64 E} {st m : Nat} :
    ∀ {fuel d pos idx : Nat},
      h64_find_empty_loop h ⟨st, d, m⟩ fuel = some (pos, idx) →
      ∃ j, j < fuel ∧ pos = ps_position ⟨st, d + j, m⟩ ∧
        group_is_full (h.groups.getD pos default) = false ∧
        idx = first_empty_index (h.groups.getD pos default).status ∧
        ∀ j2, j2 < j →
          group_is_full
            (h.groups.getD (ps_position ⟨st, d + j2, m⟩) default) = true := by
  intro fuel
  induction fuel with
  | zero => intro d pos idx hres; simp [h64_find_empty_loop] at hres
  | succ fuel ih =>
    intro d pos idx hres
    rw [h64_find_empty_loop] at hres
    by_cases hfull : group_is_full
        (h.groups.getD (ps_position ⟨st, d, m⟩) default) = true
    · rw [if_pos hfull, ps_next_eq] at hres
      obtain ⟨j, hj, hpos, hnf, hidx, hpref⟩ := ih hres
      refine ⟨j + 1, by omega, by rw [hpos]; ring_nf, hnf, hidx, ?_⟩
      intro j2 hj2
      rcases Nat.eq_zero_or_pos j2 with h0 | hpos2
      · subst h0; simpa using hfull
      · have := hpref (j2 - 1) (by omega)
        have harr : d + 1 + (j2 - 1) = d + j2 := by omega
        rwa [harr] at this
    · rw [if_neg hfull] at hres
      simp only [Option.some_inj, Prod.mk.injEq] at hres
      refine ⟨0, by omega, by rw [← hres.1]; ring_nf, ?_, ?_, by omega⟩
      · rw [← hres.1]; simpa using hfull
      · rw [← hres.1, ← hres.2]

theorem find_empty_loop_succeeds {E : Type} {h : h64 E} {st m : Nat} :
    ∀ {fuel d : Nat},
      (∃ j, j < fuel ∧ group_is_full
        (h.groups.getD (ps_position ⟨st, d + j, m⟩) default) = false) →
      ∃ r, h64_find_empty_loop h ⟨st, d, m⟩ fuel = some r := by
  intro fuel
  induction fuel with
  | zero => rintro d ⟨j, hj, _⟩; omega
  | succ fuel ih =>
    rintro d ⟨j, hj, hnf⟩
    rw [h64_find_empty_loop]
    by_cases hfull : group_is_full
        (h.groups.getD (ps_position ⟨st, d, m⟩) default) = true
    · rw [if_pos hfull, ps_next_eq]
      apply ih
      rcases Nat.eq_zero_or_pos j with h0 | hpos2
      · subst h0
        rw [Nat.add_zero] at hnf
        rw [hnf] at hfull
        exact absurd hfull (by simp)
      · refine ⟨j - 1, by omega, ?_⟩
        have harr : d + 1 + (j - 1) = d + j := by omega
        rwa [harr]
    · rw [if_neg hfull]
      exact ⟨_, rfl⟩

/-- Abbreviation for the group the probe loop inspects at a given probe
sequence state. -/
def loop_group {E : Type} (h : h64 E) (st d m : Nat) : Group E :=
  h.groups.getD (ps_position ⟨st, d, m⟩) default

theorem find_entry_loop_found {E : Type} {cb : Callbacks E} {h : h64 E}
    {p : E} {hint st m : Nat} :
    ∀ {fuel d pos idx : Nat},
      h64_find_entry_loop cb h p hint ⟨st, d, m⟩ fuel = some (some (pos, idx)) →
      ∃ j, j < fuel ∧ pos = ps_position ⟨st, d + j, m⟩ ∧
        group_scan cb (h.groups.getD pos default) p
          (group_match_inserted (h.groups.getD pos default) hint) = some idx ∧
        ∀ j2, j2 < j →
          group_scan cb (loop_group h st (d + j2) m) p
              (group_match_inserted (loop_group h st (d + j2) m) hint) = none ∧
            group_was_full (loop_group h st (d + j2) m) ≠ 0 := by
  intro fuel
  induction fuel with
  | zero => intro d pos idx hres; simp [h64_find_entry_loop] at hres
  | succ fuel ih =>
    intro d pos idx hres
    rw [h64_find_entry_loop] at hres
    rcases hscan : group_scan cb (h.groups.getD (ps_position ⟨st, d, m⟩) default)
        p (group_match_inserted
          (h.groups.getD (ps_position ⟨st, d, m⟩) default) hint) with _ | i0
    · rw [hscan] at hres
      by_cases hwf : group_was_full
          (h.groups.getD (ps_position ⟨st, d, m⟩) default) = 0
      · rw [if_pos hwf] at hres; simp at hres
      · rw [if_neg hwf, ps_next_eq] at hres
        obtain ⟨j, hj, hpos, hs, hpref⟩ := ih hres
        refine ⟨j + 1, by omega, by rw [hpos]; ring_nf, hs, ?_⟩
        intro j2 hj2
        rcases Nat.eq_zero_or_pos j2 with h0 | hpos2
        · subst h0
          exact ⟨by simpa [loop_group] using hscan, by simpa [loop_group] using hwf⟩
        · have := hpref (j2 - 1) (by omega)
          have harr : d + 1 + (j2 - 1) = d + j2 := by omega
          rwa [harr] at this
    · rw [hscan] at hres
      simp only [Option.some_inj, Prod.mk.injEq] at hres
      refine ⟨0, by omega, by rw [← hres.1]; ring_nf, ?_, by omega⟩
      rw [← hres.1, ← hres.2]
      exact hscan

theorem find_entry_loop_absent {E : Type} {cb : Callbacks E} {h : h64 E}
    {p : E} {hint st m : Nat} :
    ∀ {fuel d : Nat},
      h64_find_entry_loop cb h p hint ⟨st, d, m⟩ fuel = some none →
      ∃ j, j < fuel ∧
        group_scan cb (loop_group h st (d + j) m) p
          (group_match_inserted (loop_group h st (d + j) m) hint) = none ∧
        group_was_full (loop_group h st (d + j) m) = 0 ∧
        ∀ j2, j2 < j →
          group_scan cb (loop_group h st (d + j2) m) p
              (group_match_inserted (loop_group h st (d + j2) m) hint) = none ∧
            group_was_full (loop_group h st (d + j2) m) ≠ 0 := by
  intro fuel
  induction fuel with
  | zero => intro d hres; simp [h64_find_entry_loop] at hres
  | succ fuel ih =>
    intro d hres
    rw [h64_find_entry_loop] at hres
    rcases hscan : group_scan cb (h.groups.getD (ps_position ⟨st, d, m⟩) default)
        p (group_match_inserted
          (h.groups.getD (ps_position ⟨st, d, m⟩) default) hint) with _ | i0
    · rw [hscan] at hres
      by_cases hwf : group_was_full
          (h.groups.getD (ps_position ⟨st, d, m⟩) default) = 0
      · refine ⟨0, by omega, by simpa [loop_group] using hscan,
          by simpa [loop_group] using hwf, by omega⟩
      · rw [if_neg hwf, ps_next_eq] at hres
        obtain ⟨j, hj, hs, hw, hpref⟩ := ih hres
        have harr : ∀ j2 : Nat, d + 1 + j2 = d + (j2 + 1) := by omega
        refine ⟨j + 1, by omega, by rwa [← harr j], by rwa [← harr j], ?_⟩
        intro j2 hj2
        rcases Nat.eq_zero_or_pos j2 with h0 | hpos2
        · subst h0
          exact ⟨by simpa [loop_group] using hscan, by simpa [loop_group] using hwf⟩
        · have := hpref (j2 - 1) (by omega)
          have harr2 : d + 1 + (j2 - 1) = d + j2 := by omega
          rwa [harr2] at this
    · rw [hscan] at hres
      simp at hres

theorem find_entry_loop_finds {E : Type} {cb : Callbacks E} {h : h64 E}
    {p : E} {hint st m : Nat} :
    ∀ {fuel d w : Nat},
      w < fuel →
      (∃ i0, group_scan cb (loop_group h st (d + w) m) p
        (group_match_inserted (loop_group h st (d + w) m) hint) = some i0) →
      (∀ j2, j2 < w → group_was_full (loop_group h st (d + j2) m) ≠ 0) →
      ∃ r, h64_find_entry_loop cb h p hint ⟨st, d, m⟩ fuel = some (some r) := by
  intro fuel
  induction fuel with
  | zero => intro d w hjx; omega
  | succ fuel ih =>
    intro d w hjx hscanx hpref
    rw [h64_find_entry_loop]
    rcases hscan : group_scan cb (h.groups.getD (ps_position ⟨st, d, m⟩) default)
        p (group_match_inserted
          (h.groups.getD (ps_position ⟨st, d, m⟩) default) hint) with _ | i0
    · have hjx0 : w ≠ 0 := by
        intro h0
        subst h0
        obtain ⟨i0, hi0⟩ := hscanx
        rw [Nat.add_zero] at hi0
        rw [loop_group] at hi0
        rw [hscan] at hi0
        simp at hi0
      have hwf : group_was_full
          (h.groups.getD (ps_position ⟨st, d, m⟩) default) ≠ 0 := by
        have := hpref 0 (by omega)
        simpa [loop_group] using this
      rw [if_neg hwf, ps_next_eq]
      apply ih (w := w - 1)
      · omega
      · have harr : d + 1 + (w - 1) = d + w := by omega
        rwa [harr]
      · intro j2 hj2
        have := hpref (j2 + 1) (by omega)
        have harr : d + (j2 + 1) = d + 1 + j2 := by omega
        rwa [harr] at this
    · exact ⟨_, rfl⟩

theorem find_entry_loop_terminates {E : Type} {cb : Callbacks E} {h : h64 E}
    {p : E} {hint st m : Nat} :
    ∀ {fuel d w : Nat},
      w < fuel →
      group_was_full (loop_group h st (d + w) m) = 0 →
      ∃ r, h64_find_entry_loop cb h p hint ⟨st, d, m⟩ fuel = some r := by
  intro fuel
  induction fuel with
  | zero => intro d w hjx; omega
  | succ fuel ih =>
    intro d w hjx hstop
    rw [h64_find_entry_loop]
    rcases hscan : group_scan cb (h.groups.getD (ps_position ⟨st, d, m⟩) default)
        p (group_match_inserted
          (h.groups.getD (ps_position ⟨st, d, m⟩) default) hint) with _ | i0
    · by_cases hwf : group_was_full
          (h.groups.getD (ps_position ⟨st, d, m⟩) default) = 0
      · rw [if_pos hwf]
        exact ⟨none, rfl⟩
      · rw [if_neg hwf, ps_next_eq]
        have hjx0 : w ≠ 0 := by
          intro h0
          subst h0
          rw [Nat.add_zero] at hstop
          exact hwf (by simpa [loop_group] using hstop)
        apply ih (w := w - 1)
        · omega
        · have harr : d + 1 + (w - 1) = d + w := by omega
          rwa [harr]
    · exact ⟨some (ps_position ⟨st, d, m⟩, i0), rfl⟩

theorem find_entry_loop_diverges {E : Type} {cb : Callbacks E} {h : h64 E}
    {p : E} {hint st m : Nat}
    (hall : ∀ d, group_scan cb (loop_group h st d m) p
        (group_match_inserted (loop_group h st d m) hint) = none ∧
      group_was_full (loop_group h st d m) ≠ 0) :
    ∀ fuel d, h64_find_entry_loop cb h p hint ⟨st, d, m⟩ fuel = none := by
  intro fuel
  induction fuel with
  | zero => intro d; rfl
  | succ fuel ih =>
    intro d
    rw [h64_find_entry_loop]
    obtain ⟨hscan, hwf⟩ := hall d
    rw [loop_group] at hscan hwf
    rw [hscan, if_neg hwf, ps_next_eq]
    exact ih (d + 1)

/-! ### Claim C2: the probe sequence is a permutation -/

/-- C2: for every power-of-two size_in_groups and every start index s, the
first size_in_groups positions of the probe sequence
(s + i (i + 1) / 2) AND (size_in_groups - 1), i = 0 .. size_in_groups - 1,
form a permutation of the group positions: every position is in range, no
position repeats among the first size_in_groups iterations, and every
position is visited. -/
theorem C2_probe_sequence_permutation (k s : Nat) :
    (∀ j, probe_at s (2 ^ k) j < 2 ^ k) ∧
    (∀ a b, a < 2 ^ k → b < 2 ^ k →
      probe_at s (2 ^ k) a = probe_at s (2 ^ k) b → a = b) ∧
    (∀ t, t < 2 ^ k → ∃ j, j < 2 ^ k ∧ probe_at s (2 ^ k) j = t) :=
  ⟨fun j => probe_at_lt s k j,
   fun _ _ ha hb hab => probe_at_inj ha hb hab,
   fun t ht => probe_at_surj t ht⟩

/-- Witness for C2 at the concrete size 1024 = 2 ^ 10 of the spec list and a
concrete start and target. -/
theorem C2_probe_sequence_permutation_witness :
    ∃ j, j < 2 ^ 10 ∧ probe_at 123 (2 ^ 10) j = 777 :=
  (C2_probe_sequence_permutation 10 123).2.2 777 (by norm_num)

/-! ### Claim C3: erase-at-index frame conditions and was-full stickiness -/

/-- C3: for every group and valid slot index, group_erase_entry returns the
prior element at the slot, clears the entry, the hint byte and the presence
bit, and leaves the was-full bit (bit 7) and every other slot unchanged;
moreover the was-full bit, once set, is preserved by all three group mutators
(group_insert, group_update, group_erase_entry), which are the only functions
that modify a live group array between rehashes. -/
theorem C3_group_erase_frame_was_full_sticky {E : Type} (g : Group E) (e : E)
    (hint idx : Nat) (hidx : idx < 7) (hs : g.status < 256) :
    (group_erase_entry g idx).1 = g.entries.getD idx none ∧
    (group_erase_entry g idx).2.entries.getD idx none = none ∧
    (group_erase_entry g idx).2.hints.getD idx 0 = 0 ∧
    (group_erase_entry g idx).2.status.testBit idx = false ∧
    (group_erase_entry g idx).2.status.testBit 7 = g.status.testBit 7 ∧
    (∀ j, j < 7 → j ≠ idx →
      (group_erase_entry g idx).2.entries.getD j none = g.entries.getD j none ∧
      (group_erase_entry g idx).2.hints.getD j 0 = g.hints.getD j 0 ∧
      (group_erase_entry g idx).2.status.testBit j = g.status.testBit j) ∧
    (group_was_full g ≠ 0 → group_was_full (group_insert g e hint idx) ≠ 0) ∧
    (group_was_full g ≠ 0 → group_was_full (group_update g e idx) ≠ 0) ∧
    (group_was_full g ≠ 0 → group_was_full (group_erase_entry g idx).2 ≠ 0) := by
  have hmask : ∀ j, j < 8 →
      ((0xFF ^^^ (1 <<< idx)) : Nat).testBit j = decide (j ≠ idx) := by
    intro j hj
    rw [Nat.one_shiftLeft, Nat.testBit_xor, Nat.testBit_two_pow]
    have h255 : (0xFF : Nat) = 2 ^ 8 - 1 := by norm_num
    rw [h255, Nat.testBit_two_pow_sub_one]
    rcases Decidable.eq_or_ne idx j with he | hne
    · simp [he, hj]
    · simp [hj, hne, Ne.symm hne]
  have hbit : ∀ j, j < 8 → j ≠ idx →
      (group_erase_entry g idx).2.status.testBit j = g.status.testBit j := by
    intro j hj hne
    show (g.status &&& (0xFF ^^^ (1 <<< idx))).testBit j = _
    rw [Nat.testBit_and, hmask j hj]
    simp [hne]
  refine ⟨rfl, ?_, ?_, ?_, hbit 7 (by omega) (by omega), ?_, ?_, ?_, ?_⟩
  · show (g.entries.set idx none).getD idx none = none
    rcases Nat.lt_or_ge idx g.entries.length with hlen | hlen
    · exact getD_set_self _ _ _ _ hlen
    · rw [List.getD_eq_getElem?_getD]
      rw [List.getElem?_eq_none (by simpa using hlen)]
      rfl
  · show (g.hints.set idx 0).getD idx 0 = 0
    rcases Nat.lt_or_ge idx g.hints.length with hlen | hlen
    · exact getD_set_self _ _ _ _ hlen
    · rw [List.getD_eq_getElem?_getD]
      rw [List.getElem?_eq_none (by simpa using hlen)]
      rfl
  · show (g.status &&& (0xFF ^^^ (1 <<< idx))).testBit idx = false
    rw [Nat.testBit_and, hmask idx (by omega)]
    simp
  · intro j hj hne
    exact ⟨getD_set_ne _ _ _ _ _ (fun he => hne he.symm),
      getD_set_ne _ _ _ _ _ (fun he => hne he.symm),
      hbit j (by omega) hne⟩
  · intro hwf
    rw [group_insert]
    split
    · intro hcon
      have h255 : (255 : Nat) >>> 7 = 0 := hcon
      rw [Nat.shiftRight_eq_div_pow] at h255
      norm_num at h255
    · have hlt : g.status ||| (1 <<< idx) < 256 := by
        have h1 : g.status < 2 ^ 8 := by norm_num; omega
        have h2 : (1 <<< idx : Nat) < 2 ^ 8 := by
          rw [Nat.one_shiftLeft]
          exact Nat.pow_lt_pow_right (by omega) (by omega)
        have h3 := Nat.or_lt_two_pow h1 h2
        norm_num at h3
        omega
      have hb7 : (g.status ||| (1 <<< idx)).testBit 7 = true := by
        rw [Nat.testBit_or]
        rw [(group_was_full_ne_zero hs).mp hwf]
        simp
      exact (group_was_full_ne_zero (g := (⟨g.status ||| (1 <<< idx),
        g.hints.set idx hint, g.entries.set idx (some e)⟩ : Group E))
        hlt).mpr hb7
  · intro hwf
    exact hwf
  · intro hwf
    have hlt : g.status &&& (0xFF ^^^ (1 <<< idx)) < 256 :=
      Nat.lt_of_le_of_lt Nat.and_le_left hs
    apply (group_was_full_ne_zero (g := (group_erase_entry g idx).2) hlt).mpr
    rw [hbit 7 (by omega) (by omega)]
    exact (group_was_full_ne_zero hs).mp hwf

/-- Witness for C3 at a concrete occupied group and slot. -/
theorem C3_group_erase_frame_was_full_sticky_witness :
    (2 < 7 ∧ (⟨0xFF, [1,2,3,4,5,6,7], [some 10, some 20, some 30, some 40,
      some 50, some 60, some 70]⟩ : Group Nat).status < 256) ∧
    (group_erase_entry (⟨0xFF, [1,2,3,4,5,6,7], [some 10, some 20, some 30,
      some 40, some 50, some 60, some 70]⟩ : Group Nat) 2).1 = some 30 := by
  constructor
  · exact ⟨by norm_num, by norm_num⟩
  · have := (C3_group_erase_frame_was_full_sticky
      (⟨0xFF, [1,2,3,4,5,6,7], [some 10, some 20, some 30, some 40, some 50,
        some 60, some 70]⟩ : Group Nat) 99 0 2 (by norm_num) (by norm_num)).1
    rw [this]
    rfl

/-! ### Effect lemmas for the group mutators -/

theorem getD_map {α β : Type _} {f : α → β} {l : List α} {i : Nat}
    (h : i < l.length) (d : α) (d2 : β) :
    (l.map f).getD i d2 = f (l.getD i d) := by
  rw [List.getD_eq_getElem?_getD, List.getD_eq_getElem?_getD,
      List.getElem?_map, List.getElem?_eq_getElem h]
  rfl

theorem group_insert_entries {E : Type} (g : Group E) (e : E) (hint idx : Nat) :
    (group_insert g e hint idx).entries = g.entries.set idx (some e) := by
  rw [group_insert]
  split <;> rfl

theorem group_insert_hints {E : Type} (g : Group E) (e : E) (hint idx : Nat) :
    (group_insert g e hint idx).hints = g.hints.set idx hint := by
  rw [group_insert]
  split <;> rfl

theorem group_insert_status_lt {E : Type} (g : Group E) (e : E)
    (hint idx : Nat) (hidx : idx < 7) (hs : g.status < 256) :
    (group_insert g e hint idx).status < 256 := by
  rw [group_insert]
  split
  · norm_num
  · show g.status ||| (1 <<< idx) < 256
    have h1 : g.status < 2 ^ 8 := by omega
    have h2 : (1 <<< idx : Nat) < 2 ^ 8 := by
      rw [Nat.one_shiftLeft]
      exact Nat.pow_lt_pow_right (by omega) (by omega)
    have h3 := Nat.or_lt_two_pow h1 h2
    norm_num at h3
    omega

theorem or_shift_testBit {s idx j : Nat} :
    ((s ||| (1 <<< idx)).testBit j = true) ↔
      (s.testBit j = true ∨ j = idx) := by
  rw [Nat.testBit_or, Nat.one_shiftLeft, Nat.testBit_two_pow,
      Bool.or_eq_true_iff]
  constructor
  · rintro (h1 | h1)
    · exact Or.inl h1
    · exact Or.inr (of_decide_eq_true h1).symm
  · rintro (h1 | h1)
    · exact Or.inl h1
    · exact Or.inr (decide_eq_true h1.symm)

theorem group_insert_testBit_lt7 {E : Type} (g : Group E) (e : E)
    (hint idx : Nat) (_hidx : idx < 7) {j : Nat} (hj : j < 7) :
    ((group_insert g e hint idx).status.testBit j = true) ↔
      (g.status.testBit j = true ∨ j = idx) := by
  rw [group_insert]
  split
  next hfull =>
    show ((0xFF : Nat).testBit j = true) ↔ _
    have hb : (0xFF : Nat).testBit j = true := by
      have h255 : (0xFF : Nat) = 2 ^ 8 - 1 := by norm_num
      rw [h255, Nat.testBit_two_pow_sub_one]
      exact decide_eq_true (by omega)
    rw [hb]
    have hfull2 := (full_iff_bits (s := g.status ||| (1 <<< idx))).mp
      (by simpa [group_is_full, ENTRIES_MASK] using hfull)
    simp only [true_iff]
    exact (or_shift_testBit).mp (hfull2 j hj)
  next hfull => exact or_shift_testBit

theorem group_insert_testBit7_of {E : Type} (g : Group E) (e : E)
    (hint idx : Nat) (_hidx : idx < 7)
    (hb7 : g.status.testBit 7 = true) :
    (group_insert g e hint idx).status.testBit 7 = true := by
  rw [group_insert]
  split
  · show ((0xFF : Nat).testBit 7 = true)
    have h255 : (0xFF : Nat) = 2 ^ 8 - 1 := by norm_num
    rw [h255, Nat.testBit_two_pow_sub_one]
    exact decide_eq_true (by omega)
  · show ((g.status ||| (1 <<< idx)).testBit 7 = true)
    exact or_shift_testBit.mpr (Or.inl hb7)

theorem group_insert_full_bit7 {E : Type} (g : Group E) (e : E)
    (hint idx : Nat) :
    ((group_insert g e hint idx).status &&& ENTRIES_MASK) = ENTRIES_MASK →
    (group_insert g e hint idx).status.testBit 7 = true := by
  rw [group_insert]
  split
  next hfull =>
    intro _
    show ((0xFF : Nat).testBit 7 = true)
    have h255 : (0xFF : Nat) = 2 ^ 8 - 1 := by norm_num
    rw [h255, Nat.testBit_two_pow_sub_one]
    exact decide_eq_true (by omega)
  next hfull =>
    intro hcon
    exact absurd (by simpa [group_is_full, ENTRIES_MASK] using hcon) hfull

theorem group_insert_sticky {E : Type} (g : Group E) (e : E)
    (hint idx : Nat) (hidx : idx < 7) (hs : g.status < 256)
    (hwf : group_was_full g ≠ 0) :
    group_was_full (group_insert g e hint idx) ≠ 0 := by
  apply (group_was_full_ne_zero (group_insert_status_lt g e hint idx hidx hs)).mpr
  exact group_insert_testBit7_of g e hint idx hidx
    ((group_was_full_ne_zero hs).mp hwf)

theorem group_erase_status_lt {E : Type} (g : Group E) (idx : Nat)
    (hs : g.status < 256) : (group_erase_entry g idx).2.status < 256 :=
  Nat.lt_of_le_of_lt Nat.and_le_left hs

theorem group_erase_testBit {E : Type} (g : Group E) (idx : Nat)
    (hidx : idx < 7) {j : Nat} (hj : j < 8) :
    (group_erase_entry g idx).2.status.testBit j =
      if j = idx then false else g.status.testBit j := by
  show (g.status &&& (0xFF ^^^ (1 <<< idx))).testBit j = _
  rw [Nat.testBit_and, Nat.one_shiftLeft, Nat.testBit_xor,
      Nat.testBit_two_pow]
  have h255 : (0xFF : Nat) = 2 ^ 8 - 1 := by norm_num
  rw [h255, Nat.testBit_two_pow_sub_one]
  rcases Decidable.eq_or_ne j idx with he | hne
  · simp [he, hj]
    exact fun _ => by omega
  · simp [hj, hne, Ne.symm hne]

theorem group_erase_sticky {E : Type} (g : Group E) (idx : Nat)
    (hidx : idx < 7) (hs : g.status < 256)
    (hwf : group_was_full g ≠ 0) :
    group_was_full (group_erase_entry g idx).2 ≠ 0 := by
  apply (group_was_full_ne_zero (group_erase_status_lt g idx hs)).mpr
  rw [group_erase_testBit g idx hidx (by omega)]
  rw [if_neg (by omega)]
  exact (group_was_full_ne_zero hs).mp hwf

theorem group_insert_occ {E : Type} (g : Group E) (e : E) (hint idx : Nat)
    (hidx : idx < 7) (hempty : g.status.testBit idx = false) :
    occupied_count (group_insert g e hint idx) = occupied_count g + 1 := by
  apply filter_length_flip hidx
  · intro j hj hne
    rcases hb : g.status.testBit j with hv | hv
    · rcases hb2 : (group_insert g e hint idx).status.testBit j with hv2 | hv2
      · rfl
      · rcases (group_insert_testBit_lt7 g e hint idx hidx hj).mp hb2 with
          h1 | h1
        · rw [hb] at h1; exact absurd h1 (by simp)
        · exact absurd h1 hne
    · rcases hb2 : (group_insert g e hint idx).status.testBit j with hv2 | hv2
      · exact absurd ((group_insert_testBit_lt7 g e hint idx hidx hj).mpr
          (Or.inl hb)) (by simp [hb2])
      · rfl
  · exact (group_insert_testBit_lt7 g e hint idx hidx hidx).mpr (Or.inr rfl)
  · exact hempty

theorem group_erase_occ {E : Type} (g : Group E) (idx : Nat)
    (hidx : idx < 7) (hocc : g.status.testBit idx = true) :
    occupied_count g = occupied_count (group_erase_entry g idx).2 + 1 := by
  apply filter_length_flip hidx
  · intro j hj hne
    rw [group_erase_testBit g idx hidx (by omega), if_neg hne]
  · exact hocc
  · rw [group_erase_testBit g idx hidx (by omega), if_pos rfl]

theorem occupied_count_le {E : Type} (g : Group E) : occupied_count g ≤ 7 := by
  have := List.length_filter_le (fun i => g.status.testBit i) (List.range 7)
  simpa using this

theorem occupied_count_of_full {E : Type} (g : Group E)
    (hfull : (g.status &&& ENTRIES_MASK) = ENTRIES_MASK) :
    occupied_count g = 7 := by
  have hall := full_iff_bits.mp hfull
  rw [occupied_count, List.filter_eq_self.mpr]
  · simp
  · intro i hi
    exact hall i (List.mem_range.mp hi)

theorem occupied_count_default {E : Type} :
    occupied_count (default : Group E) = 0 := by
  show occupied_count (emptyGroup E) = 0
  rw [occupied_count, emptyGroup]
  simp

/-! ### Operation-level characterization of the probe loops -/

theorem ps_init_eq (hash size : Nat) :
    ps_init hash size = ⟨hash &&& (size - 1), 0, size - 1⟩ := rfl

/-- Invariant used only on freshly rebuilt tables: a group can only carry the
was-full bit if it is actually full.  It holds on any table that has never
seen an erase, and yields termination of the probe loops. -/
def WFull {E : Type} (h : h64 E) : Prop :=
  ∀ g ∈ h.groups, group_was_full g ≠ 0 → group_is_full g = true

theorem find_empty_entry_spec {E : Type} {h : h64 E} {hash pos idx : Nat}
    {k : Nat} (hsize : h.size_in_groups = 2 ^ k)
    (hres : h64_find_empty_entry h hash = some (pos, idx)) :
    ∃ j, j < h.size_in_groups ∧ pos = probe_at hash h.size_in_groups j ∧
      pos < h.size_in_groups ∧
      group_is_full (group_at h pos) = false ∧
      idx = first_empty_index (group_at h pos).status ∧
      ∀ j2, j2 < j →
        group_is_full (group_at h (probe_at hash h.size_in_groups j2)) =
          true := by
  rw [h64_find_empty_entry, ps_init_eq] at hres
  obtain ⟨j, hj, hpos, hnf, hidx, hpref⟩ := find_empty_loop_some hres
  simp only [Nat.zero_add] at hpos hpref
  rw [← probe_at_def] at hpos
  refine ⟨j, hj, hpos, ?_, hnf, hidx, ?_⟩
  · rw [hpos, hsize]
    exact probe_at_lt _ _ _
  · intro j2 hj2
    have := hpref j2 hj2
    rwa [← probe_at_def] at this

theorem find_entry_found_spec {E : Type} {cb : Callbacks E} {h : h64 E}
    {p : E} {hash pos idx : Nat} {k : Nat} (hsize : h.size_in_groups = 2 ^ k)
    (hres : h64_find_entry cb h p hash = some (some (pos, idx))) :
    ∃ j, j < h.size_in_groups ∧ pos = probe_at hash h.size_in_groups j ∧
      pos < h.size_in_groups ∧
      group_scan cb (group_at h pos) p
        (group_match_inserted (group_at h pos) (hash_hint hash)) = some idx ∧
      ∀ j2, j2 < j →
        group_scan cb (group_at h (probe_at hash h.size_in_groups j2)) p
            (group_match_inserted
              (group_at h (probe_at hash h.size_in_groups j2))
              (hash_hint hash)) = none ∧
          group_was_full
            (group_at h (probe_at hash h.size_in_groups j2)) ≠ 0 := by
  rw [h64_find_entry, ps_init_eq] at hres
  obtain ⟨j, hj, hpos, hscan, hpref⟩ := find_entry_loop_found hres
  simp only [Nat.zero_add] at hpos hpref
  rw [← probe_at_def] at hpos
  refine ⟨j, hj, hpos, ?_, hscan, ?_⟩
  · rw [hpos, hsize]
    exact probe_at_lt _ _ _
  · intro j2 hj2
    have := hpref j2 hj2
    rw [loop_group, ← probe_at_def] at this
    exact this

theorem find_entry_absent_spec {E : Type} {cb : Callbacks E} {h : h64 E}
    {p : E} {hash : Nat}
    (hres : h64_find_entry cb h p hash = some none) :
    ∃ j, j < h.size_in_groups ∧
      group_scan cb (group_at h (probe_at hash h.size_in_groups j)) p
        (group_match_inserted (group_at h (probe_at hash h.size_in_groups j))
          (hash_hint hash)) = none ∧
      group_was_full (group_at h (probe_at hash h.size_in_groups j)) = 0 ∧
      ∀ j2, j2 < j →
        group_scan cb (group_at h (probe_at hash h.size_in_groups j2)) p
            (group_match_inserted
              (group_at h (probe_at hash h.size_in_groups j2))
              (hash_hint hash)) = none ∧
          group_was_full
            (group_at h (probe_at hash h.size_in_groups j2)) ≠ 0 := by
  rw [h64_find_entry, ps_init_eq] at hres
  obtain ⟨j, hj, hs, hw, hpref⟩ := find_entry_loop_absent hres
  simp only [Nat.zero_add] at hs hw hpref
  rw [loop_group, ← probe_at_def] at hs hw
  refine ⟨j, hj, hs, hw, ?_⟩
  intro j2 hj2
  have := hpref j2 hj2
  rw [loop_group, ← probe_at_def] at this
  exact this

/-! ### The core insertion step preserves the invariants -/

theorem group_insert_status_cases {E : Type} (g : Group E) (e : E)
    (hint idx : Nat) :
    (group_insert g e hint idx).status = 0xFF ∨
      (group_insert g e hint idx).status = g.status ||| (1 <<< idx) := by
  rw [group_insert]
  split
  · left
    rfl
  · right
    rfl

theorem group_insert_bit7_cases {E : Type} (g : Group E) (e : E)
    (hint idx : Nat) (hidx : idx < 7)
    (hb7 : (group_insert g e hint idx).status.testBit 7 = true) :
    g.status.testBit 7 = true ∨
      group_is_full (group_insert g e hint idx) = true := by
  rcases group_insert_status_cases g e hint idx with hst | hst
  · right
    rw [group_is_full, hst]
    decide
  · left
    rw [hst] at hb7
    rcases or_shift_testBit.mp hb7 with h1 | h1
    · exact h1
    · omega

set_option maxHeartbeats 1000000 in
theorem insert_new_core_spec {E : Type} {cb : Callbacks E} {h h2 : h64 E}
    {e : E} (hInv : Inv cb h)
    (hres : h64_insert_new_core cb h e = some h2) :
    Inv cb h2 ∧ h2.count = h.count + 1 ∧
    h2.size_in_groups = h.size_in_groups ∧ h2.seed = h.seed ∧
    stored h2 e ∧
    (∀ pos2, pos2 < h.size_in_groups →
      group_was_full (group_at h pos2) ≠ 0 →
      group_was_full (group_at h2 pos2) ≠ 0) ∧
    (∀ x, stored h x → stored h2 x) ∧
    (∀ x, stored h2 x → stored h x ∨ x = e) ∧
    (FindInv cb h → FindInv cb h2) ∧
    (WFull h → WFull h2) := by
  obtain ⟨hlen, ⟨k, hk⟩, hmin, hWF, hcount⟩ := hInv
  simp only [h64_insert_new_core] at hres
  rcases hfe : h64_find_empty_entry h (h64_hash cb h e) with _ | ⟨pos, idx⟩
  · rw [hfe] at hres; exact absurd hres (by simp)
  rw [hfe] at hres
  simp only [Option.some_inj] at hres
  obtain ⟨j, hj, hposj, hposlt, hnotfull, hidx_eq, hpref⟩ :=
    find_empty_entry_spec hk hfe
  have hposlen : pos < h.groups.length := by omega
  have hgpWF : GroupWF cb h.seed (group_at h pos) :=
    hWF _ (getD_mem _ _ _ hposlen)
  obtain ⟨hs256, hhlen, helen, hbits, hfull7, hhints⟩ := hgpWF
  have hnotfull2 : ((group_at h pos).status &&& ENTRIES_MASK) ≠ ENTRIES_MASK := by
    intro hcon
    rw [group_is_full] at hnotfull
    simp [hcon] at hnotfull
  obtain ⟨hidx7, hbitidx, _⟩ :=
    first_empty_spec (group_at h pos).status hs256 hnotfull2
  rw [← hidx_eq] at hidx7 hbitidx
  have hempty : (group_at h pos).entries.getD idx none = none := by
    rcases hent : (group_at h pos).entries.getD idx none with _ | x
    · rfl
    · have := (hbits idx hidx7).mpr (by rw [hent]; rfl)
      rw [hbitidx] at this
      exact absurd this (by simp)
  set gp := group_at h pos with hgp
  set g2 := group_insert gp e (hash_hint (h64_hash cb h e)) idx with hg2
  have hgroups2 : h2.groups = h.groups.set pos g2 := by
    rw [← hres]
    rfl
  have hsize2 : h2.size_in_groups = h.size_in_groups := by rw [← hres]
  have hseed2 : h2.seed = h.seed := by rw [← hres]
  have hcount2 : h2.count = h.count + 1 := by rw [← hres]
  have hlen2 : h2.groups.length = h.groups.length := by
    rw [hgroups2, List.length_set]
  have hat2 : ∀ pos2, pos2 ≠ pos → group_at h2 pos2 = group_at h pos2 := by
    intro pos2 hne
    rw [group_at, group_at, hgroups2, getD_set_ne _ _ _ _ _ (fun he => hne he.symm)]
  have hat2pos : group_at h2 pos = g2 := by
    rw [group_at, hgroups2, getD_set_self _ _ _ _ (by omega)]
  have hg2WF : GroupWF cb h.seed g2 := by
    refine ⟨group_insert_status_lt gp e _ idx hidx7 hs256, ?_, ?_, ?_, ?_, ?_⟩
    · rw [hg2, group_insert_hints, List.length_set]; exact hhlen
    · rw [hg2, group_insert_entries, List.length_set]; exact helen
    · intro i hi
      rw [hg2, group_insert_entries]
      rcases Decidable.eq_or_ne i idx with he | hne
      · rw [he, getD_set_self _ _ _ _ (by omega)]
        constructor
        · intro _
          rfl
        · intro _
          exact (group_insert_testBit_lt7 gp e _ idx hidx7 (by omega)).mpr
            (Or.inr rfl)
      · rw [getD_set_ne _ _ _ _ _ (fun he2 => hne he2.symm)]
        rw [show (group_insert gp e (hash_hint (h64_hash cb h e)) idx).status
              = g2.status from rfl]
        constructor
        · intro hbit
          rcases (group_insert_testBit_lt7 gp e _ idx hidx7 hi).mp hbit with
            h1 | h1
          · exact (hbits i hi).mp h1
          · exact absurd h1 hne
        · intro hsome
          exact (group_insert_testBit_lt7 gp e _ idx hidx7 hi).mpr
            (Or.inl ((hbits i hi).mpr hsome))
    · exact group_insert_full_bit7 gp e _ idx
    · intro i x hi hx
      rw [hg2, group_insert_entries] at hx
      rw [hg2, group_insert_hints]
      rcases Decidable.eq_or_ne i idx with he | hne
      · rw [he, getD_set_self _ _ _ _ (by omega)] at hx
        rw [he, getD_set_self _ _ _ _ (by omega)]
        have hxe : x = e := by
          injection hx with hx2
          exact hx2.symm
        rw [hxe]
        rfl
      · rw [getD_set_ne _ _ _ _ _ (fun he2 => hne he2.symm)] at hx
        rw [getD_set_ne _ _ _ _ _ (fun he2 => hne he2.symm)]
        exact hhints i x hi hx
  have hInv2 : Inv cb h2 := by
    refine ⟨by omega, ⟨k, by omega⟩, by omega, ?_, ?_⟩
    · intro g hg
      rw [hgroups2] at hg
      rcases mem_set hg with he | hmem
      · rw [he, hseed2]
        exact hg2WF
      · rw [hseed2]
        exact hWF g hmem
    · rw [hcount2, hcount, hgroups2, List.map_set]
      have hsum := sum_set_add (l := h.groups.map occupied_count)
        (i := pos) (a := occupied_count g2) (by simpa using hposlen)
      rw [getD_map hposlen default 0] at hsum
      have hbridge : occupied_count (h.groups.getD pos default) =
          occupied_count gp := rfl
      rw [hbridge] at hsum
      have hocc : occupied_count g2 = occupied_count gp + 1 :=
        group_insert_occ gp e _ idx hidx7 hbitidx
      omega
  have hstored2 : stored h2 e := by
    refine ⟨pos, idx, by omega, hidx7, ?_⟩
    rw [hat2pos, hg2, group_insert_entries, getD_set_self _ _ _ _ (by omega)]
  have hmono : ∀ pos2, pos2 < h.size_in_groups →
      group_was_full (group_at h pos2) ≠ 0 →
      group_was_full (group_at h2 pos2) ≠ 0 := by
    intro pos2 _ hwf
    rcases Decidable.eq_or_ne pos2 pos with he | hne
    · rw [he] at hwf ⊢
      rw [hat2pos, hg2]
      rw [← hgp] at hwf
      exact group_insert_sticky gp e _ idx hidx7 hs256 hwf
    · rw [hat2 pos2 hne]
      exact hwf
  have hstoredmono : ∀ x, stored h x → stored h2 x := by
    rintro x ⟨p2, i2, hp2, hi2, hx⟩
    refine ⟨p2, i2, by omega, hi2, ?_⟩
    rcases Decidable.eq_or_ne p2 pos with he | hne
    · rw [he] at hx ⊢
      rcases Decidable.eq_or_ne i2 idx with he2 | hne2
      · rw [he2] at hx
        rw [← hgp, hempty] at hx
        exact absurd hx (by simp)
      · rw [hat2pos, hg2, group_insert_entries,
          getD_set_ne _ _ _ _ _ (fun he2 => hne2 he2.symm)]
        rw [← hgp] at hx
        exact hx
    · rw [hat2 p2 hne]
      exact hx
  have hstoredrev : ∀ x, stored h2 x → stored h x ∨ x = e := by
    rintro x ⟨p2, i2, hp2, hi2, hx⟩
    rw [hsize2] at hp2
    rcases Decidable.eq_or_ne p2 pos with he | hne
    · rw [he] at hx
      rcases Decidable.eq_or_ne i2 idx with he2 | hne2
      · rw [he2] at hx
        rw [hat2pos, hg2, group_insert_entries,
          getD_set_self _ _ _ _ (by omega)] at hx
        right
        injection hx with hx2
        exact hx2.symm
      · rw [hat2pos, hg2, group_insert_entries,
          getD_set_ne _ _ _ _ _ (fun he2 => hne2 he2.symm)] at hx
        exact Or.inl ⟨pos, i2, hposlt, hi2, hx⟩
    · rw [hat2 p2 hne] at hx
      exact Or.inl ⟨p2, i2, hp2, hi2, hx⟩
  refine ⟨hInv2, hcount2, hsize2, hseed2, hstored2, hmono, hstoredmono,
    hstoredrev, ?_, ?_⟩
  · -- FindInv preservation
    intro hFI
    intro pos2 i2 x hp2 hi2 hx
    have hhash2 : h64_hash cb h2 x = h64_hash cb h x := by
      rw [h64_hash, h64_hash, hseed2]
    rw [hsize2] at hp2 ⊢
    rw [hhash2]
    rcases Decidable.eq_or_ne pos2 pos with he | hne
    · rw [he] at hx ⊢
      rcases Decidable.eq_or_ne i2 idx with he2 | hne2
      · -- the new element
        rw [he2] at hx
        have hxe : x = e := by
          rw [hat2pos, hg2, group_insert_entries,
            getD_set_self _ _ _ _ (by omega)] at hx
          injection hx with hx2
          exact hx2.symm
        rw [hxe]
        refine ⟨j, hj, hposj.symm, ?_⟩
        intro j2 hj2
        have hfull := hpref j2 hj2
        have hne2 : probe_at (h64_hash cb h e) h.size_in_groups j2 ≠ pos := by
          intro hcon
          rw [hposj] at hcon
          have := probe_at_inj (s := h64_hash cb h e) (k := k)
            (by omega : j2 < 2 ^ k) (by omega : j < 2 ^ k)
            (by rw [← hk]; exact hcon)
          omega
        rw [hat2 _ hne2]
        have hplt : probe_at (h64_hash cb h e) h.size_in_groups j2 <
            h.groups.length := by
          have h1 : probe_at (h64_hash cb h e) (2 ^ k) j2 < 2 ^ k :=
            probe_at_lt _ _ _
          rw [← hk] at h1
          omega
        have hWFg := hWF _ (getD_mem _ _ default hplt)
        have hfull2 : ((group_at h (probe_at (h64_hash cb h e)
            h.size_in_groups j2)).status &&& ENTRIES_MASK) = ENTRIES_MASK := by
          rw [group_is_full] at hfull
          simpa using hfull
        apply (group_was_full_ne_zero hWFg.1).mpr
        exact hWFg.2.2.2.2.1 hfull2
      · -- same group, a pre-existing slot
        have hxold : (group_at h pos).entries.getD i2 none = some x := by
          rw [hat2pos, hg2, group_insert_entries,
            getD_set_ne _ _ _ _ _ (fun he2 => hne2 he2.symm)] at hx
          exact hx
        obtain ⟨jx, hjx, hjpos, hjpref⟩ := hFI pos i2 x (by omega) hi2 hxold
        refine ⟨jx, hjx, hjpos, ?_⟩
        intro j2 hj2
        have hold := hjpref j2 hj2
        rcases Decidable.eq_or_ne
            (probe_at (h64_hash cb h x) h.size_in_groups j2) pos with hpe | hpne
        · rw [hpe]
          rw [hpe] at hold
          rw [hat2pos, hg2]
          exact group_insert_sticky gp e _ idx hidx7 hs256 hold
        · rw [hat2 _ hpne]
          exact hold
    · -- other group
      have hxold : (group_at h pos2).entries.getD i2 none = some x := by
        rw [hat2 pos2 hne] at hx
        exact hx
      obtain ⟨jx, hjx, hjpos, hjpref⟩ := hFI pos2 i2 x (by omega) hi2 hxold
      refine ⟨jx, hjx, hjpos, ?_⟩
      intro j2 hj2
      have hold := hjpref j2 hj2
      rcases Decidable.eq_or_ne
          (probe_at (h64_hash cb h x) h.size_in_groups j2) pos with hpe | hpne
      · rw [hpe]
        rw [hpe] at hold
        rw [hat2pos, hg2]
        exact group_insert_sticky gp e _ idx hidx7 hs256 hold
      · rw [hat2 _ hpne]
        exact hold
  · -- WFull preservation
    intro hWFull
    intro g hg hwf
    rw [hgroups2] at hg
    rcases mem_set hg with he | hmem
    · rw [he] at hwf ⊢
      have hs2lt : g2.status < 256 := by
        rw [hg2]
        exact group_insert_status_lt gp e _ idx hidx7 hs256
      have hb7 : g2.status.testBit 7 = true :=
        (group_was_full_ne_zero hs2lt).mp hwf
      rw [hg2] at hb7 ⊢
      rcases group_insert_bit7_cases gp e _ idx hidx7 hb7 with h1 | h1
      · exfalso
        have hgpwf : group_was_full gp ≠ 0 :=
          (group_was_full_ne_zero hs256).mpr h1
        have := hWFull gp (getD_mem _ _ default hposlen) hgpwf
        rw [this] at hnotfull
        exact absurd hnotfull (by simp)
      · exact h1
    · exact hWFull g hmem hwf

/-! ### The element list, counting, and termination of the probe loops -/

theorem countP_eq_filter_range {α : Type _} (p : α → Bool) (d : α) :
    ∀ l : List α,
      l.countP p =
        ((List.range l.length).filter (fun i => p (l.getD i d))).length := by
  intro l
  induction l with
  | nil => simp
  | cons a t ih =>
    rw [List.countP_cons, List.length_cons, List.range_succ_eq_map,
        List.filter_cons]
    have hz : (a :: t).getD 0 d = a := rfl
    rw [hz]
    have hmap : List.filter (fun i => p ((a :: t).getD i d))
        (List.map Nat.succ (List.range t.length)) =
        List.map Nat.succ ((List.range t.length).filter
          (fun i => p (t.getD i d))) := by
      rw [List.filter_map]
      rfl
    rw [hmap]
    rcases hpa : p a with _ | _
    · simp [ih]
    · simp [ih]

theorem length_filterMap_id {α : Type _} :
    ∀ l : List (Option α), (l.filterMap id).length = l.countP Option.isSome := by
  intro l
  induction l with
  | nil => rfl
  | cons o t ih =>
    rcases o with _ | x <;> simp [List.filterMap_cons, List.countP_cons, ih]

theorem occ_eq_filterMap_length {E : Type} {cb : Callbacks E} {seed : Nat}
    {g : Group E} (hWF : GroupWF cb seed g) :
    (g.entries.filterMap id).length = occupied_count g := by
  rw [length_filterMap_id, countP_eq_filter_range Option.isSome none, hWF.2.2.1,
      occupied_count]
  apply filter_length_congr
  intro i hi
  rcases hb : g.status.testBit i with _ | _
  · rcases hb2 : (g.entries.getD i none).isSome with _ | _
    · rfl
    · exact absurd ((hWF.2.2.2.1 i hi).mpr hb2) (by rw [hb]; simp)
  · rcases hb2 : (g.entries.getD i none).isSome with _ | _
    · exact absurd ((hWF.2.2.2.1 i hi).mp hb) (by rw [hb2]; simp)
    · rfl

theorem elems_length {E : Type} {cb : Callbacks E} {h : h64 E}
    (hInv : Inv cb h) : (h64_elems h).length = h.count := by
  obtain ⟨hlen, _, _, hWF, hcount⟩ := hInv
  rw [h64_elems, List.length_flatten, hcount]
  congr 1
  rw [List.map_map]
  apply List.map_congr_left
  intro g hg
  exact occ_eq_filterMap_length (hWF g hg)

theorem mem_elems_iff_stored {E : Type} {cb : Callbacks E} {h : h64 E}
    (hInv : Inv cb h) (x : E) : x ∈ h64_elems h ↔ stored h x := by
  obtain ⟨hlen, _, _, hWF, _⟩ := hInv
  rw [h64_elems, List.mem_flatten]
  constructor
  · rintro ⟨sub, hsub, hx⟩
    rw [List.mem_map] at hsub
    obtain ⟨g, hg, rfl⟩ := hsub
    rw [List.mem_filterMap] at hx
    obtain ⟨o, ho, hox⟩ := hx
    rcases o with _ | y
    · exact absurd hox (by simp)
    · obtain ⟨pos, hpos, hgpos⟩ := List.mem_iff_getElem.mp hg
      obtain ⟨i, hi, hoi⟩ := List.mem_iff_getElem.mp ho
      have hi7 : i < 7 := by
        have := (hWF g hg).2.2.1
        omega
      refine ⟨pos, i, by omega, hi7, ?_⟩
      have hgat : group_at h pos = g := by
        rw [group_at, List.getD_eq_getElem?_getD, List.getElem?_eq_getElem hpos,
          hgpos]
        rfl
      rw [hgat]
      rw [List.getD_eq_getElem?_getD, List.getElem?_eq_getElem hi, hoi]
      simp at hox
      rw [hox]
      rfl
  · rintro ⟨pos, i, hpos, hi, hx⟩
    have hposlen : pos < h.groups.length := by omega
    have hgat : group_at h pos = h.groups.getD pos default := rfl
    refine ⟨(group_at h pos).entries.filterMap id, ?_, ?_⟩
    · rw [List.mem_map]
      exact ⟨group_at h pos, getD_mem _ _ _ hposlen, rfl⟩
    · rw [List.mem_filterMap]
      exact ⟨some x, by
        rw [← hx]
        apply getD_mem
        have := (hWF _ (getD_mem _ _ default hposlen)).2.2.1
        rw [hgat] at *
        omega, rfl⟩

theorem sum_occ_all_full {E : Type} :
    ∀ {l : List (Group E)}, (∀ g ∈ l, group_is_full g = true) →
      (l.map occupied_count).sum = 7 * l.length := by
  intro l
  induction l with
  | nil => simp
  | cons g t ih =>
    intro hall
    rw [List.map_cons, List.sum_cons, List.length_cons,
        ih (fun g2 hg2 => hall g2 (List.mem_cons_of_mem _ hg2))]
    have hocc : occupied_count g = 7 := by
      apply occupied_count_of_full
      have := hall g (List.mem_cons_self _ _)
      rw [group_is_full] at this
      simpa using this
    omega

theorem exists_not_full {E : Type} {cb : Callbacks E} {h : h64 E}
    (hInv : Inv cb h) (hcnt : h.count < h.size_in_groups * GROUP_ENTRIES) :
    ∃ t, t < h.size_in_groups ∧ group_is_full (group_at h t) = false := by
  obtain ⟨hlen, _, _, hWF, hcount⟩ := hInv
  by_contra hcon
  push_neg at hcon
  have hall : ∀ g ∈ h.groups, group_is_full g = true := by
    intro g hg
    obtain ⟨t, ht, hgt⟩ := List.mem_iff_getElem.mp hg
    have hgat : group_at h t = g := by
      rw [group_at, List.getD_eq_getElem?_getD, List.getElem?_eq_getElem ht,
        hgt]
      rfl
    have := hcon t (by omega)
    rw [hgat] at this
    rcases hv : group_is_full g with _ | _
    · exact absurd hv this
    · rfl
  have := sum_occ_all_full hall
  rw [← hcount] at this
  rw [GROUP_ENTRIES] at hcnt
  omega

theorem find_empty_succeeds {E : Type} {cb : Callbacks E} {h : h64 E} {k : Nat}
    (hk : h.size_in_groups = 2 ^ k) (hInv : Inv cb h)
    (hcnt : h.count < h.size_in_groups * GROUP_ENTRIES) (hash : Nat) :
    ∃ r, h64_find_empty_entry h hash = some r := by
  obtain ⟨t, ht, hnf⟩ := exists_not_full hInv hcnt
  rw [hk] at ht
  obtain ⟨j, hj, hpj⟩ := probe_at_surj (s := hash) t ht
  rw [h64_find_empty_entry, ps_init_eq]
  apply find_empty_loop_succeeds
  refine ⟨j, by omega, ?_⟩
  rw [Nat.zero_add, ← probe_at_def]
  show group_is_full (group_at h (probe_at hash h.size_in_groups j)) = false
  rw [hk, hpj]
  exact hnf

theorem find_entry_terminates {E : Type} {cb : Callbacks E} {h : h64 E}
    {k : Nat} (hk : h.size_in_groups = 2 ^ k) (p : E) (hash : Nat)
    (hex : ∃ t, t < h.size_in_groups ∧ group_was_full (group_at h t) = 0) :
    ∃ r, h64_find_entry cb h p hash = some r := by
  obtain ⟨t, ht, hnwf⟩ := hex
  rw [hk] at ht
  obtain ⟨j, hj, hpj⟩ := probe_at_surj (s := hash) t ht
  rw [h64_find_entry, ps_init_eq]
  apply find_entry_loop_terminates (w := j)
  · omega
  · rw [Nat.zero_add, loop_group, ← probe_at_def]
    show group_was_full (group_at h (probe_at hash h.size_in_groups j)) = 0
    rw [hk, hpj]
    exact hnwf

theorem insert_new_core_succeeds {E : Type} {cb : Callbacks E} {h : h64 E}
    {k : Nat} (hk : h.size_in_groups = 2 ^ k) (hInv : Inv cb h)
    (hcnt : h.count < h.size_in_groups * GROUP_ENTRIES) (e : E) :
    ∃ h2, h64_insert_new_core cb h e = some h2 := by
  obtain ⟨⟨pos, idx⟩, hr⟩ := find_empty_succeeds hk hInv hcnt (h64_hash cb h e)
  rw [h64_insert_new_core]
  rw [hr]
  exact ⟨_, rfl⟩

/-! ### Fresh tables -/

theorem h64_init_spec {E : Type} (cb : Callbacks E) (seed size : Nat)
    (hk : size = 0 ∨ ∃ k, size = 2 ^ k) :
    Inv cb (h64_init E seed size) ∧ CountBound (h64_init E seed size) ∧
    FindInv cb (h64_init E seed size) ∧ WFull (h64_init E seed size) ∧
    (h64_init E seed size).count = 0 ∧
    (h64_init E seed size).seed = seed ∧
    (h64_init E seed size).size_in_groups =
      (if size < MIN_SIZE then MIN_SIZE else size) ∧
    ∀ x : E, ¬ stored (h64_init E seed size) x := by
  have hgroups : (h64_init E seed size).groups =
      List.replicate (if size < MIN_SIZE then MIN_SIZE else size)
        (emptyGroup E) := rfl
  have hsz : (h64_init E seed size).size_in_groups =
      (if size < MIN_SIZE then MIN_SIZE else size) := rfl
  have hemptyWF : GroupWF cb seed (emptyGroup E) := by
    refine ⟨by norm_num [emptyGroup], rfl, rfl, ?_, ?_, ?_⟩
    · intro i hi
      rw [emptyGroup]
      constructor
      · intro hb
        rw [Nat.zero_testBit] at hb
        exact absurd hb (by simp)
      · intro hb
        rw [getD_replicate 7 i none none hi] at hb
        exact absurd hb (by simp)
    · intro hcon
      rw [emptyGroup] at hcon
      norm_num [ENTRIES_MASK] at hcon
    · intro i x hi hx
      rw [emptyGroup] at hx
      rw [getD_replicate 7 i none none hi] at hx
      exact absurd hx (by simp)
  have hnostored : ∀ x : E, ¬ stored (h64_init E seed size) x := by
    rintro x ⟨pos, i, hpos, hi, hx⟩
    rw [hsz] at hpos
    have hga : group_at (h64_init E seed size) pos = emptyGroup E := by
      rw [group_at, hgroups, getD_replicate _ _ _ _ (by omega)]
    rw [hga, emptyGroup] at hx
    rw [getD_replicate 7 i none none hi] at hx
    exact absurd hx (by simp)
  refine ⟨⟨?_, ?_, ?_, ?_, ?_⟩, ?_, ?_, ?_, rfl, rfl, hsz, hnostored⟩
  · rw [hgroups, hsz, List.length_replicate]
  · rw [hsz]
    rcases Nat.lt_or_ge size MIN_SIZE with hlt | hge
    · rw [if_pos hlt]
      exact ⟨2, by norm_num [MIN_SIZE]⟩
    · rw [if_neg (by omega)]
      rcases hk with h0 | ⟨k, hkk⟩
      · rw [MIN_SIZE] at hge
        omega
      · exact ⟨k, hkk⟩
  · rw [hsz]
    rcases Nat.lt_or_ge size MIN_SIZE with hlt | hge
    · rw [if_pos hlt]
    · rw [if_neg (by omega)]
      omega
  · intro g hg
    rw [hgroups] at hg
    rw [List.eq_of_mem_replicate hg]
    exact hemptyWF
  · rw [hgroups]
    show (0 : Nat) = _
    rw [List.map_replicate]
    have hocc : occupied_count (emptyGroup E) = 0 := occupied_count_default
    rw [hocc]
    simp
  · show (0 : Nat) ≤ _
    omega
  · rintro pos i x hpos hi hx
    exact absurd ⟨pos, i, hpos, hi, hx⟩ (hnostored x)
  · intro g hg hwf
    rw [hgroups] at hg
    rw [List.eq_of_mem_replicate hg] at hwf
    exact absurd (by simp [group_was_full, emptyGroup] :
      group_was_full (emptyGroup E) = 0) hwf


/-! ### Rehash: the reinsertion loop and resize -/

theorem max_load_lt {n : Nat} (hn : 0 < n) : max_load_count n < n := by
  rw [max_load_count]
  exact Nat.div_lt_of_lt_mul (by omega)

theorem max_load_mono {m n : Nat} (h : m ≤ n) :
    max_load_count m ≤ max_load_count n := by
  rw [max_load_count, max_load_count]
  exact Nat.div_le_div_right (by omega)

theorem max_load_double {n : Nat} :
    2 * max_load_count n ≤ max_load_count (2 * n) := by
  rw [max_load_count, max_load_count]
  have h1 : 67 * n / 100 * 100 ≤ 67 * n := Nat.div_mul_le_self _ _
  rw [Nat.le_div_iff_mul_le (by norm_num)]
  omega

theorem should_grow_up_iff {E : Type} (h : h64 E) :
    h64_should_grow_up h = true ↔
      max_load_count (h.size_in_groups * GROUP_ENTRIES) < h.count := by
  rw [h64_should_grow_up]
  simp [Nat.lt_iff_add_one_le]

theorem reinsert_no_grow {E : Type} {cb : Callbacks E} (gas : Nat) :
    ∀ (es : List E) (tmp : h64 E) (seeds : List Nat),
      Inv cb tmp → FindInv cb tmp → WFull tmp →
      tmp.count + es.length ≤
        max_load_count (tmp.size_in_groups * GROUP_ENTRIES) + 1 →
      ∃ tmp2, h64_reinsert cb gas es tmp seeds = some (tmp2, seeds) ∧
        tmp2.size_in_groups = tmp.size_in_groups ∧
        tmp2.seed = tmp.seed ∧
        tmp2.count = tmp.count + es.length ∧
        Inv cb tmp2 ∧ FindInv cb tmp2 ∧ WFull tmp2 ∧
        ∀ x, stored tmp2 x ↔ (stored tmp x ∨ x ∈ es) := by
  intro es
  induction es with
  | nil =>
    intro tmp seeds hInv hFI hWFu hcnt
    refine ⟨tmp, by rw [h64_reinsert_nil], rfl, rfl, by simp, hInv, hFI, hWFu, ?_⟩
    intro x
    simp
  | cons e rest ih =>
    intro tmp seeds hInv hFI hWFu hcnt
    have hgrow : h64_should_grow_up tmp = false := by
      rcases hv : h64_should_grow_up tmp with _ | _
      · rfl
      · have := (should_grow_up_iff tmp).mp hv
        simp only [List.length_cons] at hcnt
        omega
    have hcntlt : tmp.count < tmp.size_in_groups * GROUP_ENTRIES := by
      have h1 : 0 < tmp.size_in_groups * GROUP_ENTRIES := by
        have := hInv.2.2.1
        rw [MIN_SIZE] at this
        rw [GROUP_ENTRIES]
        omega
      have h2 := max_load_lt h1
      simp only [List.length_cons] at hcnt
      omega
    obtain ⟨k, hk⟩ := hInv.2.1
    obtain ⟨h2, hcore⟩ := insert_new_core_succeeds hk hInv hcntlt e
    obtain ⟨hInv2, hc2, hs2, hsd2, hstre, hmono, hstm, hstr, hFI2, hWFu2⟩ :=
      insert_new_core_spec hInv hcore
    obtain ⟨tmp2, hrec, hsz, hsd, hcn, hI, hF, hW, hstored⟩ :=
      ih h2 seeds hInv2 (hFI2 hFI) (hWFu2 hWFu)
        (by rw [hs2]; simp only [List.length_cons] at hcnt; omega)
    refine ⟨tmp2, ?_, by omega, by rw [hsd, hsd2], ?_, hI, hF, hW, ?_⟩
    · rw [h64_reinsert_cons, if_neg (by rw [hgrow]; simp), hcore]
      exact hrec
    · simp only [List.length_cons]
      omega
    · intro x
      rw [hstored x]
      constructor
      · rintro (hx | hx)
        · rcases hstr x hx with hx2 | hx2
          · exact Or.inl hx2
          · exact Or.inr (by rw [hx2]; exact List.mem_cons_self _ _)
        · exact Or.inr (List.mem_cons_of_mem _ hx)
      · rintro (hx | hx)
        · exact Or.inl (hstm x hx)
        · rcases List.mem_cons.mp hx with hx2 | hx2
          · exact Or.inl (by rw [hx2]; exact hstre)
          · exact Or.inr hx2

/-- A power of two passes the is_power_of_2 test. -/
theorem pow2_is_power_of_2 (k : Nat) : is_power_of_2 (2 ^ k) = true := by
  rw [is_power_of_2, Nat.and_pow_two_sub_one_eq_mod, Nat.mod_self]
  rfl

/-- Conversely, a nonzero value passing the test is a power of two:
writing n = 2 ^ Nat.log2 n + r with r < 2 ^ Nat.log2 n, a nonzero r would
leave bit (log2 n) set in both n and n - 1, contradicting n AND (n-1) = 0. -/
theorem is_power_of_2_pow2 {n : Nat} (hn : n ≠ 0)
    (h : is_power_of_2 n = true) : ∃ k, n = 2 ^ k := by
  rw [is_power_of_2, beq_iff_eq] at h
  refine ⟨Nat.log2 n, ?_⟩
  have h1 : 1 ≤ n := Nat.one_le_iff_ne_zero.mpr hn
  have hlo : 2 ^ Nat.log2 n ≤ n := Nat.log2_self_le hn
  have hhi : n < 2 ^ (Nat.log2 n + 1) := Nat.lt_log2_self
  set k := Nat.log2 n with hkdef
  by_contra hne
  have hr : 2 ^ k < n := lt_of_le_of_ne hlo (fun he => hne he.symm)
  have hbit_n : n.testBit k = true := by
    rw [Nat.testBit_to_div_mod]
    have hdiv : n / 2 ^ k = 1 := by
      have := Nat.pow_succ 2 k
      apply Nat.div_eq_of_lt_le <;> omega
    rw [hdiv]
    rfl
  have hbit_n1 : (n - 1).testBit k = true := by
    rw [Nat.testBit_to_div_mod]
    have hdiv : (n - 1) / 2 ^ k = 1 := by
      have := Nat.pow_succ 2 k
      apply Nat.div_eq_of_lt_le <;> omega
    rw [hdiv]
    rfl
  have : (n &&& (n - 1)).testBit k = true := by
    rw [Nat.testBit_and, hbit_n, hbit_n1]
    rfl
  rw [h] at this
  simp at this

theorem resize_no_grow {E : Type} {cb : Callbacks E} {gas : Nat}
    (hgas : gas ≠ 0) {h : h64 E} {N : Nat} (seeds : List Nat)
    (hInv : Inv cb h) (hk : ∃ k, N = 2 ^ k)
    (hcnt : h.count ≤ max_load_count
      ((if N < MIN_SIZE then MIN_SIZE else N) * GROUP_ENTRIES) + 1) :
    ∃ tmp2, h64_resize cb gas h N seeds = some (tmp2, seeds.tail) ∧
      tmp2.size_in_groups = (if N < MIN_SIZE then MIN_SIZE else N) ∧
      tmp2.count = h.count ∧
      Inv cb tmp2 ∧ FindInv cb tmp2 ∧ WFull tmp2 ∧
      ∀ x, stored tmp2 x ↔ stored h x := by
  obtain ⟨gas2, rfl⟩ := Nat.exists_eq_succ_of_ne_zero hgas
  obtain ⟨hInvI, _, hFII, hWFuI, hcntI, hseedI, hsizeI, hnostI⟩ :=
    h64_init_spec cb (seeds.headD 0) N (Or.inr hk)
  obtain ⟨tmp2, hrun, hsz, hsd, hcn, hI, hF, hW, hstored⟩ :=
    reinsert_no_grow gas2 (h64_elems h) (h64_init E (seeds.headD 0) N)
      seeds.tail hInvI hFII hWFuI
      (by rw [hcntI, elems_length hInv, hsizeI]; omega)
  have hg : is_power_of_2 N = true := by
    obtain ⟨k, hk2⟩ := hk
    rw [hk2]
    exact pow2_is_power_of_2 k
  refine ⟨tmp2, ?_, by rw [hsz, hsizeI], ?_, hI, hF, hW, ?_⟩
  · rw [h64_resize_succ, if_pos hg]
    exact hrun
  · rw [hcn, hcntI, elems_length hInv]
    omega
  · intro x
    rw [hstored x]
    constructor
    · rintro (hx | hx)
      · exact absurd hx (hnostI x)
      · exact (mem_elems_iff_stored hInv x).mp hx
    · intro hx
      exact Or.inr ((mem_elems_iff_stored hInv x).mpr hx)

theorem reinsert_spec {E : Type} {cb : Callbacks E} :
    ∀ (es : List E) (gas : Nat) (tmp : h64 E) (seeds : List Nat)
      (tmp2 : h64 E) (seeds2 : List Nat),
      Inv cb tmp → CountBound tmp → FindInv cb tmp → WFull tmp →
      h64_reinsert cb gas es tmp seeds = some (tmp2, seeds2) →
      Inv cb tmp2 ∧ CountBound tmp2 ∧ FindInv cb tmp2 ∧ WFull tmp2 ∧
        tmp2.count = tmp.count + es.length ∧
        ∀ x, stored tmp2 x ↔ (stored tmp x ∨ x ∈ es) := by
  intro es
  induction es with
  | nil =>
    intro gas tmp seeds tmp2 seeds2 hInv hCB hFI hWFu hres
    rw [h64_reinsert_nil] at hres
    simp only [Option.some_inj, Prod.mk.injEq] at hres
    rw [← hres.1]
    exact ⟨hInv, hCB, hFI, hWFu, by simp, fun x => by simp⟩
  | cons e rest ih =>
    intro gas tmp seeds tmp2 seeds2 hInv hCB hFI hWFu hres
    rw [h64_reinsert_cons] at hres
    rcases hgrow : h64_should_grow_up tmp with _ | _
    · -- no grow
      rw [if_neg (by rw [hgrow]; simp)] at hres
      rcases hcore : h64_insert_new_core cb tmp e with _ | h2
      · rw [hcore] at hres
        exact absurd hres (by simp)
      rw [hcore] at hres
      obtain ⟨hInv2, hc2, hs2, hsd2, hstre, hmono, hstm, hstr, hFI2, hWFu2⟩ :=
        insert_new_core_spec hInv hcore
      have hCB2 : CountBound h2 := by
        rw [CountBound, hc2, hs2]
        have := (should_grow_up_iff tmp)
        rcases hv : h64_should_grow_up tmp with _ | _
        · rw [hv] at this
          simp only [Bool.false_eq_true, false_iff, Nat.not_lt] at this
          omega
        · rw [hgrow] at hv
          exact absurd hv (by simp)
      obtain ⟨hI, hC, hF, hW, hcn, hstored⟩ :=
        ih gas h2 seeds tmp2 seeds2 hInv2 hCB2 (hFI2 hFI) (hWFu2 hWFu) hres
      refine ⟨hI, hC, hF, hW, ?_, ?_⟩
      · rw [hcn, hc2]
        simp only [List.length_cons]
        omega
      · intro x
        rw [hstored x]
        constructor
        · rintro (hx | hx)
          · rcases hstr x hx with hx2 | hx2
            · exact Or.inl hx2
            · exact Or.inr (by rw [hx2]; exact List.mem_cons_self _ _)
          · exact Or.inr (List.mem_cons_of_mem _ hx)
        · rintro (hx | hx)
          · exact Or.inl (hstm x hx)
          · rcases List.mem_cons.mp hx with hx2 | hx2
            · exact Or.inl (by rw [hx2]; exact hstre)
            · exact Or.inr hx2
    · -- grow first
      rw [if_pos (by rw [hgrow])] at hres
      rcases hrz : h64_resize cb gas tmp (tmp.size_in_groups * 2) seeds with
        _ | ⟨tmpG, seedsG⟩
      · rw [hrz] at hres
        exact absurd hres (by simp)
      simp only [hrz] at hres
      have hgas : gas ≠ 0 := by
        intro h0
        rw [h0, h64_resize_zero] at hrz
        exact absurd hrz (by simp)
      obtain ⟨k, hk⟩ := hInv.2.1
      have hk2 : ∃ k2, tmp.size_in_groups * 2 = 2 ^ k2 :=
        ⟨k + 1, by rw [hk]; ring⟩
      have hminsz : MIN_SIZE ≤ tmp.size_in_groups := hInv.2.2.1
      have hclamp : (if tmp.size_in_groups * 2 < MIN_SIZE then MIN_SIZE
          else tmp.size_in_groups * 2) = tmp.size_in_groups * 2 := by
        rw [if_neg (by rw [MIN_SIZE] at *; omega)]
      have hgrown := (should_grow_up_iff tmp).mp hgrow
      have hcnteq : tmp.count =
          max_load_count (tmp.size_in_groups * GROUP_ENTRIES) + 1 := by
        rw [CountBound] at hCB
        omega
      have hdouble : 2 * max_load_count (tmp.size_in_groups * GROUP_ENTRIES) ≤
          max_load_count (tmp.size_in_groups * 2 * GROUP_ENTRIES) := by
        have := max_load_double (n := tmp.size_in_groups * GROUP_ENTRIES)
        have harith : 2 * (tmp.size_in_groups * GROUP_ENTRIES) =
            tmp.size_in_groups * 2 * GROUP_ENTRIES := by ring
        rwa [harith] at this
      have hmax1 : 1 ≤ max_load_count (tmp.size_in_groups * GROUP_ENTRIES) := by
        rw [max_load_count]
        have h28 : 28 ≤ tmp.size_in_groups * GROUP_ENTRIES := by
          rw [GROUP_ENTRIES]
          rw [MIN_SIZE] at hminsz
          omega
        omega
      obtain ⟨tmpG2, hrz2, hszG, hcnG, hIG, hFG, hWG, hstG⟩ :=
        resize_no_grow hgas seeds hInv hk2 (by rw [hclamp]; omega)
      rw [hrz] at hrz2
      simp only [Option.some_inj, Prod.mk.injEq] at hrz2
      obtain ⟨heqG, heqS⟩ := hrz2
      rw [← heqG] at hszG hcnG hIG hFG hWG hstG
      rcases hcore : h64_insert_new_core cb tmpG e with _ | h2
      · rw [hcore] at hres
        exact absurd hres (by simp)
      rw [hcore] at hres
      obtain ⟨hInv2, hc2, hs2, hsd2, hstre, hmono, hstm, hstr, hFI2, hWFu2⟩ :=
        insert_new_core_spec hIG hcore
      have hCB2 : CountBound h2 := by
        rw [CountBound, hc2, hs2, hszG, hclamp, hcnG, hcnteq]
        omega
      obtain ⟨hI, hC, hF, hW, hcn, hstored⟩ :=
        ih gas h2 seedsG tmp2 seeds2 hInv2 hCB2 (hFI2 hFG) (hWFu2 hWG) hres
      refine ⟨hI, hC, hF, hW, ?_, ?_⟩
      · rw [hcn, hc2, hcnG]
        simp only [List.length_cons]
        omega
      · intro x
        rw [hstored x]
        constructor
        · rintro (hx | hx)
          · rcases hstr x hx with hx2 | hx2
            · exact Or.inl ((hstG x).mp hx2)
            · exact Or.inr (by rw [hx2]; exact List.mem_cons_self _ _)
          · exact Or.inr (List.mem_cons_of_mem _ hx)
        · rintro (hx | hx)
          · exact Or.inl (hstm x ((hstG x).mpr hx))
          · rcases List.mem_cons.mp hx with hx2 | hx2
            · exact Or.inl (by rw [hx2]; exact hstre)
            · exact Or.inr hx2

theorem resize_spec {E : Type} {cb : Callbacks E} {gas : Nat} {h : h64 E}
    {size : Nat} {seeds : List Nat} {tmp2 : h64 E} {seeds2 : List Nat}
    (hInv : Inv cb h) (hk : ∃ k, size = 2 ^ k)
    (hres : h64_resize cb gas h size seeds = some (tmp2, seeds2)) :
    Inv cb tmp2 ∧ CountBound tmp2 ∧ FindInv cb tmp2 ∧ WFull tmp2 ∧
      tmp2.count = h.count ∧ ∀ x, stored tmp2 x ↔ stored h x := by
  have hgas : gas ≠ 0 := by
    intro h0
    rw [h0, h64_resize_zero] at hres
    exact absurd hres (by simp)
  obtain ⟨gas2, rfl⟩ := Nat.exists_eq_succ_of_ne_zero hgas
  rw [h64_resize_succ] at hres
  have hg : is_power_of_2 size = true := by
    obtain ⟨k, hk2⟩ := hk
    rw [hk2]
    exact pow2_is_power_of_2 k
  rw [if_pos hg] at hres
  obtain ⟨hInvI, hCBI, hFII, hWFuI, hcntI, hseedI, hsizeI, hnostI⟩ :=
    h64_init_spec cb (seeds.headD 0) size (Or.inr hk)
  obtain ⟨hI, hC, hF, hW, hcn, hstored⟩ :=
    reinsert_spec (h64_elems h) gas2 (h64_init E (seeds.headD 0) size)
      seeds.tail tmp2 seeds2 hInvI hCBI hFII hWFuI hres
  refine ⟨hI, hC, hF, hW, ?_, ?_⟩
  · rw [hcn, hcntI, elems_length hInv]
    omega
  · intro x
    rw [hstored x]
    constructor
    · rintro (hx | hx)
      · exact absurd hx (hnostI x)
      · exact (mem_elems_iff_stored hInv x).mp hx
    · intro hx
      exact Or.inr ((mem_elems_iff_stored hInv x).mpr hx)

/-! ### Public operation specifications -/

/-- The callback contract of the spec (section 6): equal elements hash
identically under every seed. -/
def Compat {E : Type} (cb : Callbacks E) : Prop :=
  ∀ a b s, cb.equals a b = true → cb.hasher a s = cb.hasher b s

/-- Some group of the table has a clear was-full bit; by probe coverage this
makes every probe loop terminate. -/
def TermOK {E : Type} (h : h64 E) : Prop :=
  ∃ t, t < h.size_in_groups ∧ group_was_full (group_at h t) = 0

theorem h64_insert_new_spec {E : Type} {cb : Callbacks E} {gas : Nat}
    {seeds : List Nat} {h h2 : h64 E} {e : E} (hInv : Inv cb h)
    (hCB : CountBound h)
    (hres : h64_insert_new cb gas seeds h e = some h2) :
    Inv cb h2 ∧ CountBound h2 ∧ h2.count = h.count + 1 ∧
    stored h2 e ∧
    (∀ x, stored h x → stored h2 x) ∧
    (∀ x, stored h2 x → stored h x ∨ x = e) ∧
    (FindInv cb h → FindInv cb h2) ∧
    (WFull h → WFull h2) := by
  rw [h64_insert_new] at hres
  rcases hgrow : h64_should_grow_up h with _ | _
  · rw [if_neg (by rw [hgrow]; simp)] at hres
    obtain ⟨hI, hc, hs, hsd, hstre, hmono, hstm, hstr, hFI, hWFu⟩ :=
      insert_new_core_spec hInv hres
    have hng := (should_grow_up_iff h)
    rw [hgrow] at hng
    simp only [Bool.false_eq_true, false_iff, Nat.not_lt] at hng
    exact ⟨hI, by rw [CountBound, hc, hs]; omega, hc, hstre, hstm, hstr, hFI,
      hWFu⟩
  · rw [if_pos (by rw [hgrow])] at hres
    rcases hrz : h64_grow_up cb gas h seeds with _ | ⟨hG, seedsG⟩
    · rw [hrz] at hres
      exact absurd hres (by simp)
    simp only [hrz] at hres
    have hgas : gas ≠ 0 := by
      intro h0
      rw [h0, h64_grow_up, h64_resize_zero] at hrz
      exact absurd hrz (by simp)
    obtain ⟨k, hk⟩ := hInv.2.1
    have hminsz : MIN_SIZE ≤ h.size_in_groups := hInv.2.2.1
    have hclamp : (if h.size_in_groups * 2 < MIN_SIZE then MIN_SIZE
        else h.size_in_groups * 2) = h.size_in_groups * 2 := by
      rw [if_neg (by rw [MIN_SIZE] at *; omega)]
    have hgrown := (should_grow_up_iff h).mp hgrow
    have hdouble : 2 * max_load_count (h.size_in_groups * GROUP_ENTRIES) ≤
        max_load_count (h.size_in_groups * 2 * GROUP_ENTRIES) := by
      have hd := max_load_double (n := h.size_in_groups * GROUP_ENTRIES)
      have harith : 2 * (h.size_in_groups * GROUP_ENTRIES) =
          h.size_in_groups * 2 * GROUP_ENTRIES := by ring
      rwa [harith] at hd
    have hmax1 : 1 ≤ max_load_count (h.size_in_groups * GROUP_ENTRIES) := by
      rw [max_load_count]
      have h28 : 28 ≤ h.size_in_groups * GROUP_ENTRIES := by
        rw [GROUP_ENTRIES]
        rw [MIN_SIZE] at hminsz
        omega
      omega
    obtain ⟨hG2, hrz2, hszG, hcnG, hIG, hFG, hWG, hstG⟩ :=
      resize_no_grow (N := h.size_in_groups * 2) hgas seeds hInv
        ⟨k + 1, by rw [hk]; ring⟩
        (by rw [hclamp]; rw [CountBound] at hCB; omega)
    rw [h64_grow_up] at hrz
    rw [hrz] at hrz2
    simp only [Option.some_inj, Prod.mk.injEq] at hrz2
    obtain ⟨heqG, _⟩ := hrz2
    rw [← heqG] at hszG hcnG hIG hFG hWG hstG
    obtain ⟨hI, hc, hs, hsd, hstre, hmono, hstm, hstr, hFI, hWFu⟩ :=
      insert_new_core_spec hIG hres
    have hCB2 : CountBound h2 := by
      rw [CountBound, hc, hs, hszG, hclamp, hcnG]
      rw [CountBound] at hCB
      omega
    refine ⟨hI, hCB2, by rw [hc, hcnG], hstre, ?_, ?_, fun _ => hFI hFG,
      fun _ => hWFu hWG⟩
    · intro x hx
      exact hstm x ((hstG x).mpr hx)
    · intro x hx
      rcases hstr x hx with hx2 | hx2
      · exact Or.inl ((hstG x).mp hx2)
      · exact Or.inr hx2

theorem entry_equals_none {E : Type} (cb : Callbacks E) (p : E) :
    entry_equals cb p (none : Option E) = false := rfl

theorem entry_equals_some {E : Type} (cb : Callbacks E) (p x : E) :
    entry_equals cb p (some x) = cb.equals p x := rfl

theorem update_path_spec {E : Type} {cb : Callbacks E} {h1 h2 : h64 E} {e : E}
    {pos idx : Nat} (hInv : Inv cb h1)
    (hfind : h64_find_entry cb h1 e (h64_hash cb h1 e) = some (some (pos, idx)))
    (hh2 : h2 = { h1 with
      groups := h1.groups.set pos (group_update (group_at h1 pos) e idx) }) :
    Inv cb h2 ∧ stored h2 e ∧ h2.count = h1.count ∧
    h2.size_in_groups = h1.size_in_groups ∧ h2.seed = h1.seed ∧
    (∀ pos2, group_was_full (group_at h2 pos2) =
      group_was_full (group_at h1 pos2)) ∧
    (Compat cb → FindInv cb h1 → FindInv cb h2) ∧
    (WFull h1 → WFull h2) := by
  obtain ⟨hlen, ⟨k, hk⟩, hmin, hWF, hcount⟩ := hInv
  obtain ⟨j, hj, hposj, hposlt, hscan, hpref⟩ := find_entry_found_spec hk hfind
  have hposlen : pos < h1.groups.length := by omega
  obtain ⟨hidx7, hbit, heqv⟩ := group_scan_eq_some hscan
  have hgmatch := (group_match_testBit (group_at h1 pos)
    (hash_hint (h64_hash cb h1 e)) idx).mp hbit
  obtain ⟨y, hy, heqy⟩ : ∃ y, (group_at h1 pos).entries.getD idx none = some y ∧
      cb.equals e y = true := by
    rcases hent : (group_at h1 pos).entries.getD idx none with _ | y
    · rw [hent, entry_equals_none] at heqv
      exact absurd heqv (by simp)
    · rw [hent, entry_equals_some] at heqv
      exact ⟨y, rfl, heqv⟩
  have hgWF : GroupWF cb h1.seed (group_at h1 pos) :=
    hWF _ (getD_mem _ _ default hposlen)
  have helen : (group_at h1 pos).entries.length = 7 := hgWF.2.2.1
  have hgroups2 : h2.groups =
      h1.groups.set pos (group_update (group_at h1 pos) e idx) := by
    rw [hh2]
  have hsz2 : h2.size_in_groups = h1.size_in_groups := by rw [hh2]
  have hsd2 : h2.seed = h1.seed := by rw [hh2]
  have hcn2 : h2.count = h1.count := by rw [hh2]
  have hentset : (group_update (group_at h1 pos) e idx).entries =
      (group_at h1 pos).entries.set idx (some e) := rfl
  have hstatus : (group_update (group_at h1 pos) e idx).status =
      (group_at h1 pos).status := rfl
  have hhintset : (group_update (group_at h1 pos) e idx).hints =
      (group_at h1 pos).hints := rfl
  have hat2 : ∀ pos2, pos2 ≠ pos → group_at h2 pos2 = group_at h1 pos2 := by
    intro pos2 hne
    rw [group_at, group_at, hgroups2,
      getD_set_ne _ _ _ _ _ (fun he => hne he.symm)]
  have hat2pos : group_at h2 pos = group_update (group_at h1 pos) e idx := by
    rw [group_at, hgroups2, getD_set_self _ _ _ _ (by omega)]
  have hentidx : (group_update (group_at h1 pos) e idx).entries.getD idx none =
      some e := by
    rw [hentset, getD_set_self _ _ _ _ (by omega)]
  have hentne : ∀ i2, i2 ≠ idx →
      (group_update (group_at h1 pos) e idx).entries.getD i2 none =
        (group_at h1 pos).entries.getD i2 none := by
    intro i2 hne
    rw [hentset, getD_set_ne _ _ _ _ _ (fun he => hne he.symm)]
  have hg2WF : GroupWF cb h1.seed (group_update (group_at h1 pos) e idx) := by
    refine ⟨?_, ?_, ?_, ?_, ?_, ?_⟩
    · rw [hstatus]
      exact hgWF.1
    · rw [hhintset]
      exact hgWF.2.1
    · rw [hentset, List.length_set]
      exact helen
    · intro i hi
      rw [hstatus]
      rcases Decidable.eq_or_ne i idx with he | hne
      · rw [he, hentidx]
        constructor
        · intro _
          rfl
        · intro _
          exact hgmatch.2.2
      · rw [hentne i hne]
        exact hgWF.2.2.2.1 i hi
    · rw [hstatus]
      exact hgWF.2.2.2.2.1
    · intro i x hi hx
      rw [hhintset]
      rcases Decidable.eq_or_ne i idx with he | hne
      · rw [he] at hx ⊢
        rw [hentidx] at hx
        injection hx with hx2
        rw [← hx2]
        exact hgmatch.2.1
      · rw [hentne i hne] at hx
        exact hgWF.2.2.2.2.2 i x hi hx
  have hwfeq : ∀ pos2,
      group_was_full (group_at h2 pos2) =
        group_was_full (group_at h1 pos2) := by
    intro pos2
    rcases Decidable.eq_or_ne pos2 pos with he | hne
    · rw [he, hat2pos, group_was_full, group_was_full, hstatus]
    · rw [hat2 pos2 hne]
  have hInv2 : Inv cb h2 := by
    refine ⟨?_, ⟨k, by omega⟩, by omega, ?_, ?_⟩
    · rw [hgroups2, List.length_set]
      omega
    · intro g2 hg2
      rw [hgroups2] at hg2
      rw [hsd2]
      rcases mem_set hg2 with he | hmem
      · rw [he]
        exact hg2WF
      · exact hWF g2 hmem
    · have hsum := sum_set_add (l := h1.groups.map occupied_count)
        (i := pos) (a := occupied_count (group_update (group_at h1 pos) e idx))
        (by simpa using hposlen)
      rw [getD_map hposlen default 0] at hsum
      have hocc : occupied_count (group_update (group_at h1 pos) e idx) =
          occupied_count (h1.groups.getD pos default) := rfl
      have hmaps : (h1.groups.set pos
          (group_update (group_at h1 pos) e idx)).map occupied_count =
          (h1.groups.map occupied_count).set pos
            (occupied_count (group_update (group_at h1 pos) e idx)) :=
        List.map_set ..
      rw [hcn2, hgroups2, hmaps]
      omega
  refine ⟨hInv2, ?_, hcn2, hsz2, hsd2, hwfeq, ?_, ?_⟩
  · refine ⟨pos, idx, by omega, hidx7, ?_⟩
    rw [hat2pos, hentidx]
  · intro hcompat hFI
    intro pos2 i2 x hp2 hi2 hx
    rw [hsz2] at hp2 ⊢
    have hhash2 : ∀ z : E, h64_hash cb h2 z = h64_hash cb h1 z := by
      intro z
      rw [h64_hash, h64_hash, hsd2]
    rw [hhash2]
    rcases Decidable.eq_or_ne pos2 pos with he | hne
    · rw [he] at hx ⊢
      rw [hat2pos] at hx
      rcases Decidable.eq_or_ne i2 idx with he2 | hne2
      · rw [he2, hentidx] at hx
        have hxe : x = e := by
          injection hx with hx2
          exact hx2.symm
        rw [hxe]
        have hhasheq : h64_hash cb h1 e = h64_hash cb h1 y := by
          rw [h64_hash, h64_hash, hcompat e y h1.seed heqy]
        obtain ⟨jy, hjy, hjpos, hjpref⟩ := hFI pos idx y hposlt hidx7 hy
        rw [← hhasheq] at hjpos hjpref
        refine ⟨jy, hjy, hjpos, ?_⟩
        intro j2 hj2
        rw [hwfeq]
        exact hjpref j2 hj2
      · rw [hentne i2 hne2] at hx
        obtain ⟨jx, hjx, hjpos, hjpref⟩ := hFI pos i2 x hposlt hi2 hx
        refine ⟨jx, hjx, hjpos, ?_⟩
        intro j2 hj2
        rw [hwfeq]
        exact hjpref j2 hj2
    · rw [hat2 pos2 hne] at hx
      obtain ⟨jx, hjx, hjpos, hjpref⟩ := hFI pos2 i2 x (by omega) hi2 hx
      refine ⟨jx, hjx, hjpos, ?_⟩
      intro j2 hj2
      rw [hwfeq]
      exact hjpref j2 hj2
  · intro hWFu g2 hg2 hwf
    rw [hgroups2] at hg2
    rcases mem_set hg2 with he | hmem
    · rw [he] at hwf ⊢
      have hwfg : group_was_full (group_at h1 pos) ≠ 0 := by
        rw [group_was_full] at hwf ⊢
        rw [hstatus] at hwf
        exact hwf
      have hfull := hWFu _ (getD_mem _ _ default hposlen) hwfg
      rw [group_is_full] at hfull ⊢
      rw [hstatus]
      exact hfull
    · exact hWFu g2 hmem hwf

theorem h64_insert_spec {E : Type} {cb : Callbacks E} {gas : Nat}
    {seeds : List Nat} {h h2 : h64 E} {e : E} (hInv : Inv cb h)
    (hCB : CountBound h)
    (hres : h64_insert cb gas seeds h e = some h2) :
    Inv cb h2 ∧ CountBound h2 ∧ stored h2 e ∧
    (h2.count = h.count ∨ h2.count = h.count + 1) ∧
    (Compat cb → FindInv cb h → FindInv cb h2) ∧
    (WFull h → WFull h2) := by
  rw [h64_insert] at hres
  have hmain : ∀ h1 : h64 E, Inv cb h1 → CountBound h1 →
      (h64_should_grow_up h1 = false ∨
        h1.count ≤ max_load_count (h1.size_in_groups * GROUP_ENTRIES)) →
      (match h64_find_entry cb h1 e (h64_hash cb h1 e) with
        | none => none
        | some (some (pos, idx)) =>
          some { h1 with
                  groups := h1.groups.set pos
                    (group_update (h1.groups.getD pos default) e idx) }
        | some none =>
          match h64_find_empty_entry h1 (h64_hash cb h1 e) with
          | none => none
          | some (pos, idx) =>
            some { h1 with
                    groups := h1.groups.set pos
                      (group_insert (h1.groups.getD pos default) e
                        (hash_hint (h64_hash cb h1 e)) idx)
                    count := h1.count + 1 }) = some h2 →
      Inv cb h2 ∧ CountBound h2 ∧ stored h2 e ∧
      (h2.count = h1.count ∨ h2.count = h1.count + 1) ∧
      (Compat cb → FindInv cb h1 → FindInv cb h2) ∧
      (WFull h1 → WFull h2) := by
    intro h1 hInv1 hCB1 hgok hres1
    rcases hfind : h64_find_entry cb h1 e (h64_hash cb h1 e) with _ | r
    · rw [hfind] at hres1
      exact absurd hres1 (by simp)
    rcases r with _ | ⟨pos, idx⟩
    · -- not found: install
      rw [hfind] at hres1
      rcases hfe : h64_find_empty_entry h1 (h64_hash cb h1 e) with _ | ⟨pos, idx⟩
      · rw [hfe] at hres1
        exact absurd hres1 (by simp)
      rw [hfe] at hres1
      have hcore : h64_insert_new_core cb h1 e = some h2 := by
        simp only [h64_insert_new_core, hfe]
        exact hres1
      obtain ⟨hI, hc, hs, hsd, hstre, hmono, hstm, hstr, hFI, hWFu⟩ :=
        insert_new_core_spec hInv1 hcore
      have hng : h1.count ≤ max_load_count (h1.size_in_groups * GROUP_ENTRIES) := by
        rcases hgok with hgok | hgok
        · have := (should_grow_up_iff h1)
          rw [hgok] at this
          simp only [Bool.false_eq_true, false_iff, Nat.not_lt] at this
          omega
        · exact hgok
      exact ⟨hI, by rw [CountBound, hc, hs]; omega, hstre, Or.inr hc,
        fun hc2 hf => hFI hf, hWFu⟩
    · -- found: update in place
      rw [hfind] at hres1
      simp only [Option.some_inj] at hres1
      obtain ⟨hI, hstre, hcn, hsz, hsd, hwfeq, hFI, hWFu⟩ :=
        update_path_spec hInv1 hfind hres1.symm
      refine ⟨hI, ?_, hstre, Or.inl hcn, hFI, hWFu⟩
      rw [CountBound, hcn, hsz]
      exact hCB1
  rcases hgrow : h64_should_grow_up h with _ | _
  · rw [if_neg (by rw [hgrow]; simp)] at hres
    obtain ⟨hI, hC, hstre, hcn, hFI, hWFu⟩ :=
      hmain h hInv hCB (Or.inl hgrow) hres
    exact ⟨hI, hC, hstre, hcn, hFI, hWFu⟩
  · rw [if_pos (by rw [hgrow])] at hres
    rcases hrz : h64_grow_up cb gas h seeds with _ | ⟨hG, seedsG⟩
    · rw [hrz] at hres
      exact absurd hres (by simp)
    simp only [hrz] at hres
    have hgas : gas ≠ 0 := by
      intro h0
      rw [h0, h64_grow_up, h64_resize_zero] at hrz
      exact absurd hrz (by simp)
    obtain ⟨k, hk⟩ := hInv.2.1
    have hminsz : MIN_SIZE ≤ h.size_in_groups := hInv.2.2.1
    have hclamp : (if h.size_in_groups * 2 < MIN_SIZE then MIN_SIZE
        else h.size_in_groups * 2) = h.size_in_groups * 2 := by
      rw [if_neg (by rw [MIN_SIZE] at *; omega)]
    have hgrown := (should_grow_up_iff h).mp hgrow
    have hdouble : 2 * max_load_count (h.size_in_groups * GROUP_ENTRIES) ≤
        max_load_count (h.size_in_groups * 2 * GROUP_ENTRIES) := by
      have hd := max_load_double (n := h.size_in_groups * GROUP_ENTRIES)
      have harith : 2 * (h.size_in_groups * GROUP_ENTRIES) =
          h.size_in_groups * 2 * GROUP_ENTRIES := by ring
      rwa [harith] at hd
    have hmax1 : 1 ≤ max_load_count (h.size_in_groups * GROUP_ENTRIES) := by
      rw [max_load_count]
      have h28 : 28 ≤ h.size_in_groups * GROUP_ENTRIES := by
        rw [GROUP_ENTRIES]
        rw [MIN_SIZE] at hminsz
        omega
      omega
    obtain ⟨hG2, hrz2, hszG, hcnG, hIG, hFG, hWG, hstG⟩ :=
      resize_no_grow (N := h.size_in_groups * 2) hgas seeds hInv
        ⟨k + 1, by rw [hk]; ring⟩
        (by rw [hclamp]; rw [CountBound] at hCB; omega)
    rw [h64_grow_up] at hrz
    rw [hrz] at hrz2
    simp only [Option.some_inj, Prod.mk.injEq] at hrz2
    obtain ⟨heqG, _⟩ := hrz2
    rw [← heqG] at hszG hcnG hIG hFG hWG hstG
    have hCBG : CountBound hG := by
      rw [CountBound, hszG, hclamp, hcnG]
      rw [CountBound] at hCB
      omega
    have hGok : hG.count ≤ max_load_count (hG.size_in_groups * GROUP_ENTRIES) := by
      rw [hszG, hclamp, hcnG]
      rw [CountBound] at hCB
      omega
    obtain ⟨hI, hC, hstre, hcn, hFI, hWFu⟩ :=
      hmain hG hIG hCBG (Or.inr hGok) hres
    refine ⟨hI, hC, hstre, ?_, fun hc2 hf => hFI hc2 hFG, fun hw => hWFu hWG⟩
    rw [hcnG] at hcn
    exact hcn

theorem should_grow_down_iff {E : Type} (h : h64 E) :
    h64_should_grow_down h = true ↔
      (h.count < min_load_count (h.size_in_groups * GROUP_ENTRIES) ∧
        MIN_SIZE < h.size_in_groups) := by
  rw [h64_should_grow_down]
  simp

theorem min_load_le_max_half {N : Nat} (heven : N % 2 = 0) :
    min_load_count (N * GROUP_ENTRIES) ≤
      max_load_count (N / 2 * GROUP_ENTRIES) := by
  rw [min_load_count, max_load_count, GROUP_ENTRIES]
  have h1 : N / 2 * 7 = N * 7 / 2 := by omega
  rw [h1]
  have h2 : 67 * (N * 7 / 2) = 67 * (N * 7) / 2 := by omega
  rw [h2]
  have h3 : 67 * (N * 7) / 2 / 100 = 67 * (N * 7) / 200 := by
    rw [Nat.div_div_eq_div_mul]
  rw [h3]
  exact Nat.div_le_div_left (by omega) (by omega)

set_option maxRecDepth 8000 in
theorem shiftRight7_eq {s : Nat} (hs : s < 256) :
    s >>> 7 = if s.testBit 7 = true then 1 else 0 := by
  revert hs
  revert s
  decide

theorem was_full_eq_of_bit7 {E : Type} {g g2 : Group E} (hs : g.status < 256)
    (hs2 : g2.status < 256) (hb : g2.status.testBit 7 = g.status.testBit 7) :
    group_was_full g2 = group_was_full g := by
  rw [group_was_full, group_was_full, shiftRight7_eq hs, shiftRight7_eq hs2,
    hb]

set_option maxHeartbeats 1000000 in
theorem h64_erase_spec {E : Type} {cb : Callbacks E} {gas : Nat}
    {seeds : List Nat} {h h2 : h64 E} {p : E} {r : Option E}
    (hInv : Inv cb h) (hCB : CountBound h)
    (hres : h64_erase cb gas seeds h p = some (r, h2)) :
    (r = none → h2 = h) ∧
    ∀ y, r = some y →
      stored h y ∧ cb.equals p y = true ∧ 1 ≤ h.count ∧
      Inv cb h2 ∧ CountBound h2 ∧ (FindInv cb h → FindInv cb h2) ∧
      h2.count = h.count - 1 ∧
      (∀ x, stored h2 x → stored h x) ∧
      (TermOK h → TermOK h2) ∧
      h2.size_in_groups =
        (if h.count - 1 < min_load_count (h.size_in_groups * GROUP_ENTRIES) ∧
            MIN_SIZE < h.size_in_groups
         then h.size_in_groups / 2 else h.size_in_groups) ∧
      (h2.size_in_groups = h.size_in_groups →
        ∀ pos2, group_was_full (group_at h2 pos2) =
          group_was_full (group_at h pos2)) := by
  rw [h64_erase] at hres
  rcases hfind : h64_find_entry cb h p (h64_hash cb h p) with _ | rr
  · rw [hfind] at hres
    exact absurd hres (by simp)
  rcases rr with _ | ⟨pos, idx⟩
  · rw [hfind] at hres
    simp only [Option.some_inj, Prod.mk.injEq] at hres
    refine ⟨fun _ => hres.2.symm, ?_⟩
    intro y hy
    rw [← hres.1] at hy
    exact absurd hy (by simp)
  · simp only [hfind] at hres
    obtain ⟨hlen, ⟨k, hk⟩, hmin, hWF, hcount⟩ := hInv
    obtain ⟨j, hj, hposj, hposlt, hscan, hpref⟩ :=
      find_entry_found_spec hk hfind
    have hposlen : pos < h.groups.length := by omega
    obtain ⟨hidx7, hbit, heqv⟩ := group_scan_eq_some hscan
    have hgmatch := (group_match_testBit (group_at h pos)
      (hash_hint (h64_hash cb h p)) idx).mp hbit
    obtain ⟨y, hy, heqy⟩ : ∃ y,
        (group_at h pos).entries.getD idx none = some y ∧
        cb.equals p y = true := by
      rcases hent : (group_at h pos).entries.getD idx none with _ | y
      · rw [hent, entry_equals_none] at heqv
        exact absurd heqv (by simp)
      · rw [hent, entry_equals_some] at heqv
        exact ⟨y, rfl, heqv⟩
    have hgWF : GroupWF cb h.seed (group_at h pos) :=
      hWF _ (getD_mem _ _ default hposlen)
    have hstoredy : stored h y := ⟨pos, idx, hposlt, hidx7, hy⟩
    set g2 := (group_erase_entry (h.groups.getD pos default) idx).2 with hg2
    set d : h64 E :=
      { h with groups := h.groups.set pos g2, count := h.count - 1 } with hd
    have hret1 : (group_erase_entry (h.groups.getD pos default) idx).1 =
        some y := hy
    have hcnt1 : 1 ≤ h.count := by
      have hsum := sum_set_add (l := h.groups.map occupied_count)
        (i := pos) (a := 0) (by simpa using hposlen)
      rw [getD_map hposlen default 0] at hsum
      have hocc1 : 1 ≤ occupied_count (h.groups.getD pos default) := by
        rw [occupied_count]
        have hmem : idx ∈ (List.range 7).filter
            (fun i => (h.groups.getD pos default).status.testBit i) :=
          List.mem_filter.mpr ⟨List.mem_range.mpr hidx7, hgmatch.2.2⟩
        rcases hfl : (List.range 7).filter
            (fun i => (h.groups.getD pos default).status.testBit i) with _ | _
        · rw [hfl] at hmem
          exact absurd hmem (by simp)
        · simp
      omega
    have hat2 : ∀ pos2, pos2 ≠ pos → group_at d pos2 = group_at h pos2 := by
      intro pos2 hne
      show (h.groups.set pos g2).getD pos2 default = _
      rw [getD_set_ne _ _ _ _ _ (fun he => hne he.symm)]
      rfl
    have hat2pos : group_at d pos = g2 := by
      show (h.groups.set pos g2).getD pos default = _
      rw [getD_set_self _ _ _ _ (by omega)]
    have hbiterase : ∀ j2, j2 < 8 → g2.status.testBit j2 =
        if j2 = idx then false
        else (h.groups.getD pos default).status.testBit j2 :=
      fun j2 hj2 => group_erase_testBit _ idx hidx7 hj2
    have hg2entries : g2.entries =
        (h.groups.getD pos default).entries.set idx none := rfl
    have hg2hints : g2.hints =
        (h.groups.getD pos default).hints.set idx 0 := rfl
    have helen7 : (h.groups.getD pos default).entries.length = 7 := hgWF.2.2.1
    have hhlen7 : (h.groups.getD pos default).hints.length = 7 := hgWF.2.1
    have hg2WF : GroupWF cb h.seed g2 := by
      refine ⟨group_erase_status_lt _ idx hgWF.1, ?_, ?_, ?_, ?_, ?_⟩
      · rw [hg2hints, List.length_set]
        exact hhlen7
      · rw [hg2entries, List.length_set]
        exact helen7
      · intro i hi
        rw [hbiterase i (by omega), hg2entries]
        rcases Decidable.eq_or_ne i idx with he | hne
        · rw [if_pos he, he, getD_set_self _ _ _ _ (by omega)]
          constructor
          · intro hcon
            exact absurd hcon (by simp)
          · intro hcon
            exact absurd hcon (by simp)
        · rw [if_neg hne, getD_set_ne _ _ _ _ _ (fun he2 => hne he2.symm)]
          exact hgWF.2.2.2.1 i hi
      · intro hfull
        have hbits := full_iff_bits.mp hfull
        have hcon := hbits idx hidx7
        rw [hbiterase idx (by omega), if_pos rfl] at hcon
        exact absurd hcon (by simp)
      · intro i x hi hx
        rw [hg2entries] at hx
        rw [hg2hints]
        rcases Decidable.eq_or_ne i idx with he | hne
        · rw [he, getD_set_self _ _ _ _ (by omega)] at hx
          exact absurd hx (by simp)
        · rw [getD_set_ne _ _ _ _ _ (fun he2 => hne he2.symm)] at hx
          rw [getD_set_ne _ _ _ _ _ (fun he2 => hne he2.symm)]
          exact hgWF.2.2.2.2.2 i x hi hx
    have hInvd : Inv cb d := by
      refine ⟨?_, ⟨k, hk⟩, hmin, ?_, ?_⟩
      · show (h.groups.set pos g2).length = h.size_in_groups
        rw [List.length_set]
        exact hlen
      · intro gg hgg
        rcases mem_set hgg with he | hmem
        · rw [he]
          exact hg2WF
        · exact hWF gg hmem
      · show h.count - 1 = _
        have hsum := sum_set_add (l := h.groups.map occupied_count)
          (i := pos) (a := occupied_count g2) (by simpa using hposlen)
        rw [getD_map hposlen default 0] at hsum
        have hocc : occupied_count (h.groups.getD pos default) =
            occupied_count g2 + 1 :=
          group_erase_occ _ idx hidx7 hgmatch.2.2
        have hmaps : (h.groups.set pos g2).map occupied_count =
            (h.groups.map occupied_count).set pos (occupied_count g2) :=
          List.map_set ..
        rw [hmaps]
        omega
    have hwfeq : ∀ pos2, group_was_full (group_at d pos2) =
        group_was_full (group_at h pos2) := by
      intro pos2
      rcases Decidable.eq_or_ne pos2 pos with he | hne
      · rw [he, hat2pos]
        apply was_full_eq_of_bit7 hgWF.1 hg2WF.1
        rw [hbiterase 7 (by omega), if_neg (by omega)]
        rfl
      · rw [hat2 pos2 hne]
    have hFId : FindInv cb h → FindInv cb d := by
      intro hFI
      intro pos2 i2 x hp2 hi2 hx
      have hszd : d.size_in_groups = h.size_in_groups := rfl
      have hsdd : d.seed = h.seed := rfl
      rw [hszd] at hp2 ⊢
      have hhashd : h64_hash cb d x = h64_hash cb h x := by
        rw [h64_hash, h64_hash, hsdd]
      rw [hhashd]
      rcases Decidable.eq_or_ne pos2 pos with he | hne
      · rw [he] at hx ⊢
        rw [hat2pos, hg2entries] at hx
        rcases Decidable.eq_or_ne i2 idx with he2 | hne2
        · rw [he2, getD_set_self _ _ _ _ (by omega)] at hx
          exact absurd hx (by simp)
        · rw [getD_set_ne _ _ _ _ _ (fun he2 => hne2 he2.symm)] at hx
          obtain ⟨jx, hjx, hjpos, hjpref⟩ := hFI pos i2 x hposlt hi2 hx
          refine ⟨jx, hjx, hjpos, ?_⟩
          intro j2 hj2
          rw [hwfeq]
          exact hjpref j2 hj2
      · rw [hat2 pos2 hne] at hx
        obtain ⟨jx, hjx, hjpos, hjpref⟩ := hFI pos2 i2 x (by omega) hi2 hx
        refine ⟨jx, hjx, hjpos, ?_⟩
        intro j2 hj2
        rw [hwfeq]
        exact hjpref j2 hj2
    have hstrd : ∀ x, stored d x → stored h x := by
      rintro x ⟨p2, i2, hp2, hi2, hx⟩
      have hszd : d.size_in_groups = h.size_in_groups := rfl
      rw [hszd] at hp2
      rcases Decidable.eq_or_ne p2 pos with he | hne
      · rw [he] at hx
        rw [hat2pos, hg2entries] at hx
        rcases Decidable.eq_or_ne i2 idx with he2 | hne2
        · rw [he2, getD_set_self _ _ _ _ (by omega)] at hx
          exact absurd hx (by simp)
        · rw [getD_set_ne _ _ _ _ _ (fun he2 => hne2 he2.symm)] at hx
          exact ⟨pos, i2, hposlt, hi2, hx⟩
      · rw [hat2 p2 hne] at hx
        exact ⟨p2, i2, hp2, hi2, hx⟩
    have htermd : TermOK h → TermOK d := by
      rintro ⟨t, ht, hwf⟩
      exact ⟨t, ht, by rw [hwfeq]; exact hwf⟩
    rcases hgd : h64_should_grow_down d with _ | _
    · -- no shrink
      rw [if_neg (by rw [hgd]; simp)] at hres
      simp only [Option.some_inj, Prod.mk.injEq] at hres
      obtain ⟨hr1, hh2⟩ := hres
      have hcondf : ¬(h.count - 1 <
          min_load_count (h.size_in_groups * GROUP_ENTRIES) ∧
          MIN_SIZE < h.size_in_groups) := by
        intro hcon
        have := (should_grow_down_iff d).mpr ⟨hcon.1, hcon.2⟩
        rw [hgd] at this
        exact absurd this (by simp)
      refine ⟨?_, ?_⟩
      · intro hrnone
        rw [hrnone] at hr1
        rw [hret1] at hr1
        exact absurd hr1 (by simp)
      · intro y2 hy2
        rw [hy2] at hr1
        rw [hret1] at hr1
        have hyy : y2 = y := by
          injection hr1 with h1
          exact h1.symm
        rw [hyy]
        rw [← hh2]
        refine ⟨hstoredy, heqy, hcnt1, hInvd, ?_, hFId, rfl, hstrd, htermd,
          ?_, ?_⟩
        · show d.count ≤ _
          rw [CountBound] at hCB
          have hdc : d.count = h.count - 1 := rfl
          have hds : d.size_in_groups = h.size_in_groups := rfl
          rw [hdc, hds]
          omega
        · show d.size_in_groups = _
          rw [if_neg hcondf]
        · intro _
          exact hwfeq
    · -- shrink
      rw [if_pos (by rw [hgd])] at hres
      rcases hgdr : h64_grow_down cb gas d seeds with _ | ⟨d2, seedsD⟩
      · rw [hgdr] at hres
        exact absurd hres (by simp)
      simp only [hgdr, Option.some_inj, Prod.mk.injEq] at hres
      obtain ⟨hr1, hh2⟩ := hres
      have hcond := (should_grow_down_iff d).mp hgd
      have hdc : d.count = h.count - 1 := rfl
      have hds : d.size_in_groups = h.size_in_groups := rfl
      rw [hdc, hds] at hcond
      have hgas : gas ≠ 0 := by
        intro h0
        rw [h0, h64_grow_down, h64_resize_zero] at hgdr
        exact absurd hgdr (by simp)
      have hk3 : 3 ≤ k := by
        by_contra hcon
        have hle : h.size_in_groups ≤ 4 := by
          rw [hk]
          calc 2 ^ k ≤ 2 ^ 2 := Nat.pow_le_pow_right (by omega) (by omega)
          _ = 4 := by norm_num
        rw [MIN_SIZE] at hcond
        omega
      have hhalf : h.size_in_groups / 2 = 2 ^ (k - 1) := by
        rw [hk]
        have : (2 : Nat) ^ k = 2 * 2 ^ (k - 1) := by
          rw [← pow_succ']
          congr 1
          omega
        omega
      have heven : h.size_in_groups % 2 = 0 := by
        rw [hk]
        have : (2 : Nat) ^ k = 2 * 2 ^ (k - 1) := by
          rw [← pow_succ']
          congr 1
          omega
        omega
      have h8 : 8 ≤ h.size_in_groups := by
        rw [hk]
        calc (8 : Nat) = 2 ^ 3 := by norm_num
        _ ≤ 2 ^ k := Nat.pow_le_pow_right (by omega) hk3
      have hclamp : (if h.size_in_groups / 2 < MIN_SIZE then MIN_SIZE
          else h.size_in_groups / 2) = h.size_in_groups / 2 := by
        rw [if_neg]
        rw [MIN_SIZE]
        omega
      have hcntpre : d.count ≤
          max_load_count (h.size_in_groups / 2 * GROUP_ENTRIES) + 1 := by
        have hle := min_load_le_max_half (N := h.size_in_groups) heven
        rw [hdc]
        omega
      obtain ⟨d2x, hrz2, hszG, hcnG, hIG, hFG, hWG, hstG⟩ :=
        resize_no_grow (N := h.size_in_groups / 2) hgas seeds hInvd
          ⟨k - 1, hhalf⟩ (by rw [hclamp]; exact hcntpre)
      rw [h64_grow_down, hds] at hgdr
      rw [hgdr] at hrz2
      simp only [Option.some_inj, Prod.mk.injEq] at hrz2
      obtain ⟨heqG, _⟩ := hrz2
      rw [← heqG] at hszG hcnG hIG hFG hWG hstG
      refine ⟨?_, ?_⟩
      · intro hrnone
        rw [hrnone] at hr1
        rw [hret1] at hr1
        exact absurd hr1 (by simp)
      · intro y2 hy2
        rw [hy2] at hr1
        rw [hret1] at hr1
        have hyy : y2 = y := by
          injection hr1 with h1
          exact h1.symm
        rw [hyy]
        rw [← hh2]
        have hd2cn : d2.count = h.count - 1 := by
          rw [hcnG, hdc]
        have hd2sz : d2.size_in_groups = h.size_in_groups / 2 := by
          rw [hszG, hclamp]
        have hterm2 : TermOK d2 := by
          have hcnt2 : d2.count < d2.size_in_groups * GROUP_ENTRIES := by
            rw [hd2cn, hd2sz, GROUP_ENTRIES]
            rw [min_load_count, GROUP_ENTRIES] at hcond
            have h4 : 4 < h.size_in_groups := by
              rw [MIN_SIZE] at hcond
              exact hcond.2
            have := hcond.1
            omega
          obtain ⟨t, ht, hnf⟩ := exists_not_full hIG hcnt2
          refine ⟨t, ht, ?_⟩
          rcases hwv : group_was_full (group_at d2 t) with _ | n
          · rfl
          · exfalso
            have hfull := hWG (group_at d2 t)
              (getD_mem _ _ default (by
                rw [hIG.1]
                exact ht)) (by rw [hwv]; simp)
            rw [hfull] at hnf
            exact absurd hnf (by simp)
        refine ⟨hstoredy, heqy, hcnt1, hIG, ?_, fun _ => hFG, hd2cn,
          ?_, fun _ => hterm2, ?_, ?_⟩
        · show d2.count ≤ _
          rw [hd2cn, hd2sz]
          have := max_load_lt (n := h.size_in_groups / 2 * GROUP_ENTRIES)
            (by
              rw [GROUP_ENTRIES]
              rw [MIN_SIZE] at hcond
              omega)
          omega
        · intro x hx
          exact hstrd x ((hstG x).mp hx)
        · rw [hd2sz, if_pos]
          constructor
          · rw [min_load_count] at hcond ⊢
            exact hcond.1
          · exact hcond.2
        · intro hcon
          rw [hd2sz] at hcon
          rw [MIN_SIZE] at hcond
          omega

/-! ### roundup_to_pow2 produces the next power of two -/

/-- One bit-smearing step of roundup_to_pow2. -/
def smear_step (x s : Nat) : Nat := x ||| (x >>> s)

theorem roundup_eq_chain (n : Nat) :
    roundup_to_pow2 n =
      smear_step (smear_step (smear_step (smear_step (smear_step
        (smear_step (n - 1) 1) 2) 4) 8) 16) 32 + 1 := rfl

/-- x covers x0 up to distance D: bit i of x is set exactly when some bit of
x0 within [i, i + D] is set. -/
def covers (x0 D x : Nat) : Prop :=
  ∀ i, (x.testBit i = true) ↔ ∃ d, d ≤ D ∧ x0.testBit (i + d) = true

theorem covers_self (x0 : Nat) : covers x0 0 x0 := by
  intro i
  constructor
  · intro hb
    exact ⟨0, by omega, by simpa using hb⟩
  · rintro ⟨d, hd, hb⟩
    have hd0 : d = 0 := by omega
    rw [hd0] at hb
    simpa using hb

theorem covers_step {x0 D x : Nat} (h : covers x0 D x) :
    covers x0 (2 * D + 1) (smear_step x (D + 1)) := by
  intro i
  rw [smear_step, Nat.testBit_or, Bool.or_eq_true_iff, Nat.testBit_shiftRight]
  rw [h i, h (D + 1 + i)]
  constructor
  · rintro (⟨d, hd, hb⟩ | ⟨d, hd, hb⟩)
    · exact ⟨d, by omega, hb⟩
    · refine ⟨D + 1 + d, by omega, ?_⟩
      have harr : i + (D + 1 + d) = D + 1 + i + d := by omega
      rwa [harr]
  · rintro ⟨d, hd, hb⟩
    rcases le_or_lt d D with hle | hgt
    · exact Or.inl ⟨d, hle, hb⟩
    · refine Or.inr ⟨d - (D + 1), by omega, ?_⟩
      have harr : D + 1 + i + (d - (D + 1)) = i + d := by omega
      rwa [harr]

theorem covers_chain (x0 : Nat) :
    covers x0 63 (smear_step (smear_step (smear_step (smear_step (smear_step
      (smear_step x0 1) 2) 4) 8) 16) 32) := by
  have h0 := covers_self x0
  have h1 := covers_step (D := 0) h0
  have h2 := covers_step (D := 1) h1
  have h4 := covers_step (D := 3) h2
  have h8 := covers_step (D := 7) h4
  have h16 := covers_step (D := 15) h8
  have h32 := covers_step (D := 31) h16
  norm_num at h1 h2 h4 h8 h16 h32
  exact h32

theorem testBit_log2_self {x : Nat} (hx : 1 ≤ x) : x.testBit x.log2 = true := by
  have h1 : 2 ^ x.log2 ≤ x := Nat.log2_self_le (by omega)
  have h2 : x < 2 ^ (x.log2 + 1) := Nat.lt_log2_self
  have hdiv : x / 2 ^ x.log2 = 1 := by
    apply Nat.div_eq_of_lt_le
    · omega
    · have : (1 + 1) * 2 ^ x.log2 = 2 ^ (x.log2 + 1) := by ring
      omega
  rw [Nat.testBit_to_div_mod, hdiv]
  simp

theorem roundup_spec {n : Nat} (h1 : 1 ≤ n) (h2 : n ≤ 2 ^ 63) :
    (∃ k2, roundup_to_pow2 n = 2 ^ k2) ∧ n ≤ roundup_to_pow2 n := by
  rcases Nat.eq_or_lt_of_le h1 with he | hgt
  · rw [← he]
    exact ⟨⟨0, by decide⟩, by decide⟩
  have hx1 : 1 ≤ n - 1 := by omega
  set x0 := n - 1 with hx0
  set k := x0.log2 with hklog
  have hlow : 2 ^ k ≤ x0 := Nat.log2_self_le (by omega)
  have hhigh : x0 < 2 ^ (k + 1) := Nat.lt_log2_self
  have hk63 : k ≤ 63 := by
    by_contra hcon
    have : (2 : Nat) ^ 64 ≤ 2 ^ k := Nat.pow_le_pow_right (by omega) (by omega)
    have h64 : (2 : Nat) ^ 63 < 2 ^ 64 := Nat.pow_lt_pow_right (by omega)
      (by omega)
    omega
  have hcov := covers_chain x0
  have hbitk : x0.testBit k = true := testBit_log2_self hx1
  have hy : smear_step (smear_step (smear_step (smear_step (smear_step
      (smear_step x0 1) 2) 4) 8) 16) 32 = 2 ^ (k + 1) - 1 := by
    apply Nat.eq_of_testBit_eq
    intro i
    rw [Nat.testBit_two_pow_sub_one]
    rcases le_or_lt i k with hik | hik
    · rw [(hcov i).mpr ⟨k - i, by omega, by
        have harr : i + (k - i) = k := by omega
        rwa [harr]⟩]
      simp
      omega
    · have hnone : (smear_step (smear_step (smear_step (smear_step (smear_step
          (smear_step x0 1) 2) 4) 8) 16) 32).testBit i = false := by
        rcases hv : (smear_step (smear_step (smear_step (smear_step (smear_step
            (smear_step x0 1) 2) 4) 8) 16) 32).testBit i with _ | _
        · rfl
        · obtain ⟨d, hd, hb⟩ := (hcov i).mp hv
          have hfalse : x0.testBit (i + d) = false :=
            Nat.testBit_lt_two_pow (by
              have : (2 : Nat) ^ (k + 1) ≤ 2 ^ (i + d) :=
                Nat.pow_le_pow_right (by omega) (by omega)
              omega)
          rw [hfalse] at hb
          exact absurd hb (by simp)
      rw [hnone]
      simp
      omega
  rw [roundup_eq_chain, hy]
  have hpos : 1 ≤ (2 : Nat) ^ (k + 1) := Nat.one_le_two_pow
  constructor
  · exact ⟨k + 1, by omega⟩
  · omega

/-! ### Reserve and reachability -/

/-- h64_reserve builds a table holding the same elements as the input, with
the usual invariants; the power-of-two premise of resize_spec is discharged
by the resize assertion guard itself. -/
theorem h64_reserve_spec {E : Type} {cb : Callbacks E} {gas : Nat}
    {h h2 : h64 E} {n : Nat} {seeds : List Nat} (hInv : Inv cb h)
    (hres : h64_reserve cb gas h n seeds = some h2) :
    Inv cb h2 ∧ CountBound h2 ∧ FindInv cb h2 ∧ WFull h2 ∧
      h2.count = h.count ∧ (∀ x, stored h2 x ↔ stored h x) := by
  rw [h64_reserve] at hres
  rcases hrz : h64_resize cb gas h
      (roundup_to_pow2 (100 * n / 67 / GROUP_ENTRIES + 1)) seeds
    with _ | ⟨tmp2, seeds2⟩
  · rw [hrz] at hres
    exact absurd hres (by simp)
  rw [hrz] at hres
  simp only [Option.map_some', Option.some_inj] at hres
  have hgas : gas ≠ 0 := by
    intro h0
    rw [h0, h64_resize_zero] at hrz
    exact absurd hrz (by simp)
  obtain ⟨gas2, hgas2⟩ := Nat.exists_eq_succ_of_ne_zero hgas
  have hguard : is_power_of_2
      (roundup_to_pow2 (100 * n / 67 / GROUP_ENTRIES + 1)) = true := by
    rw [hgas2, h64_resize_succ] at hrz
    by_contra hng
    rw [if_neg hng] at hrz
    exact absurd hrz (by simp)
  have hk : ∃ k, roundup_to_pow2 (100 * n / 67 / GROUP_ENTRIES + 1) = 2 ^ k :=
    is_power_of_2_pow2 (by rw [roundup_to_pow2]; omega) hguard
  obtain ⟨hI, hC, hF, hW, hcn, hstored⟩ := resize_spec hInv hk hrz
  rw [hres] at hI hC hF hW hcn
  refine ⟨hI, hC, hF, hW, hcn, fun x => ?_⟩
  rw [← hres]
  exact hstored x

/-- When the current count fits the load bound of the requested size, reserve
lands exactly on the clamped rounded-up size (the nested grow of reinsert
never fires). -/
theorem h64_reserve_exact {E : Type} {cb : Callbacks E} {gas : Nat}
    {h h2 : h64 E} {n : Nat} {seeds : List Nat} (hInv : Inv cb h)
    (hgas : gas ≠ 0)
    (hcnt : h.count ≤ max_load_count
      ((if roundup_to_pow2 (100 * n / 67 / GROUP_ENTRIES + 1) < MIN_SIZE
        then MIN_SIZE
        else roundup_to_pow2 (100 * n / 67 / GROUP_ENTRIES + 1)) *
        GROUP_ENTRIES) + 1)
    (hk : ∃ k, roundup_to_pow2 (100 * n / 67 / GROUP_ENTRIES + 1) = 2 ^ k)
    (hres : h64_reserve cb gas h n seeds = some h2) :
    h2.size_in_groups =
      (if roundup_to_pow2 (100 * n / 67 / GROUP_ENTRIES + 1) < MIN_SIZE
       then MIN_SIZE
       else roundup_to_pow2 (100 * n / 67 / GROUP_ENTRIES + 1)) ∧
    h2.count = h.count ∧
    Inv cb h2 ∧ FindInv cb h2 ∧ WFull h2 ∧
    (∀ x, stored h2 x ↔ stored h x) := by
  obtain ⟨tmp2, hrun, hsz, hcn, hI, hF, hW, hstored⟩ :=
    resize_no_grow hgas seeds hInv hk hcnt
  rw [h64_reserve, hrun] at hres
  simp only [Option.map_some', Option.some_inj] at hres
  rw [hres] at hsz hcn hI hF hW
  refine ⟨hsz, hcn, hI, hF, hW, fun x => ?_⟩
  rw [← hres]
  exact hstored x

/-- Every reachable table satisfies the structural invariant and the load
bound: each public operation preserves both. -/
theorem reachable_inv {E : Type} {cb : Callbacks E} {h : h64 E}
    (hr : Reachable cb h) : Inv cb h ∧ CountBound h := by
  induction hr with
  | create seed =>
    obtain ⟨hI, hC, -⟩ := h64_init_spec (E := E) cb seed 4 (Or.inr ⟨2, rfl⟩)
    exact ⟨hI, hC⟩
  | insert gas seeds e hprev hstep ih =>
    obtain ⟨hI, hC, -⟩ := h64_insert_spec ih.1 ih.2 hstep
    exact ⟨hI, hC⟩
  | insert_new gas seeds e hprev hstep ih =>
    obtain ⟨hI, hC, -⟩ := h64_insert_new_spec ih.1 ih.2 hstep
    exact ⟨hI, hC⟩
  | erase gas seeds p r hprev hstep ih =>
    rcases r with _ | y
    · obtain ⟨heq, -⟩ := h64_erase_spec ih.1 ih.2 hstep
      rw [heq rfl]
      exact ih
    · obtain ⟨-, hfound⟩ := h64_erase_spec ih.1 ih.2 hstep
      obtain ⟨-, -, -, hI, hC, -⟩ := hfound y rfl
      exact ⟨hI, hC⟩
  | reserve gas n seeds hprev hstep ih =>
    obtain ⟨hI, hC, -⟩ := h64_reserve_spec ih.1 hstep
    exact ⟨hI, hC⟩

/-- Under the callback contract (equal elements hash identically), every
reachable table also satisfies the probe-path invariant that makes find
complete. -/
theorem reachable_findinv {E : Type} {cb : Callbacks E} {h : h64 E}
    (hcompat : Compat cb) (hr : Reachable cb h) : FindInv cb h := by
  induction hr with
  | create seed =>
    exact (h64_init_spec (E := E) cb seed 4 (Or.inr ⟨2, rfl⟩)).2.2.1
  | insert gas seeds e hprev hstep ih =>
    obtain ⟨hI, hC⟩ := reachable_inv hprev
    exact (h64_insert_spec hI hC hstep).2.2.2.2.1 hcompat ih
  | insert_new gas seeds e hprev hstep ih =>
    obtain ⟨hI, hC⟩ := reachable_inv hprev
    exact (h64_insert_new_spec hI hC hstep).2.2.2.2.2.2.1 ih
  | erase gas seeds p r hprev hstep ih =>
    obtain ⟨hI, hC⟩ := reachable_inv hprev
    rcases r with _ | y
    · obtain ⟨heq, -⟩ := h64_erase_spec hI hC hstep
      rw [heq rfl]
      exact ih
    · obtain ⟨-, hfound⟩ := h64_erase_spec hI hC hstep
      exact (hfound y rfl).2.2.2.2.2.1 ih
  | reserve gas n seeds hprev hstep ih =>
    obtain ⟨hI, hC⟩ := reachable_inv hprev
    exact (h64_reserve_spec hI hstep).2.2.1

/-! ### Completeness and soundness of find -/

/-- Completeness of the probe loop: when a stored element hashes and compares
equal to the probe, h64_find_entry returns a hit (the probe reaches the stored
element's group because all earlier probed groups carry the was-full bit, and
there the hint-filtered scan succeeds). -/
theorem find_entry_finds_stored {E : Type} {cb : Callbacks E} {h : h64 E}
    {p y : E} (hInv : Inv cb h) (hFI : FindInv cb h) (hst : stored h y)
    (hhash : h64_hash cb h p = h64_hash cb h y)
    (heq : cb.equals p y = true) :
    ∃ r, h64_find_entry cb h p (h64_hash cb h p) = some (some r) := by
  obtain ⟨pos, i, hpos, hi, hent⟩ := hst
  obtain ⟨j, hj, hpj, hpref⟩ := hFI pos i y hpos hi hent
  obtain ⟨hlen, hk2, hmin, hWF, hcount⟩ := hInv
  have hgWF : GroupWF cb h.seed (group_at h pos) :=
    hWF _ (getD_mem _ _ default (by omega))
  rw [h64_find_entry, ps_init_eq]
  apply find_entry_loop_finds (w := j) hj
  · rw [Nat.zero_add, loop_group, ← probe_at_def]
    show ∃ i0, group_scan cb
        (group_at h (probe_at (h64_hash cb h p) h.size_in_groups j)) p
        (group_match_inserted
          (group_at h (probe_at (h64_hash cb h p) h.size_in_groups j))
          (hash_hint (h64_hash cb h p))) = some i0
    rw [hhash, hpj]
    apply group_scan_isSome
    refine ⟨i, hi, ?_, ?_⟩
    · rw [group_match_testBit]
      refine ⟨hi, ?_, ?_⟩
      · exact hgWF.2.2.2.2.2 i y hi hent
      · exact (hgWF.2.2.2.1 i hi).mpr (by rw [hent]; rfl)
    · rw [hent, entry_equals_some]
      exact heq
  · intro j2 hj2
    rw [Nat.zero_add, loop_group, ← probe_at_def]
    show group_was_full
        (group_at h (probe_at (h64_hash cb h p) h.size_in_groups j2)) ≠ 0
    rw [hhash]
    exact hpref j2 hj2

/-- Combined find correctness on a hit: the result is a stored handle that
compares equal to the probe. -/
theorem h64_find_finds {E : Type} {cb : Callbacks E} {h : h64 E} {p y : E}
    (hInv : Inv cb h) (hFI : FindInv cb h) (hst : stored h y)
    (hhash : h64_hash cb h p = h64_hash cb h y)
    (heq : cb.equals p y = true) :
    ∃ y2, h64_find cb h p = some (some y2) ∧ stored h y2 ∧
      cb.equals p y2 = true := by
  obtain ⟨⟨pos2, idx2⟩, hfe⟩ := find_entry_finds_stored hInv hFI hst hhash heq
  obtain ⟨hlen, ⟨k, hk⟩, hmin, hWF, hcount⟩ := hInv
  obtain ⟨j, hj, hpj, hplt, hscan, hpref⟩ := find_entry_found_spec hk hfe
  obtain ⟨hidx7, hbit, heqv⟩ := group_scan_eq_some hscan
  rcases hent2 : (group_at h pos2).entries.getD idx2 none with _ | y2
  · rw [hent2, entry_equals_none] at heqv
    exact absurd heqv (by simp)
  · rw [hent2, entry_equals_some] at heqv
    refine ⟨y2, ?_, ⟨pos2, idx2, hplt, hidx7, hent2⟩, heqv⟩
    rw [h64_find, hfe]
    show some ((h.groups.getD pos2 default).entries.getD idx2 none) =
      some (some y2)
    rw [show h.groups.getD pos2 default = group_at h pos2 from rfl, hent2]

/-- Soundness of find on a miss: when some group on the path has a clear
was-full bit and no stored element compares equal to the probe, h64_find
returns the in-band null. -/
theorem h64_find_none_of_absent {E : Type} {cb : Callbacks E} {h : h64 E}
    {p : E} {k : Nat} (hk : h.size_in_groups = 2 ^ k) (hTerm : TermOK h)
    (habs : ∀ y, stored h y → cb.equals p y = false) :
    h64_find cb h p = some none := by
  obtain ⟨r, hr⟩ := find_entry_terminates hk p (h64_hash cb h p) hTerm
  rcases r with _ | ⟨pos, idx⟩
  · rw [h64_find, hr]
  · exfalso
    obtain ⟨j, hj, hpj, hplt, hscan, hpref⟩ := find_entry_found_spec hk hr
    obtain ⟨hidx7, hbit, heqv⟩ := group_scan_eq_some hscan
    rcases hent : (group_at h pos).entries.getD idx none with _ | y
    · rw [hent, entry_equals_none] at heqv
      simp at heqv
    · rw [hent, entry_equals_some] at heqv
      have := habs y ⟨pos, idx, hplt, hidx7, hent⟩
      rw [this] at heqv
      simp at heqv

/-! ### Concrete operation traces -/

/-- Nat-keyed callbacks mirroring the integer driver of the test suite: the
hash is the value itself, equality is numeric equality. -/
def cbN : Callbacks Nat := ⟨fun e _ => e, fun a b => a == b⟩

/-- Pair callbacks for the handle-identity scenario of the spec (section 9,
S5): the second component is the key that is hashed and compared, the first
identifies the concrete handle. -/
def cbP : Callbacks (Nat × Nat) := ⟨fun e _ => e.2, fun a b => a.2 == b.2⟩

theorem cbN_compat : Compat cbN := by
  intro a b s h
  have h2 : (a == b) = true := h
  have h3 : a = b := by simpa using h2
  rw [h3]

theorem cbP_compat : Compat cbP := by
  intro a b s h
  have h2 : (a.2 == b.2) = true := h
  show a.2 = b.2
  simpa using h2

/-- One public mutating operation of the engine with its argument. -/
inductive Op (E : Type) where
  | ins (e : E)
  | del (e : E)
  | res (n : Nat)

/-- Run one public operation with rehash gas 5 and a constant seed supply. -/
def run_op {E : Type} (cb : Callbacks E) (h : h64 E) : Op E → Option (h64 E)
  | Op.ins e => h64_insert cb 5 [0, 0, 0, 0, 0] h e
  | Op.del e => (h64_erase cb 5 [0, 0, 0, 0, 0] h e).map Prod.snd
  | Op.res n => h64_reserve cb 5 h n [0, 0, 0, 0, 0]

/-- Run a list of public operations. -/
def run_ops {E : Type} (cb : Callbacks E) (h : h64 E) :
    List (Op E) → Option (h64 E)
  | [] => some h
  | op :: ops =>
    match run_op cb h op with
    | none => none
    | some h2 => run_ops cb h2 ops

theorem run_ops_reachable {E : Type} {cb : Callbacks E} :
    ∀ {ops : List (Op E)} {h h2 : h64 E}, Reachable cb h →
      run_ops cb h ops = some h2 → Reachable cb h2 := by
  intro ops
  induction ops with
  | nil =>
    intro h h2 hr hrun
    rw [run_ops] at hrun
    simp only [Option.some_inj] at hrun
    rw [← hrun]
    exact hr
  | cons op rest ih =>
    intro h h2 hr hrun
    rw [run_ops] at hrun
    rcases hstep : run_op cb h op with _ | h1
    · rw [hstep] at hrun
      exact absurd hrun (by simp)
    rw [hstep] at hrun
    refine ih ?_ hrun
    rcases op with e | e | n
    · exact Reachable.insert 5 [0, 0, 0, 0, 0] e hr hstep
    · rw [run_op] at hstep
      rcases her : h64_erase cb 5 [0, 0, 0, 0, 0] h e with _ | ⟨r, hh⟩
      · rw [her] at hstep
        exact absurd hstep (by simp)
      · rw [her] at hstep
        simp only [Option.map_some', Option.some_inj] at hstep
        exact Reachable.erase 5 [0, 0, 0, 0, 0] e r hr (by rw [her, hstep])
    · exact Reachable.reserve 5 n [0, 0, 0, 0, 0] hr hstep

/-- 19 distinct inserts on a fresh table. -/
def ops19 : List (Op Nat) := (List.range 19).map Op.ins

def T19 : h64 Nat :=
  (run_ops cbN (h64_create Nat 0) ops19).getD (h64_create Nat 0)

theorem T19_run : run_ops cbN (h64_create Nat 0) ops19 = some T19 := by rfl

theorem T19_reachable : Reachable cbN T19 :=
  run_ops_reachable (Reachable.create 0) T19_run

/-! ### Claim C1: the load-factor window -/

/-- Insert one element, then reserve capacity 100. -/
def opsRsv : List (Op Nat) := [Op.ins 5, Op.res 100]

def TRsv : h64 Nat :=
  (run_ops cbN (h64_create Nat 0) opsRsv).getD (h64_create Nat 0)

theorem TRsv_run : run_ops cbN (h64_create Nat 0) opsRsv = some TRsv := by rfl

theorem TRsv_reachable : Reachable cbN TRsv :=
  run_ops_reachable (Reachable.create 0) TRsv_run

/-- C1 (counterexample): both halves of the claimed window fail on reachable
tables.  Nineteen distinct inserts on a fresh table leave count = 19 at
size_in_groups = 4, and 19 > 0.67 * 4 * 7 = 18.76, violating the claimed
upper bound (the grow check runs before the insert, so the count may exceed
the threshold by one).  One insert followed by reserve(100) leaves count = 1
at size_in_groups = 32 > 4, and 1 < 0.1675 * 32 * 7 = 37.52, violating the
claimed lower bound (reserve never shrinks back and no erase ran). -/
theorem C1_load_factor_window_counterexample :
    (Reachable cbN T19 ∧ 67 * (T19.size_in_groups * 7) < 100 * T19.count) ∧
    (Reachable cbN TRsv ∧ 4 < TRsv.size_in_groups ∧
      10000 * TRsv.count < 1675 * (TRsv.size_in_groups * 7)) :=
  ⟨⟨T19_reachable, by decide⟩, TRsv_reachable, by decide, by decide⟩

/-- C1 (amended): immediately after any public operation on any reachable
table, count ≤ floor(0.67 * size_in_groups * 7) + 1; the lower load bound of
the original claim holds in no such generality and is dropped. -/
theorem C1_load_factor_invariant {E : Type} {cb : Callbacks E} {h : h64 E}
    (hr : Reachable cb h) :
    h.count ≤ 67 * (h.size_in_groups * 7) / 100 + 1 := by
  have hCB := (reachable_inv hr).2
  rw [CountBound, max_load_count, GROUP_ENTRIES] at hCB
  exact hCB

/-- C1 witness: the amended bound applied to the 19-insert table, where it is
tight (19 = floor(0.67 * 28) + 1). -/
theorem C1_load_factor_invariant_witness :
    T19.count ≤ 67 * (T19.size_in_groups * 7) / 100 + 1 :=
  C1_load_factor_invariant T19_reachable

/-! ### Claim C4: the table invariant is preserved -/

/-- C4: every public operation preserves the table invariant.  On every
reachable table, the group array has size_in_groups cells; for every group the
popcount of the low seven status bits equals the number of non-null entries, a
group with all seven presence bits set carries the was-full bit, and every
occupied slot's hint byte is the top byte of the stored element's seeded hash;
and the per-group occupied-slot counts sum to the table's count field. -/
theorem C4_table_invariant {E : Type} {cb : Callbacks E} {h : h64 E}
    (hr : Reachable cb h) :
    h.groups.length = h.size_in_groups ∧
    (∀ g ∈ h.groups,
      occupied_count g =
        ((List.range 7).filter
          (fun i => (g.entries.getD i none).isSome)).length ∧
      ((g.status &&& ENTRIES_MASK) = ENTRIES_MASK →
        g.status.testBit 7 = true) ∧
      (∀ i x, i < 7 → g.entries.getD i none = some x →
        g.hints.getD i 0 = hash_hint (h64_hash cb h x))) ∧
    h.count = (h.groups.map occupied_count).sum := by
  obtain ⟨⟨hlen, hk, hmin, hWF, hcount⟩, -⟩ := reachable_inv hr
  refine ⟨hlen, ?_, hcount⟩
  intro g hg
  obtain ⟨hs, hhl, hel, hbits, hfull, hhint⟩ := hWF g hg
  refine ⟨?_, hfull, hhint⟩
  rw [occupied_count]
  apply filter_length_congr
  intro j hj
  have hiff := hbits j hj
  cases hb : g.status.testBit j
  · cases ho : (g.entries.getD j none).isSome
    · rfl
    · rw [hb, ho] at hiff
      exact absurd (hiff.mpr rfl) (by simp)
  · cases ho : (g.entries.getD j none).isSome
    · rw [hb, ho] at hiff
      exact absurd (hiff.mp rfl) (by simp)
    · rfl

/-- C4 witness: the invariant holds on the table produced by 19 inserts. -/
theorem C4_table_invariant_witness :
    T19.groups.length = T19.size_in_groups ∧
    (∀ g ∈ T19.groups,
      occupied_count g =
        ((List.range 7).filter
          (fun i => (g.entries.getD i none).isSome)).length ∧
      ((g.status &&& ENTRIES_MASK) = ENTRIES_MASK →
        g.status.testBit 7 = true) ∧
      (∀ i x, i < 7 → g.entries.getD i none = some x →
        g.hints.getD i 0 = hash_hint (h64_hash cbN T19 x))) ∧
    T19.count = (T19.groups.map occupied_count).sum :=
  C4_table_invariant T19_reachable

/-! ### Claim C5: find after insert -/

/-- C5: for every element e stored in a reachable table (inserted and not
subsequently erased or overwritten) and every probe element p that hashes and
compares equal to e, find returns a stored handle of e's equivalence class;
the probe need not be the stored pointer itself. -/
theorem C5_find_after_insert {E : Type} {cb : Callbacks E} {h : h64 E}
    {e p : E} (hcompat : Compat cb) (hr : Reachable cb h) (hst : stored h e)
    (hhash : cb.hasher p h.seed = cb.hasher e h.seed)
    (heq : cb.equals p e = true) :
    ∃ e2, h64_find cb h p = some (some e2) ∧ stored h e2 ∧
      cb.equals p e2 = true := by
  have hInv := (reachable_inv hr).1
  have hFI := reachable_findinv hcompat hr
  refine h64_find_finds hInv hFI hst ?_ heq
  show cb.hasher p h.seed % 2 ^ 64 = cb.hasher e h.seed % 2 ^ 64
  rw [hhash]

/-- Insert handle (1, 5), then upsert handle (2, 5) with the equal key 5. -/
def opsP : List (Op (Nat × Nat)) := [Op.ins (1, 5), Op.ins (2, 5)]

def TP : h64 (Nat × Nat) :=
  (run_ops cbP (h64_create (Nat × Nat) 0) opsP).getD (h64_create (Nat × Nat) 0)

theorem TP_run :
    run_ops cbP (h64_create (Nat × Nat) 0) opsP = some TP := by rfl

theorem TP_reachable : Reachable cbP TP :=
  run_ops_reachable (Reachable.create 0) TP_run

/-- C5 witness: probing with the fresh handle (3, 5), which hashes and
compares equal to the stored (2, 5) without being it, find returns a stored
equal handle. -/
theorem C5_find_after_insert_witness :
    ∃ e2, h64_find cbP TP (3, 5) = some (some e2) ∧ stored TP e2 ∧
      cbP.equals (3, 5) e2 = true :=
  C5_find_after_insert cbP_compat TP_reachable
    ⟨1, 0, by decide, by decide, by rfl⟩ (by rfl) (by rfl)

/-! ### Claim C6: erase behaviour -/

/-- When some group on the path has a clear was-full bit and no stored element
compares equal to the probe, the probe loop returns the in-band miss. -/
theorem find_entry_none_of_absent {E : Type} {cb : Callbacks E} {h : h64 E}
    {p : E} {k : Nat} (hk : h.size_in_groups = 2 ^ k) (hTerm : TermOK h)
    (habs : ∀ y, stored h y → cb.equals p y = false) :
    h64_find_entry cb h p (h64_hash cb h p) = some none := by
  obtain ⟨r, hr⟩ := find_entry_terminates hk p (h64_hash cb h p) hTerm
  rcases r with _ | ⟨pos, idx⟩
  · exact hr
  · exfalso
    obtain ⟨j, hj, hpj, hplt, hscan, hpref⟩ := find_entry_found_spec hk hr
    obtain ⟨hidx7, hbit, heqv⟩ := group_scan_eq_some hscan
    rcases hent : (group_at h pos).entries.getD idx none with _ | y
    · rw [hent, entry_equals_none] at heqv
      simp at heqv
    · rw [hent, entry_equals_some] at heqv
      have := habs y ⟨pos, idx, hplt, hidx7, hent⟩
      rw [this] at heqv
      simp at heqv

/-- Completion of erase on a hit: when the probe loop reports a match and the
rehash gas is nonzero, erase returns the matched stored handle (the shrink, if
it fires, succeeds by the same reinsertion argument as resize_no_grow). -/
theorem h64_erase_found_succeeds {E : Type} {cb : Callbacks E} {gas : Nat}
    {seeds : List Nat} {h : h64 E} {p : E} {pos idx : Nat}
    (hInv : Inv cb h) (hCB : CountBound h) (hgas : gas ≠ 0)
    (hfind : h64_find_entry cb h p (h64_hash cb h p) =
      some (some (pos, idx))) :
    ∃ y h2, h64_erase cb gas seeds h p = some (some y, h2) ∧
      stored h y ∧ cb.equals p y = true := by
  obtain ⟨hlen, ⟨k, hk⟩, hmin, hWF, hcount⟩ := hInv
  obtain ⟨j, hj, hposj, hposlt, hscan, hpref⟩ := find_entry_found_spec hk hfind
  have hposlen : pos < h.groups.length := by omega
  obtain ⟨hidx7, hbit, heqv⟩ := group_scan_eq_some hscan
  have hgmatch := (group_match_testBit (group_at h pos)
    (hash_hint (h64_hash cb h p)) idx).mp hbit
  obtain ⟨y, hy, heqy⟩ : ∃ y,
      (group_at h pos).entries.getD idx none = some y ∧
      cb.equals p y = true := by
    rcases hent : (group_at h pos).entries.getD idx none with _ | y
    · rw [hent, entry_equals_none] at heqv
      exact absurd heqv (by simp)
    · rw [hent, entry_equals_some] at heqv
      exact ⟨y, rfl, heqv⟩
  have hgWF : GroupWF cb h.seed (group_at h pos) :=
    hWF _ (getD_mem _ _ default hposlen)
  have hstoredy : stored h y := ⟨pos, idx, hposlt, hidx7, hy⟩
  have hret1 : (group_erase_entry (h.groups.getD pos default) idx).1 =
      some y := hy
  suffices hS : ∃ h2, h64_erase cb gas seeds h p = some (some y, h2) by
    obtain ⟨h2, hh⟩ := hS
    exact ⟨y, h2, hh, hstoredy, heqy⟩
  rw [h64_erase]
  simp only [hfind]
  set g2 := (group_erase_entry (h.groups.getD pos default) idx).2 with hg2
  set d : h64 E :=
    { h with groups := h.groups.set pos g2, count := h.count - 1 } with hd
  have hbiterase : ∀ j2, j2 < 8 → g2.status.testBit j2 =
      if j2 = idx then false
      else (h.groups.getD pos default).status.testBit j2 :=
    fun j2 hj2 => group_erase_testBit _ idx hidx7 hj2
  have hg2entries : g2.entries =
      (h.groups.getD pos default).entries.set idx none := rfl
  have hg2hints : g2.hints =
      (h.groups.getD pos default).hints.set idx 0 := rfl
  have helen7 : (h.groups.getD pos default).entries.length = 7 := hgWF.2.2.1
  have hhlen7 : (h.groups.getD pos default).hints.length = 7 := hgWF.2.1
  have hg2WF : GroupWF cb h.seed g2 := by
    refine ⟨group_erase_status_lt _ idx hgWF.1, ?_, ?_, ?_, ?_, ?_⟩
    · rw [hg2hints, List.length_set]
      exact hhlen7
    · rw [hg2entries, List.length_set]
      exact helen7
    · intro i hi
      rw [hbiterase i (by omega), hg2entries]
      rcases Decidable.eq_or_ne i idx with he | hne
      · rw [if_pos he, he, getD_set_self _ _ _ _ (by omega)]
        constructor
        · intro hcon
          exact absurd hcon (by simp)
        · intro hcon
          exact absurd hcon (by simp)
      · rw [if_neg hne, getD_set_ne _ _ _ _ _ (fun he2 => hne he2.symm)]
        exact hgWF.2.2.2.1 i hi
    · intro hfull
      have hbits := full_iff_bits.mp hfull
      have hcon := hbits idx hidx7
      rw [hbiterase idx (by omega), if_pos rfl] at hcon
      exact absurd hcon (by simp)
    · intro i x hi hx
      rw [hg2entries] at hx
      rw [hg2hints]
      rcases Decidable.eq_or_ne i idx with he | hne
      · rw [he, getD_set_self _ _ _ _ (by omega)] at hx
        exact absurd hx (by simp)
      · rw [getD_set_ne _ _ _ _ _ (fun he2 => hne he2.symm)] at hx
        rw [getD_set_ne _ _ _ _ _ (fun he2 => hne he2.symm)]
        exact hgWF.2.2.2.2.2 i x hi hx
  have hInvd : Inv cb d := by
    refine ⟨?_, ⟨k, hk⟩, hmin, ?_, ?_⟩
    · show (h.groups.set pos g2).length = h.size_in_groups
      rw [List.length_set]
      exact hlen
    · intro gg hgg
      rcases mem_set hgg with he | hmem
      · rw [he]
        exact hg2WF
      · exact hWF gg hmem
    · show h.count - 1 = _
      have hsum := sum_set_add (l := h.groups.map occupied_count)
        (i := pos) (a := occupied_count g2) (by simpa using hposlen)
      rw [getD_map hposlen default 0] at hsum
      have hocc : occupied_count (h.groups.getD pos default) =
          occupied_count g2 + 1 :=
        group_erase_occ _ idx hidx7 hgmatch.2.2
      have hmaps : (h.groups.set pos g2).map occupied_count =
          (h.groups.map occupied_count).set pos (occupied_count g2) :=
        List.map_set ..
      rw [hmaps]
      omega
  have hdc : d.count = h.count - 1 := rfl
  have hds : d.size_in_groups = h.size_in_groups := rfl
  rcases hgd : h64_should_grow_down d with _ | _
  · simp only [Bool.false_eq_true, if_false]
    refine ⟨d, ?_⟩
    rw [hret1]
  · rw [if_pos rfl]
    have hcond := (should_grow_down_iff d).mp hgd
    rw [hdc, hds] at hcond
    have hk3 : 3 ≤ k := by
      by_contra hcon
      have hle : h.size_in_groups ≤ 4 := by
        rw [hk]
        calc 2 ^ k ≤ 2 ^ 2 := Nat.pow_le_pow_right (by omega) (by omega)
        _ = 4 := by norm_num
      rw [MIN_SIZE] at hcond
      omega
    have hhalf : h.size_in_groups / 2 = 2 ^ (k - 1) := by
      rw [hk]
      have : (2 : Nat) ^ k = 2 * 2 ^ (k - 1) := by
        rw [← pow_succ']
        congr 1
        omega
      omega
    have heven : h.size_in_groups % 2 = 0 := by
      rw [hk]
      have : (2 : Nat) ^ k = 2 * 2 ^ (k - 1) := by
        rw [← pow_succ']
        congr 1
        omega
      omega
    have hclamp : (if h.size_in_groups / 2 < MIN_SIZE then MIN_SIZE
        else h.size_in_groups / 2) = h.size_in_groups / 2 := by
      rw [if_neg]
      rw [MIN_SIZE]
      have h8 : 8 ≤ h.size_in_groups := by
        rw [hk]
        calc (8 : Nat) = 2 ^ 3 := by norm_num
        _ ≤ 2 ^ k := Nat.pow_le_pow_right (by omega) hk3
      omega
    have hcntpre : d.count ≤
        max_load_count (h.size_in_groups / 2 * GROUP_ENTRIES) + 1 := by
      have hle := min_load_le_max_half (N := h.size_in_groups) heven
      rw [CountBound] at hCB
      rw [hdc]
      omega
    obtain ⟨tmp2, hrz2, -⟩ :=
      resize_no_grow (N := h.size_in_groups / 2) hgas seeds hInvd
        ⟨k - 1, hhalf⟩ (by rw [hclamp]; exact hcntpre)
    have hgdr : h64_grow_down cb gas d seeds = some (tmp2, seeds.tail) := by
      rw [h64_grow_down, hds]
      exact hrz2
    rw [hgdr]
    refine ⟨tmp2, ?_⟩
    show some ((group_erase_entry (h.groups.getD pos default) idx).1, tmp2) =
      some (some y, tmp2)
    rw [hret1]

/-- C6 (amended): under the proviso that some group of the table has a clear
was-full bit (without it the probe loop of erase need not terminate, see the
C10 analysis): if no stored element compares equal to the probe, erase
returns null and leaves the table untouched; if a stored element compares
equal to the probe (under the section 6 callback contract and with nonzero
rehash gas), erase succeeds and returns a stored handle that compares equal
to the probe; and any returned handle y was stored and equal to the probe,
count decreased by one, the grow-down check determines the new size, a
size-preserving erase leaves every was-full bit intact, and — provided no
remaining stored element compares equal to the probe — a subsequent find
returns null. -/
theorem C6_erase_behavior {E : Type} {cb : Callbacks E} (gas : Nat)
    (seeds : List Nat) {h : h64 E} (p : E)
    (hr : Reachable cb h) (hTerm : TermOK h) :
    ((∀ y, stored h y → cb.equals p y = false) →
      h64_erase cb gas seeds h p = some (none, h)) ∧
    (Compat cb → gas ≠ 0 → ∀ y, stored h y → cb.equals p y = true →
      ∃ y2 h2, h64_erase cb gas seeds h p = some (some y2, h2) ∧
        stored h y2 ∧ cb.equals p y2 = true) ∧
    (∀ r h2 y, h64_erase cb gas seeds h p = some (r, h2) → r = some y →
      stored h y ∧ cb.equals p y = true ∧
      h2.count = h.count - 1 ∧ 1 ≤ h.count ∧
      h2.size_in_groups =
        (if h.count - 1 < 67 * (h.size_in_groups * 7) / 400 ∧
            4 < h.size_in_groups
         then h.size_in_groups / 2 else h.size_in_groups) ∧
      (h2.size_in_groups = h.size_in_groups →
        ∀ pos, group_was_full (group_at h2 pos) =
          group_was_full (group_at h pos)) ∧
      ((∀ z, stored h2 z → cb.equals p z = false) →
        h64_find cb h2 p = some none)) := by
  obtain ⟨hInv, hCB⟩ := reachable_inv hr
  obtain ⟨k, hk⟩ := hInv.2.1
  refine ⟨?_, ?_, ?_⟩
  · intro habs
    rw [h64_erase, find_entry_none_of_absent hk hTerm habs]
  · intro hcompat hgas y hst heq
    have hFI := reachable_findinv hcompat hr
    have hhash2 : h64_hash cb h p = h64_hash cb h y := by
      show cb.hasher p h.seed % 2 ^ 64 = cb.hasher y h.seed % 2 ^ 64
      rw [hcompat p y h.seed heq]
    obtain ⟨⟨pos, idx⟩, hfe⟩ :=
      find_entry_finds_stored hInv hFI hst hhash2 heq
    exact h64_erase_found_succeeds hInv hCB hgas hfe
  · intro r h2 y hres hry
    rw [hry] at hres
    obtain ⟨-, hfound⟩ := h64_erase_spec hInv hCB hres
    obtain ⟨hst, heq, hcnt1, hI2, hC2, hFIp, hcnt, hmono, hTp, hsz, hwf⟩ :=
      hfound y rfl
    refine ⟨hst, heq, hcnt, hcnt1, ?_, hwf, ?_⟩
    · rw [hsz, min_load_count, GROUP_ENTRIES, MIN_SIZE]
    · intro habs2
      obtain ⟨k2, hk2⟩ := hI2.2.1
      exact h64_find_none_of_absent hk2 (hTp hTerm) habs2

/-- Insert the single element 5 on a fresh table. -/
def T5 : h64 Nat :=
  (run_ops cbN (h64_create Nat 0) [Op.ins 5]).getD (h64_create Nat 0)

theorem T5_run : run_ops cbN (h64_create Nat 0) [Op.ins 5] = some T5 := by rfl

theorem T5_reachable : Reachable cbN T5 :=
  run_ops_reachable (Reachable.create 0) T5_run

/-- The table after erasing 5 again. -/
def T5e : h64 Nat :=
  ((h64_erase cbN 5 [0] T5 5).getD (none, h64_create Nat 0)).2

theorem T5_erase : h64_erase cbN 5 [0] T5 5 = some (some 5, T5e) := by rfl

theorem stored_T5 {y : Nat} (hy : stored T5 y) : y = 5 := by
  obtain ⟨pos, i, hpos, hi, hent⟩ := hy
  have hsz : T5.size_in_groups = 4 := by rfl
  have hall : ∀ pos2, pos2 < 4 → ∀ i2, i2 < 7 →
      (group_at T5 pos2).entries.getD i2 none = none ∨
      (group_at T5 pos2).entries.getD i2 none = some 5 := by decide
  rcases hall pos (by omega) i hi with h0 | h0
  · rw [h0] at hent
    exact Option.noConfusion hent
  · rw [h0] at hent
    exact (Option.some_inj.mp hent).symm

theorem stored_T5e {y : Nat} (hy : stored T5e y) : False := by
  obtain ⟨pos, i, hpos, hi, hent⟩ := hy
  have hsz : T5e.size_in_groups = 4 := by rfl
  have hall : ∀ pos2, pos2 < 4 → ∀ i2, i2 < 7 →
      (group_at T5e pos2).entries.getD i2 none = none := by decide
  rw [hall pos (by omega) i hi] at hent
  exact Option.noConfusion hent

/-- C6 witness: on the one-element table, erasing the absent 7 returns null
and the very same table; erasing the present 5 is guaranteed to succeed (the
success conjunct applied to the stored 5), returns the stored 5, drops count
to 0, leaves the size at 4 (the grow-down check fires only above MIN_SIZE),
and a subsequent find of 5 returns null. -/
theorem C6_erase_behavior_witness :
    h64_erase cbN 5 [0] T5 7 = some (none, T5) ∧
    stored T5 5 ∧ cbN.equals 5 5 = true ∧ T5e.count = T5.count - 1 ∧
    1 ≤ T5.count ∧
    T5e.size_in_groups =
      (if T5.count - 1 < 67 * (T5.size_in_groups * 7) / 400 ∧
          4 < T5.size_in_groups
       then T5.size_in_groups / 2 else T5.size_in_groups) ∧
    (∃ y2 h2x, h64_erase cbN 5 [0] T5 5 = some (some y2, h2x) ∧
      stored T5 y2 ∧ cbN.equals 5 y2 = true) ∧
    h64_find cbN T5e 5 = some none := by
  have hterm : TermOK T5 := ⟨0, by decide, by decide⟩
  have hB := (C6_erase_behavior 5 [0] 5
    T5_reachable hterm).2.2 (some 5) T5e 5 T5_erase rfl
  have hA := (C6_erase_behavior 5 [0] 7
    T5_reachable hterm).1
  have hS := (C6_erase_behavior 5 [0] 5
    T5_reachable hterm).2.1 cbN_compat (by omega) 5
    ⟨1, 0, by decide, by decide, by rfl⟩ (by decide)
  refine ⟨hA ?_, hB.1, hB.2.1, hB.2.2.1, hB.2.2.2.1, hB.2.2.2.2.1, hS, ?_⟩
  · intro y hy
    rw [stored_T5 hy]
    decide
  · exact hB.2.2.2.2.2.2 (fun z hz => absurd (stored_T5e hz) (by simp))

/-! ### The saturated table: groups can all become was-full -/

/-- Fill each of the four groups of a minimum-size table with the seven
elements of its own probe residue class, then erase all of them.  With the
identity hash every key k probes group k mod 4 first, so each group fills
completely (setting the sticky was-full bit) before being emptied again; the
grow check never fires (count stays at most 7 with threshold 18) and the
shrink check never fires (the size never leaves MIN_SIZE). -/
def badOps : List (Op Nat) :=
  (List.range 4).flatMap (fun r =>
    ((List.range 7).map (fun j => Op.ins (4 * j + r))) ++
    ((List.range 7).map (fun j => Op.del (4 * j + r))))

def badT : h64 Nat :=
  (run_ops cbN (h64_create Nat 0) badOps).getD (h64_create Nat 0)

theorem badT_run : run_ops cbN (h64_create Nat 0) badOps = some badT := by rfl

theorem badT_reachable : Reachable cbN badT :=
  run_ops_reachable (Reachable.create 0) badT_run

theorem stored_badT {y : Nat} (hy : stored badT y) : False := by
  obtain ⟨pos, i, hpos, hi, hent⟩ := hy
  have hsz : badT.size_in_groups = 4 := by rfl
  have hall : ∀ pos2, pos2 < 4 → ∀ i2, i2 < 7 →
      (group_at badT pos2).entries.getD i2 none = none := by decide
  rw [hall pos (by omega) i hi] at hent
  exact Option.noConfusion hent

/-- C6 (counterexample): the original claim promises that erasing a probe
that equals no stored element "returns null and leaves the table unchanged".
On the reachable saturated-then-emptied table every group carries the
was-full bit, so the probe loop of erase never reaches its stop condition:
the model returns none (fuel exhaustion at every fuel, i.e. the C loop runs
forever) instead of the promised null result, for every gas and seed supply.
-/
theorem C6_erase_counterexample :
    ∃ h, Reachable cbN h ∧ (∀ y, stored h y → cbN.equals 0 y = false) ∧
      ∀ gas seeds, h64_erase cbN gas seeds h 0 = none := by
  refine ⟨badT, badT_reachable, ?_, ?_⟩
  · intro y hy
    exact absurd (stored_badT hy) (by simp)
  · intro gas seeds
    have hfe : h64_find_entry cbN badT 0 (h64_hash cbN badT 0) = none := by
      rfl
    rw [h64_erase, hfe]

/-! ### Claim C10: probe-loop termination -/

/-- C10 (refuted, code bug): the spec asserts that a table with every group
saturated-and-sticky cannot arise under the load-factor discipline and hence
that the find loop always terminates.  The reachable table badT refutes this:
every group has the was-full bit set, find on it returns none in the model
(fuel exhaustion), and the fuel-indexed probe loop returns none at every fuel
and every starting iteration — the C do/while loop never exits, because no
group ever matches and no group has a clear was-full bit. -/
theorem C10_all_was_full_find_diverges :
    ∃ h, Reachable cbN h ∧
      (∀ t, t < h.size_in_groups → group_was_full (group_at h t) ≠ 0) ∧
      h64_find cbN h 0 = none ∧
      (∀ fuel d, h64_find_entry_loop cbN h 0 (hash_hint (h64_hash cbN h 0))
        ⟨h64_hash cbN h 0 &&& (h.size_in_groups - 1), d,
          h.size_in_groups - 1⟩ fuel = none) := by
  refine ⟨badT, badT_reachable, by decide, by rfl, ?_⟩
  intro fuel d
  apply find_entry_loop_diverges
  intro d2
  have hgood : ∀ q2, q2 ≤ 3 →
      group_scan cbN (badT.groups.getD q2 default) 0
        (group_match_inserted (badT.groups.getD q2 default)
          (hash_hint (h64_hash cbN badT 0))) = none ∧
      group_was_full (badT.groups.getD q2 default) ≠ 0 := by decide
  have hq : ps_position
      ⟨h64_hash cbN badT 0 &&& (badT.size_in_groups - 1), d2,
        badT.size_in_groups - 1⟩ ≤ 3 := Nat.and_le_right
  exact hgood _ hq

/-! ### Claim C7: upsert of an existing element -/

/-- C7 (amended): when the grow check does not fire, inserting an element
that hashes and compares equal to a stored one takes the in-place update
path: exactly one slot's entry handle is overwritten with e; that slot held
an equal element; the group's status byte and hint bytes, every other group,
every other slot, the count, the size and the seed are unchanged.  (Without
the no-grow proviso the insert may first rehash the whole table, see the
counterexample.) -/
theorem C7_upsert {E : Type} {cb : Callbacks E} {gas : Nat} {seeds : List Nat}
    {h : h64 E} {e y : E} (hcompat : Compat cb) (hr : Reachable cb h)
    (hng : h64_should_grow_up h = false) (hst : stored h y)
    (hhash : cb.hasher e h.seed = cb.hasher y h.seed)
    (heq : cb.equals e y = true) :
    ∃ h2 pos idx y2, h64_insert cb gas seeds h e = some h2 ∧
      h2 = { h with groups :=
        h.groups.set pos (group_update (group_at h pos) e idx) } ∧
      pos < h.size_in_groups ∧ idx < 7 ∧
      (group_at h pos).entries.getD idx none = some y2 ∧
      cb.equals e y2 = true ∧
      h2.count = h.count ∧ h2.size_in_groups = h.size_in_groups ∧
      h2.seed = h.seed ∧
      (∀ p2, (group_at h2 p2).status = (group_at h p2).status) ∧
      (∀ p2, p2 ≠ pos → group_at h2 p2 = group_at h p2) ∧
      (group_at h2 pos).hints = (group_at h pos).hints ∧
      (∀ i2, i2 ≠ idx → (group_at h2 pos).entries.getD i2 none =
        (group_at h pos).entries.getD i2 none) ∧
      (group_at h2 pos).entries.getD idx none = some e := by
  obtain ⟨hInv, hCB⟩ := reachable_inv hr
  have hFI := reachable_findinv hcompat hr
  have hhash2 : h64_hash cb h e = h64_hash cb h y := by
    show cb.hasher e h.seed % 2 ^ 64 = cb.hasher y h.seed % 2 ^ 64
    rw [hhash]
  obtain ⟨⟨pos, idx⟩, hfe⟩ := find_entry_finds_stored hInv hFI hst hhash2 heq
  obtain ⟨hlen, ⟨k, hk⟩, hmin, hWF, hcount⟩ := hInv
  obtain ⟨j, hj, hpj, hplt, hscan, hpref⟩ := find_entry_found_spec hk hfe
  obtain ⟨hidx7, hbit, heqv⟩ := group_scan_eq_some hscan
  obtain ⟨y2, hy2, heqy2⟩ : ∃ y2,
      (group_at h pos).entries.getD idx none = some y2 ∧
      cb.equals e y2 = true := by
    rcases hent : (group_at h pos).entries.getD idx none with _ | y2
    · rw [hent, entry_equals_none] at heqv
      exact absurd heqv (by simp)
    · rw [hent, entry_equals_some] at heqv
      exact ⟨y2, rfl, heqv⟩
  have hgWF : GroupWF cb h.seed (group_at h pos) :=
    hWF _ (getD_mem _ _ default (by omega))
  have hel : (group_at h pos).entries.length = 7 := hgWF.2.2.1
  set h2 : h64 E :=
    ({ h with
        groups := h.groups.set pos (group_update (group_at h pos) e idx) } :
      h64 E) with hh2
  have hposlen : pos < h.groups.length := by omega
  have hga2 : group_at h2 pos = group_update (group_at h pos) e idx := by
    show (h.groups.set pos (group_update (group_at h pos) e idx)).getD pos
      default = _
    exact getD_set_self _ _ _ _ (by simpa using hposlen)
  refine ⟨h2, pos, idx, y2, ?_, hh2, hplt, hidx7, hy2, heqy2, rfl, rfl, rfl,
    ?_, ?_, ?_, ?_, ?_⟩
  · simp only [h64_insert, hng, Bool.false_eq_true, if_false, hfe]
    rw [hh2]
    rfl
  · intro p2
    rcases eq_or_ne p2 pos with rfl | hne
    · rw [hga2]
      rfl
    · show ((h.groups.set pos (group_update (group_at h pos) e idx)).getD p2
        default).status = _
      rw [getD_set_ne _ _ _ _ _ (fun hc => hne hc.symm)]
      rfl
  · intro p2 hne
    show (h.groups.set pos (group_update (group_at h pos) e idx)).getD p2
      default = _
    rw [getD_set_ne _ _ _ _ _ (fun hc => hne hc.symm)]
    rfl
  · rw [hga2]
    rfl
  · intro i2 hne
    rw [hga2]
    show ((group_at h pos).entries.set idx (some e)).getD i2 none = _
    rw [getD_set_ne _ _ _ _ _ (fun hc => hne hc.symm)]
  · rw [hga2]
    show ((group_at h pos).entries.set idx (some e)).getD idx none = some e
    exact getD_set_self _ _ _ _ (by omega)

/-- The 19-insert table after upserting the already stored 18. -/
def T19up : h64 Nat :=
  (h64_insert cbN 5 [1, 1, 1] T19 18).getD (h64_create Nat 0)

/-- C7 (counterexample): on the reachable 19-insert table, upserting the
already stored element 18 first fires the grow check (19 + 1 > 18), so the
insert rebuilds the whole table at twice the size instead of touching a
single slot: every group's status byte changes.  Only the count is unchanged.
-/
theorem C7_upsert_counterexample :
    Reachable cbN T19 ∧ stored T19 18 ∧ cbN.equals 18 18 = true ∧
      h64_insert cbN 5 [1, 1, 1] T19 18 = some T19up ∧
      T19.size_in_groups = 4 ∧ T19up.size_in_groups = 8 ∧
      T19up.count = T19.count :=
  ⟨T19_reachable, ⟨2, 4, by decide, by decide, by rfl⟩, by decide, by rfl,
    by rfl, by rfl, by rfl⟩

/-- Insert the single handle (1, 5) on a fresh pair table. -/
def TP1 : h64 (Nat × Nat) :=
  (run_ops cbP (h64_create (Nat × Nat) 0) [Op.ins (1, 5)]).getD
    (h64_create (Nat × Nat) 0)

theorem TP1_run :
    run_ops cbP (h64_create (Nat × Nat) 0) [Op.ins (1, 5)] = some TP1 := by
  rfl

theorem TP1_reachable : Reachable cbP TP1 :=
  run_ops_reachable (Reachable.create 0) TP1_run

/-- C7 witness: upserting (2, 5) over the stored equal handle (1, 5) on the
one-element pair table, where the grow check does not fire. -/
theorem C7_upsert_witness :
    ∃ h2 pos idx y2, h64_insert cbP 5 [0] TP1 (2, 5) = some h2 ∧
      h2 = { TP1 with groups :=
        TP1.groups.set pos (group_update (group_at TP1 pos) (2, 5) idx) } ∧
      pos < TP1.size_in_groups ∧ idx < 7 ∧
      (group_at TP1 pos).entries.getD idx none = some y2 ∧
      cbP.equals (2, 5) y2 = true ∧
      h2.count = TP1.count ∧ h2.size_in_groups = TP1.size_in_groups ∧
      h2.seed = TP1.seed ∧
      (∀ p2, (group_at h2 p2).status = (group_at TP1 p2).status) ∧
      (∀ p2, p2 ≠ pos → group_at h2 p2 = group_at TP1 p2) ∧
      (group_at h2 pos).hints = (group_at TP1 pos).hints ∧
      (∀ i2, i2 ≠ idx → (group_at h2 pos).entries.getD i2 none =
        (group_at TP1 pos).entries.getD i2 none) ∧
      (group_at h2 pos).entries.getD idx none = some (2, 5) :=
  C7_upsert cbP_compat TP1_reachable (by decide)
    ⟨1, 0, by decide, by decide, by rfl⟩ (by rfl) (by rfl)

/-! ### Claim C8: the shrink threshold -/

/-- C8 (amended): after an erase that decremented the count, the table halves
exactly when count < floor(0.1675 * size_in_groups * 7) and
size_in_groups > 4.  The C comparison count < (size_t)(MIN_LOAD_FACTOR *
capacity) floors the real threshold first, which is strictly weaker than the
claimed real-valued comparison whenever the threshold is fractional. -/
theorem C8_shrink_threshold {E : Type} {cb : Callbacks E} {gas : Nat}
    {seeds : List Nat} {h h2 : h64 E} {p : E} {r : Option E} {y : E}
    (hr : Reachable cb h)
    (hres : h64_erase cb gas seeds h p = some (r, h2)) (hry : r = some y) :
    h2.size_in_groups =
      (if h.count - 1 < 67 * (h.size_in_groups * 7) / 400 ∧
          4 < h.size_in_groups
       then h.size_in_groups / 2 else h.size_in_groups) := by
  obtain ⟨hInv, hCB⟩ := reachable_inv hr
  rw [hry] at hres
  obtain ⟨-, hfound⟩ := h64_erase_spec hInv hCB hres
  obtain ⟨-, -, -, -, -, -, -, -, -, hsz, -⟩ := hfound y rfl
  rw [hsz, min_load_count, GROUP_ENTRIES, MIN_SIZE]

/-- 20 distinct inserts (growing the table to 8 groups), then erase 0..9. -/
def ops30 : List (Op Nat) :=
  ((List.range 20).map Op.ins) ++ ((List.range 10).map Op.del)

def T30 : h64 Nat :=
  (run_ops cbN (h64_create Nat 0) ops30).getD (h64_create Nat 0)

theorem T30_run : run_ops cbN (h64_create Nat 0) ops30 = some T30 := by rfl

theorem T30_reachable : Reachable cbN T30 :=
  run_ops_reachable (Reachable.create 0) T30_run

/-- The table after additionally erasing 10 from T30. -/
def T30e : h64 Nat :=
  ((h64_erase cbN 5 [0, 0, 0, 0, 0] T30 10).getD
    (none, h64_create Nat 0)).2

/-- C8 (counterexample): erasing 10 from the reachable table T30 (count 10,
size 8) decrements count to 9 with 9 < 0.1675 * 8 * 7 = 9.38 and 8 > 4, yet
the size does not halve: the C code compares against the floored threshold
(size_t)(0.1675 * 56) = 9, and 9 < 9 fails. -/
theorem C8_shrink_threshold_counterexample :
    Reachable cbN T30 ∧
      h64_erase cbN 5 [0, 0, 0, 0, 0] T30 10 = some (some 10, T30e) ∧
      10000 * T30e.count < 1675 * (T30e.size_in_groups * 7) ∧
      4 < T30e.size_in_groups ∧
      T30e.size_in_groups = T30.size_in_groups :=
  ⟨T30_reachable, by rfl, by decide, by decide, by rfl⟩

/-- The table after erasing 5 from the reserved table TRsv. -/
def TRe : h64 Nat :=
  ((h64_erase cbN 5 [0, 0, 0] TRsv 5).getD (none, h64_create Nat 0)).2

theorem TRsv_erase :
    h64_erase cbN 5 [0, 0, 0] TRsv 5 = some (some 5, TRe) := by rfl

/-- C8 witness: on the reserved table (count 1, size 32) the amended
threshold fires — 0 < floor(0.1675 * 224) = 37 and 32 > 4 — and the erase
halves the size to 16. -/
theorem C8_shrink_threshold_witness :
    TRe.size_in_groups =
      (if TRsv.count - 1 < 67 * (TRsv.size_in_groups * 7) / 400 ∧
          4 < TRsv.size_in_groups
       then TRsv.size_in_groups / 2 else TRsv.size_in_groups) :=
  C8_shrink_threshold TRsv_reachable TRsv_erase rfl

/-! ### Claim C9: reserve and subsequent inserts -/

/-- On a table with no stored element equal to e, with headroom below the
grow threshold and the was-full-implies-full discipline of freshly rebuilt
tables, insert takes the brand-new-element path of insert_new_core. -/
theorem h64_insert_fresh {E : Type} {cb : Callbacks E} {gas : Nat}
    {seeds : List Nat} {h : h64 E} {e : E}
    (hInv : Inv cb h) (hWFu : WFull h)
    (habs : ∀ y, stored h y → cb.equals e y = false)
    (hcap : h.count + 1 ≤ max_load_count (h.size_in_groups * GROUP_ENTRIES)) :
    ∃ h2, h64_insert cb gas seeds h e = some h2 ∧
      h64_insert_new_core cb h e = some h2 := by
  obtain ⟨k, hk⟩ := hInv.2.1
  have hng : h64_should_grow_up h = false := by
    rcases hgu : h64_should_grow_up h with _ | _
    · rfl
    · have := (should_grow_up_iff h).mp hgu
      omega
  have hcntlt : h.count < h.size_in_groups * GROUP_ENTRIES := by
    have := max_load_lt (n := h.size_in_groups * GROUP_ENTRIES)
      (by have h4 := hInv.2.2.1; rw [MIN_SIZE] at h4; rw [GROUP_ENTRIES]; omega)
    omega
  have hTerm : TermOK h := by
    obtain ⟨t, ht, hnf⟩ := exists_not_full hInv hcntlt
    refine ⟨t, ht, ?_⟩
    by_contra hwf
    have hfull := hWFu (group_at h t)
      (getD_mem _ _ default (by rw [hInv.1]; omega)) hwf
    rw [hfull] at hnf
    exact absurd hnf (by simp)
  have hfe : h64_find_entry cb h e (h64_hash cb h e) = some none :=
    find_entry_none_of_absent hk hTerm habs
  obtain ⟨h2, hcore⟩ := insert_new_core_succeeds hk hInv hcntlt e
  refine ⟨h2, ?_, hcore⟩
  rw [← hcore]
  simp only [h64_insert, hng, Bool.false_eq_true, if_false, hfe,
    h64_insert_new_core]

/-- The N-fold insert loop of the reserve scenario (section 9, S7). -/
def h64_insert_list {E : Type} (cb : Callbacks E) (gas : Nat)
    (seeds : List Nat) (h : h64 E) (es : List E) : Option (h64 E) :=
  match es with
  | [] => some h
  | e :: rest =>
    match h64_insert cb gas seeds h e with
    | none => none
    | some h2 => h64_insert_list cb gas seeds h2 rest

/-- Inserting pairwise-distinct elements that are all fresh (distinct from
everything stored) succeeds, inserts each element as new, and never resizes,
as long as the final count stays within the grow threshold. -/
theorem insert_list_fresh {E : Type} {cb : Callbacks E} (gas : Nat)
    (seeds : List Nat) :
    ∀ (es done : List E) (h : h64 E), Inv cb h → WFull h →
      (∀ x, stored h x → x ∈ done) →
      (∀ e2 ∈ es, ∀ d ∈ done, cb.equals e2 d = false) →
      List.Pairwise (fun a b => cb.equals b a = false) es →
      h.count + es.length ≤
        max_load_count (h.size_in_groups * GROUP_ENTRIES) →
      ∃ h2, h64_insert_list cb gas seeds h es = some h2 ∧
        h2.size_in_groups = h.size_in_groups ∧
        h2.count = h.count + es.length ∧ h2.seed = h.seed := by
  intro es
  induction es with
  | nil =>
    intro done h hInv hW hst hnd hpw hcap
    exact ⟨h, by rw [h64_insert_list], rfl, by simp, rfl⟩
  | cons e rest ih =>
    intro done h hInv hW hst hnd hpw hcap
    rw [List.length_cons] at hcap
    have habs : ∀ y, stored h y → cb.equals e y = false := fun y hy =>
      hnd e (List.mem_cons_self e rest) y (hst y hy)
    obtain ⟨h2, hins, hcore⟩ := h64_insert_fresh hInv hW habs (by omega)
    obtain ⟨hInv2, hc2, hs2, hsd2, hstre, hwpres, hstm, hstr, hFI2, hWFu2⟩ :=
      insert_new_core_spec hInv hcore
    rw [List.pairwise_cons] at hpw
    obtain ⟨h3, hrun, hsz3, hcnt3, hsd3⟩ :=
      ih (done ++ [e]) h2 hInv2 (hWFu2 hW)
        (fun x hx => by
          rcases hstr x hx with hx2 | rfl
          · exact List.mem_append_left _ (hst x hx2)
          · exact List.mem_append_right _ (List.mem_singleton_self x))
        (fun e2 he2 d hd => by
          rcases List.mem_append.mp hd with hd2 | hd2
          · exact hnd e2 (List.mem_cons_of_mem e he2) d hd2
          · rw [List.mem_singleton.mp hd2]
            exact hpw.1 e2 he2)
        hpw.2
        (by rw [hc2, hs2]; omega)
    refine ⟨h3, ?_, by rw [hsz3, hs2], ?_, by rw [hsd3, hsd2]⟩
    · rw [h64_insert_list, hins]
      exact hrun
    · rw [hcnt3, hc2, List.length_cons]
      omega

/-- The clamped reserve target holds n elements below the grow threshold:
with g = max(MIN_SIZE, roundup_pow2(floor(floor(100 n / 67) / 7) + 1)),
n ≤ floor(0.67 * g * 7). -/
theorem reserve_capacity {n : Nat} (hn : n ≤ 2 ^ 60) :
    n ≤ max_load_count
      ((if roundup_to_pow2 (100 * n / 67 / GROUP_ENTRIES + 1) < MIN_SIZE
        then MIN_SIZE
        else roundup_to_pow2 (100 * n / 67 / GROUP_ENTRIES + 1)) *
        GROUP_ENTRIES) := by
  have hT7 : 100 * n / 67 / 7 * 7 ≤ 100 * n / 67 := Nat.div_mul_le_self _ _
  have hT7b := Nat.div_add_mod (100 * n / 67) 7
  have hT7m := Nat.mod_lt (100 * n / 67) (y := 7) (by omega)
  have hTb := Nat.div_add_mod (100 * n) 67
  have hTm := Nat.mod_lt (100 * n) (y := 67) (by omega)
  have hm63 : 100 * n / 67 / 7 + 1 ≤ 2 ^ 63 := by
    have hd1 : 100 * n / 67 ≤ 100 * n := Nat.div_le_self _ _
    have hd2 : 100 * n / 67 / 7 ≤ 100 * n / 67 := Nat.div_le_self _ _
    have : (100 : Nat) * n ≤ 100 * 2 ^ 60 := by omega
    omega
  obtain ⟨⟨k2, hk2⟩, hge⟩ :=
    roundup_spec (n := 100 * n / 67 / 7 + 1) (by omega) hm63
  rw [GROUP_ENTRIES, MIN_SIZE, max_load_count]
  rw [Nat.le_div_iff_mul_le (by norm_num)]
  split
  · omega
  · omega

/-- C9 (amended): on a fresh (empty) table, reserve(n) rehashes to exactly
max(4, roundup_pow2(floor(floor(100 n / 67) / 7) + 1)) groups, and
subsequently inserting up to n pairwise-distinct elements never changes
size_in_groups; the count afterwards is the number of inserted elements.
The original claim's arbitrary starting table is wrong (see the
counterexample); n is bounded by 2^60 to keep the requested byte size within
the reach of the C size_t arithmetic. -/
theorem C9_reserve_then_distinct_inserts {E : Type} {cb : Callbacks E}
    {gas gas2 : Nat} {seeds seeds2 : List Nat} {seed n : Nat} {hR : h64 E}
    (hn : n ≤ 2 ^ 60)
    (hres : h64_reserve cb gas (h64_create E seed) n seeds = some hR)
    (es : List E) (hlen : es.length ≤ n)
    (hpw : List.Pairwise (fun a b => cb.equals b a = false) es) :
    hR.size_in_groups =
      (if roundup_to_pow2 (100 * n / 67 / 7 + 1) < 4 then 4
       else roundup_to_pow2 (100 * n / 67 / 7 + 1)) ∧
    ∃ h2, h64_insert_list cb gas2 seeds2 hR es = some h2 ∧
      h2.size_in_groups = hR.size_in_groups ∧ h2.count = es.length := by
  obtain ⟨hInv0, hCB0, hFI0, hWF0, hcnt0, hseed0, hsize0, hnost0⟩ :=
    h64_init_spec (E := E) cb seed 4 (Or.inr ⟨2, rfl⟩)
  have hgas : gas ≠ 0 := by
    intro h0
    rw [h0, h64_reserve, h64_resize_zero] at hres
    exact absurd hres (by simp)
  have hm63 : 100 * n / 67 / 7 + 1 ≤ 2 ^ 63 := by
    have hd1 : 100 * n / 67 ≤ 100 * n := Nat.div_le_self _ _
    have hd2 : 100 * n / 67 / 7 ≤ 100 * n / 67 := Nat.div_le_self _ _
    have : (100 : Nat) * n ≤ 100 * 2 ^ 60 := by omega
    omega
  obtain ⟨hk, hge⟩ :=
    roundup_spec (n := 100 * n / 67 / 7 + 1) (by omega) hm63
  have hkG : ∃ k, roundup_to_pow2 (100 * n / 67 / GROUP_ENTRIES + 1) =
      2 ^ k := by
    rw [show GROUP_ENTRIES = 7 from rfl]
    exact hk
  obtain ⟨hszR, hcnR, hIR, hFR, hWR, hstR⟩ :=
    h64_reserve_exact hInv0 hgas (Nat.le_add_right_of_le (Nat.zero_le _)) hkG
      hres
  have hsz7 : hR.size_in_groups =
      (if roundup_to_pow2 (100 * n / 67 / 7 + 1) < 4 then 4
       else roundup_to_pow2 (100 * n / 67 / 7 + 1)) := by
    rw [hszR, show GROUP_ENTRIES = 7 from rfl, show MIN_SIZE = 4 from rfl]
  refine ⟨hsz7, ?_⟩
  have hcap : hR.count + es.length ≤
      max_load_count (hR.size_in_groups * GROUP_ENTRIES) := by
    have hcapn := reserve_capacity hn
    rw [← hszR] at hcapn
    rw [hcnR, hcnt0]
    omega
  obtain ⟨h2, hrun, hsz2, hcnt2, hsd2⟩ :=
    insert_list_fresh gas2 seeds2 es [] hR hIR hWR
      (fun x hx => absurd ((hstR x).mp hx) (hnost0 x))
      (fun e2 _ d hd => absurd hd (List.not_mem_nil d))
      hpw hcap
  refine ⟨h2, hrun, hsz2, ?_⟩
  rw [hcnt2, hcnR, hcnt0]
  omega

/-- The 19-insert table after reserve(1): the requested size rounds up to
MIN_SIZE = 4 and the 19 elements are reinserted into 4 groups again. -/
def T19r : h64 Nat :=
  (h64_reserve cbN 5 T19 1 [0, 0, 0, 0, 0]).getD (h64_create Nat 0)

theorem T19r_run :
    h64_reserve cbN 5 T19 1 [0, 0, 0, 0, 0] = some T19r := by rfl

theorem T19r_reachable : Reachable cbN T19r :=
  Reachable.reserve 5 1 [0, 0, 0, 0, 0] T19_reachable T19r_run

/-- C9 (counterexample): the original claim quantifies over every table.  On
the reachable 19-element table, reserve(1) lands on 4 groups with count 19,
and the very first subsequent insert of the fresh element 100 (distinct from
everything stored, so N = 1 ≤ 1) fires the grow check and doubles
size_in_groups — the size does not stay at its post-reserve value. -/
theorem C9_reserve_counterexample :
    Reachable cbN T19r ∧
      (∀ y, stored T19r y → cbN.equals 100 y = false) ∧
      ∃ h2, h64_insert cbN 5 [0, 0, 0] T19r 100 = some h2 ∧
        h2.size_in_groups ≠ T19r.size_in_groups := by
  refine ⟨T19r_reachable, ?_, ?_⟩
  · intro y hy
    rcases eq_or_ne y 100 with rfl | hne
    · obtain ⟨pos, i, hpos, hi, hent⟩ := hy
      have hsz : T19r.size_in_groups = 4 := by rfl
      have hall : ∀ pos2, pos2 < 4 → ∀ i2, i2 < 7 →
          (group_at T19r pos2).entries.getD i2 none ≠ some 100 := by decide
      exact absurd hent (hall pos (by omega) i hi)
    · show (100 == y) = false
      exact beq_eq_false_iff_ne.mpr (fun hc => hne hc.symm)
  · exact ⟨(h64_insert cbN 5 [0, 0, 0] T19r 100).getD (h64_create Nat 0),
      by rfl, by decide⟩

/-- The result of reserve(3) on a fresh table. -/
def TRes3 : h64 Nat :=
  (h64_reserve cbN 5 (h64_create Nat 0) 3 [0, 0, 0, 0, 0]).getD
    (h64_create Nat 0)

theorem TRes3_run :
    h64_reserve cbN 5 (h64_create Nat 0) 3 [0, 0, 0, 0, 0] = some TRes3 := by
  rfl

/-- C9 witness: reserve(3) on a fresh table keeps the minimum size of 4
groups, and inserting the three distinct elements 1, 2, 3 neither fails nor
changes the size. -/
theorem C9_reserve_then_distinct_inserts_witness :
    TRes3.size_in_groups =
      (if roundup_to_pow2 (100 * 3 / 67 / 7 + 1) < 4 then 4
       else roundup_to_pow2 (100 * 3 / 67 / 7 + 1)) ∧
    ∃ h2, h64_insert_list cbN 5 [0] TRes3 [1, 2, 3] = some h2 ∧
      h2.size_in_groups = TRes3.size_in_groups ∧
      h2.count = [1, 2, 3].length :=
  C9_reserve_then_distinct_inserts (by decide) TRes3_run [1, 2, 3]
    (by decide) (by decide)

end H64
